import Mathlib

/-!
Verification of the neo/NIX mapping layer of this repository.

The development shallowly embeds the two I/O iterations found in the source:

* `NeoNix` — `src/neonix/io/nixio.py` (class `NixIO`): name resolution
  (`_neo_attr_to_nix`), the multi-channel signal decomposition/recomposition
  (`write_analogsignal`, `_group_signals`, `_signal_da_to_neo`), and the
  value conversion used when writing metadata (`_to_value`,
  `_add_annotations`, `_nix_attr_to_neo`).
* `NeoToNix` — `src/neo2nix/nixio.py` (class `Writer` with its `Help`
  namespace, plus `ProxyList`): the diff-based synchroniser
  (`write_block` / `write_segment` / `write_recordingchannelgroup` /
  `write_analogsignal`, `Help.compare`, `Help.clean`,
  `Help.get_or_create_section`, `Help.write_metadata`) and the lazy
  collection proxy.

Machine integers of the source are modelled as `Int`/`Nat`; Python decimal
rendering (`str(idx)`) is modelled by an executable decimal printer.
Floating point payloads are modelled by `Int` payloads: none of the verified
properties depends on float arithmetic, only on values being carried around
unchanged.  Python `dict`s are modelled as association lists with in-place
update (insertion order preserved, as in Python 3), and Python `set`
iteration is determinised as order-preserving deduplicated filtering; all
verified properties are independent of set iteration order.
-/

namespace NeoNix

/-- One decimal digit as a character, i.e. Python's `str` on `0`–`9`. -/
def digitChar (n : Nat) : Char := Char.ofNat (48 + n)

/-- Decimal digits of `n` (most significant first), fuel-indexed so that the
definition is structurally recursive.  With fuel at least the number of
digits this is Python's `str(n)`. -/
def natChars : Nat → Nat → List Char
  | 0, _ => []
  | fuel + 1, n =>
      if n < 10 then [digitChar n]
      else natChars fuel (n / 10) ++ [digitChar (n % 10)]

/-- Python's `str(n)` for a natural number. -/
def natStr (n : Nat) : String := String.mk (natChars (n + 1) n)

/-- The candidate name tried at counter value `idx`:
`"{}-{}".format(basename, idx)` from `_neo_attr_to_nix`. -/
def candName (basename : String) (idx : Nat) : String :=
  basename ++ "-" ++ natStr idx

/-- The `while nix_name+suffix in container` loop of `_neo_attr_to_nix`
(`src/neonix/io/nixio.py` lines 783–788), fuel-indexed.  `container` is the
list of names present in the sibling container. -/
def resolveLoop (basename suffix : String) (container : List String) :
    Nat → Nat → String
  | 0, idx => candName basename idx
  | fuel + 1, idx =>
      if candName basename idx ++ suffix ∈ container then
        resolveLoop basename suffix container fuel (idx + 1)
      else candName basename idx

/-- Name resolution of `_neo_attr_to_nix` (`src/neonix/io/nixio.py` lines
777–789): the basename is probed with a kind-dependent `suffix` (`".0"` for
signal kinds, `""` otherwise); on collision the `-1`, `-2`, … counter is
appended until the probed name is free.  The fuel `container.length + 1`
suffices: among that many distinct candidates one is always free. -/
def resolveName (basename suffix : String) (container : List String) : String :=
  if basename ++ suffix ∈ container then
    resolveLoop basename suffix container (container.length + 1) 1
  else basename

/-- Default basename for an unnamed neo object:
`"neo.{}".format(type(neo_obj).__name__)` (`src/neonix/io/nixio.py` line 776). -/
def defaultBasename (neoType : String) : String := "neo." ++ neoType

/-- Value of a digit string, used to invert `natChars`. -/
def charsVal (l : List Char) : Nat :=
  l.foldl (fun a c => 10 * a + (c.toNat - 48)) 0

/-- A NIX `DataArray` as produced by `write_analogsignal` for one channel of
a `T`-sample signal: its name, the identity of its metadata `Section`
(`nix_data_array.metadata = anasig_group_segment`, identity modelled as a
`Nat` key), and its one-dimensional payload.  The sampled time dimension and
the set dimension carry no payload and play no role in the recomposition
being verified, so they are not recorded. -/
structure DataArray (T : Nat) (α : Type) where
  name : String
  secId : Nat
  data : Fin T → α

/-- `write_analogsignal` (`src/neonix/io/nixio.py` lines 436–455) restricted
to its payload effect: `for idx, sig in enumerate(anasig.transpose())` creates
one DataArray per channel, named `"{}.{}".format(attr["name"], idx)`, with
payload the idx-th column and metadata pointing at the one shared section. -/
def writeAnalogsignalArrays {T C : Nat} {α : Type} (base : String) (sec : Nat)
    (payload : Fin T → Fin C → α) : List (DataArray T α) :=
  List.ofFn (fun c : Fin C =>
    ⟨base ++ "." ++ natStr c.val, sec, fun t => payload t c⟩)

/-- One step of the dictionary build inside `_group_signals`
(`src/neonix/io/nixio.py` lines 908–914): append the array to the group of
its metadata section if one exists, otherwise start a new group (Python
dicts preserve insertion order). -/
def groupInsert {T : Nat} {α : Type} (da : DataArray T α) :
    List (Nat × List (DataArray T α)) → List (Nat × List (DataArray T α))
  | [] => [(da.secId, [da])]
  | g :: rest =>
      if g.1 = da.secId then (g.1, g.2 ++ [da]) :: rest
      else g :: groupInsert da rest

/-- `_group_signals`: group the data arrays of a NIX group by the identity of
their metadata section, returning the dict's values. -/
def groupSignals {T : Nat} {α : Type} (das : List (DataArray T α)) :
    List (List (DataArray T α)) :=
  (das.foldl (fun gs da => groupInsert da gs) []).map Prod.snd

/-- The `sorted(nix_da_group, key=lambda d: d.name)` step of
`_signal_da_to_neo` (`src/neonix/io/nixio.py` line 221), modelled as a
stable ascending sort by name. -/
def sortByName {T : Nat} {α : Type} (das : List (DataArray T α)) :
    List (DataArray T α) :=
  List.insertionSort (fun x y => x.name ≤ y.name) das

/-- The `np.transpose(nix_da_group)` stacking of `_signal_da_to_neo`
(line 226): the channel-major list of single-channel arrays becomes a
time × channel payload; entry `(t, c)` is sample `t` of the `c`-th array of
the sorted group (`none` when the channel index is out of range). -/
def stackPayload {T : Nat} {α : Type} (das : List (DataArray T α))
    (t : Fin T) (c : Nat) : Option α :=
  (das[c]?).map (fun da => da.data t)

/-- Values of the neo attribute surface as seen by `_to_value`
(`src/neonix/io/nixio.py` lines 809–849).  `pyQuantity` models a
`pq.Quantity`, `pyDatetime` a `datetime` (already reduced to its
`calculate_timestamp` value), `pyNpScalar` a numpy scalar, `pyList` any
iterable that is not a string or bytes. -/
inductive PyV
  | pyQuantity (mag : Int) (unit : String)
  | pyDatetime (ts : Int)
  | pyStr (s : String)
  | pyBytes (s : String)
  | pyList (items : List PyV)
  | pyNpScalar (n : Int)
  | pyInt (n : Int)
  | pyBool (b : Bool)

/-- A `nixio.Value`. -/
inductive NxVal
  | vInt (n : Int)
  | vStr (s : String)
  | vBool (b : Bool)
deriving DecidableEq

/-- The result of `_to_value`: a single `nixio.Value` or a list of them. -/
inductive ValRes
  | one (v : NxVal)
  | many (vs : List NxVal)
deriving DecidableEq

/-- `_to_value` (`src/neonix/io/nixio.py` lines 809–849).  `none` models the
`return None` paths.  Note the `Iterable` branch: the source tests
`isinstance(v, Iterable)` — the *container*, not the loop item — inside the
loop over the items, so every non-empty sequence returns `None` after a
warning, and an empty sequence falls through to `vv = None`. -/
def toValue : PyV → Option ValRes
  | .pyQuantity _ _ => none
  | .pyDatetime ts => some (.one (.vInt ts))
  | .pyStr s => some (.one (.vStr s))
  | .pyBytes s => some (.one (.vStr s))
  | .pyList [] => none
  | .pyList (_ :: _) => none
  | .pyNpScalar n => some (.one (.vInt n))
  | .pyInt n => some (.one (.vInt n))
  | .pyBool b => some (.one (.vBool b))

/-- Whether `_to_value` issues an "unsupported" warning for this value: the
`pq.Quantity` branch and the first loop iteration of a non-empty iterable do
(this is the reported rejection); everything else converts silently. -/
def toValueWarns : PyV → Bool
  | .pyQuantity _ _ => true
  | .pyList (_ :: _) => true
  | _ => false

/-- `_add_annotations` (`src/neonix/io/nixio.py` lines 803–807): for every
annotation entry, convert the value with `_to_value` and create a property
on the metadata section; a rejected value results in a valueless property
(the store call receives `None`), never in an abort. -/
def addAnnotations (anns : List (String × PyV))
    (props : List (String × Option ValRes)) : List (String × Option ValRes) :=
  anns.foldl (fun ps kv => ps ++ [(kv.1, toValue kv.2)]) props

/-- A neo-side attribute value produced on read. -/
inductive NeoAttrVal
  | scalar (v : NxVal)
  | seq (vs : List NxVal)
deriving DecidableEq

/-- Property value unwrapping of `_nix_attr_to_neo` (`src/neonix/io/nixio.py`
lines 883–888): a property with exactly one value unwraps to a scalar, any
other property becomes the list of values. -/
def nixPropToNeo (values : List NxVal) : NeoAttrVal :=
  match values with
  | [v] => .scalar v
  | vs => .seq vs

end NeoNix

namespace NeoToNix

/-- A `nix.Value`. -/
inductive NVal
  | i (n : Int)
  | s (str : String)
deriving DecidableEq

/-- A value in a metadata dictionary before conversion: a scalar or a
one-dimensional sequence (`make_nix_values` in `Writer.Help.write_metadata`
distinguishes exactly `list`/`tuple` from everything else). -/
inductive PVal
  | scalar (v : NVal)
  | seq (vs : List NVal)
deriving DecidableEq

/-- `make_nix_values` (`src/neo2nix/nixio.py` lines 454–457): a scalar
becomes a one-element value list, a sequence becomes one value per element. -/
def makeNixValues : PVal → List NVal
  | .scalar v => [v]
  | .seq vs => vs

/-- A property of a NIX section. -/
structure NProp where
  name : String
  values : List NVal
deriving DecidableEq

/-- A NIX metadata section: name, type, child sections and properties. -/
inductive Sec
  | mk (name stype : String) (subs : List Sec) (props : List NProp)

def Sec.name : Sec → String
  | .mk n _ _ _ => n

def Sec.stype : Sec → String
  | .mk _ t _ _ => t

def Sec.subs : Sec → List Sec
  | .mk _ _ s _ => s

def Sec.props : Sec → List NProp
  | .mk _ _ _ p => p

def Sec.withSubs : Sec → List Sec → Sec
  | .mk n t _ p, s => .mk n t s p

def Sec.withProps : Sec → List NProp → Sec
  | .mk n t s _, p => .mk n t s p

/-- Replace the named child section (if present) by `f` of it. -/
def secUpdate (secs : List Sec) (n : String) (f : Sec → Sec) : List Sec :=
  secs.map (fun s => if s.name = n then f s else s)

def secHas (secs : List Sec) (n : String) : Bool :=
  secs.any (fun s => s.name == n)

/-- The section at a path of names, or `none`. -/
def secAt : List String → List Sec → Option Sec
  | [], _ => none
  | [n], secs => secs.find? (fun s => s.name == n)
  | n :: m :: rest, secs =>
      match secs.find? (fun s => s.name == n) with
      | none => none
      | some s => secAt (m :: rest) s.subs

/-- Apply `f` to the section at the given path (no-op on a missing path,
which the source would have crashed on and which never arises in the
verified flows). -/
def modifyAt : List String → (Sec → Sec) → List Sec → List Sec
  | [], _, secs => secs
  | [n], f, secs => secUpdate secs n f
  | n :: m :: rest, f, secs =>
      secUpdate secs n (fun s => s.withSubs (modifyAt (m :: rest) f s.subs))

/-- `try sections[n] except KeyError: create_section(n, t)` on a child list. -/
def getOrCreateSub (secs : List Sec) (n t : String) : List Sec :=
  if secHas secs n then secs else secs ++ [.mk n t [] []]

/-- Get-or-create a chain of nested child sections. -/
def ensureChain : List (String × String) → List Sec → List Sec
  | [], secs => secs
  | (n, t) :: rest, secs =>
      secUpdate (getOrCreateSub secs n t) n (fun s => s.withSubs (ensureChain rest s.subs))

/-- `Writer.Help.get_or_create_section` (`src/neo2nix/nixio.py` lines
436–450) with a `Section` root: under the section at `rootPath`, get or
create the group section `group + "s"` (typed `group`) and inside it the
target section `name` (typed `group`). -/
def getOrCreateSection (secs : List Sec) (rootPath : List String)
    (group name : String) : List Sec :=
  modifyAt rootPath
    (fun root => root.withSubs
      (ensureChain [(group ++ "s", group), (name, group)] root.subs)) secs

/-- `Writer.Help.get_or_create_section` with the file as root (the Block
case): the file skips the group level and the target is a root section. -/
def getOrCreateFileSec (secs : List Sec) (name : String) : List Sec :=
  getOrCreateSub secs name "block"

/-- One property upsert of `Writer.Help.write_metadata`: update the values
of an existing property in place, otherwise create the property. -/
def upsertProp (props : List NProp) (k : String) (vs : List NVal) : List NProp :=
  if props.any (fun p => p.name == k) then
    props.map (fun p => if p.name = k then ⟨k, vs⟩ else p)
  else props ++ [⟨k, vs⟩]

/-- `Writer.Help.write_metadata` (`src/neo2nix/nixio.py` lines 452–470)
applied to the section at `path`.  The `None`-filtering of `to_store` is
implicit: the model's dictionaries only hold non-`None` values. -/
def writeProps (secs : List Sec) (path : List String)
    (d : List (String × PVal)) : List Sec :=
  modifyAt path
    (fun s => s.withProps
      (d.foldl (fun ps kv => upsertProp ps kv.1 (makeNixValues kv.2)) s.props)) secs

/-- A neo `AnalogSignal` as consumed by the writer: payload bytes
(`signal.tostring()` modelled by the sample list), unit, `t_start` with its
unit, sampling rate with its unit, the optional direct attributes and the
annotation dictionary. -/
structure NeoSignal where
  data : List Int
  unit : String
  tStart : Int
  tStartUnit : String
  sampleRate : Int
  sampleRateUnit : String
  name : Option String
  description : Option String
  fileOrigin : Option String
  anns : List (String × PVal)
deriving DecidableEq

/-- A neo `Segment` (of the entity kinds modelled here: analog signals; the
spike-train/event/epoch children follow the identical `write_multiple`
pattern and are not modelled). -/
structure NeoSegment where
  name : String
  description : Option String
  fileOrigin : Option String
  fileDatetime : Option Int
  recDatetime : Option Int
  index : Option Int
  analogsignals : List NeoSignal
  anns : List (String × PVal)
deriving DecidableEq

/-- A neo `RecordingChannelGroup` (units are not modelled: with no units the
`write_units` diff is empty and writes nothing). -/
structure NeoRCG where
  name : String
  description : Option String
  fileOrigin : Option String
  channelIndexes : Option (List Int)
  channelNames : Option (List String)
  analogsignals : List NeoSignal
  anns : List (String × PVal)
deriving DecidableEq

/-- A neo `Block`. -/
structure NeoBlock where
  name : String
  description : Option String
  fileOrigin : Option String
  fileDatetime : Option Int
  recDatetime : Option Int
  index : Option Int
  segments : List NeoSegment
  rcgs : List NeoRCG
  anns : List (String × PVal)
deriving DecidableEq

/-- Python's `hash` on the payload bytes, modelled by a definite function of
the sample list. -/
def pyHash (l : List Int) : Nat :=
  l.foldl (fun a x => 31 * a + x.natAbs + 1) 7

/-- `str(hash(bytes))`: the content key of a payload. -/
def pyHashStr (l : List Int) : String := NeoNix.natStr (pyHash l)

/-- `Writer.Help.get_obj_nix_name` (`src/neo2nix/nixio.py` lines 415–422)
for analog signals: `str(hash(neo_obj.tostring()))`, a stable hash of the
raw payload bytes. -/
def hashName (sg : NeoSignal) : String := pyHashStr sg.data

/-- Python `dict` update `d[k] = v`: replace in place, else append. -/
def dictUpsert (d : List (String × PVal)) (k : String) (v : PVal) :
    List (String × PVal) :=
  if d.any (fun kv => kv.1 == k) then
    d.map (fun kv => if kv.1 = k then (k, v) else kv)
  else d ++ [(k, v)]

/-- `metadata[attr_name] = getattr(obj, attr_name)` guarded by
`is not None`. -/
def addOptAttr (d : List (String × PVal)) (k : String) :
    Option PVal → List (String × PVal)
  | none => d
  | some v => dictUpsert d k v

/-- `Writer.Help.extract_metadata` for a Block: the annotation dict, then
the non-`None` direct attributes `description`, `file_origin` (defaults)
and `file_datetime`, `rec_datetime`, `index` (block attrs). -/
def extractBlockMeta (b : NeoBlock) : List (String × PVal) :=
  addOptAttr (addOptAttr (addOptAttr (addOptAttr (addOptAttr b.anns
    "description" (b.description.map (fun v => .scalar (.s v))))
    "file_origin" (b.fileOrigin.map (fun v => .scalar (.s v))))
    "file_datetime" (b.fileDatetime.map (fun v => .scalar (.i v))))
    "rec_datetime" (b.recDatetime.map (fun v => .scalar (.i v))))
    "index" (b.index.map (fun v => .scalar (.i v)))

/-- `Writer.Help.extract_metadata` for a Segment. -/
def extractSegMeta (sg : NeoSegment) : List (String × PVal) :=
  addOptAttr (addOptAttr (addOptAttr (addOptAttr (addOptAttr sg.anns
    "description" (sg.description.map (fun v => .scalar (.s v))))
    "file_origin" (sg.fileOrigin.map (fun v => .scalar (.s v))))
    "file_datetime" (sg.fileDatetime.map (fun v => .scalar (.i v))))
    "rec_datetime" (sg.recDatetime.map (fun v => .scalar (.i v))))
    "index" (sg.index.map (fun v => .scalar (.i v)))

/-- `Writer.Help.extract_metadata` for a RecordingChannelGroup
(`recordingchannelgroup_meta_attrs = ('name', 'channel_indexes',
'channel_names')`). -/
def extractRCGMeta (r : NeoRCG) : List (String × PVal) :=
  addOptAttr (addOptAttr (addOptAttr (addOptAttr (addOptAttr r.anns
    "description" (r.description.map (fun v => .scalar (.s v))))
    "file_origin" (r.fileOrigin.map (fun v => .scalar (.s v))))
    "name" (some (.scalar (.s r.name))))
    "channel_indexes" (r.channelIndexes.map (fun l => .seq (l.map .i))))
    "channel_names" (r.channelNames.map (fun l => .seq (l.map .s)))

/-- `Writer.Help.extract_metadata` for an AnalogSignal
(`analogsignal_meta_attrs = ('name',)`). -/
def extractSigMeta (sg : NeoSignal) : List (String × PVal) :=
  addOptAttr (addOptAttr (addOptAttr sg.anns
    "description" (sg.description.map (fun v => .scalar (.s v))))
    "file_origin" (sg.fileOrigin.map (fun v => .scalar (.s v))))
    "name" (sg.name.map (fun v => .scalar (.s v)))

/-- The metadata dict written by `Writer.write_analogsignal`: the extracted
metadata plus the special `t_start` serialisation. -/
def extractSigFull (sg : NeoSignal) : List (String × PVal) :=
  dictUpsert (dictUpsert (extractSigMeta sg)
    "t_start" (.scalar (.i sg.tStart)))
    "t_start__unit" (.scalar (.s sg.tStartUnit))

/-- A sampled dimension of a NIX data array. -/
structure NDim where
  interval : Int
  unit : String
deriving DecidableEq

/-- A NIX `DataArray`: name, type, payload, unit, dimension descriptors,
the names of the `Source`s linked to it, and the path of its metadata
section. -/
structure NDA where
  name : String
  dtype : String
  data : List Int
  unit : String
  dims : List NDim
  sources : List String
  metaPath : List String
deriving DecidableEq

/-- A NIX `Tag` (one per segment): name, type, names of referenced data
arrays, metadata section path.  The constant `[0.0]` position payload of
`create_tag` is not recorded. -/
structure NTag where
  name : String
  ttype : String
  references : List String
  metaPath : List String
deriving DecidableEq

/-- A NIX `Source` (one per recording channel group). -/
structure NSrc where
  name : String
  stype : String
  metaPath : List String
deriving DecidableEq

/-- A NIX `Block`. -/
structure NBlock where
  name : String
  btype : String
  tags : List NTag
  sources : List NSrc
  dataArrays : List NDA
  metaPath : List String
deriving DecidableEq

/-- The working state of the writer inside one block: the block and the
file's root section forest (sections are owned by the file; block metadata
is the root section named after the block). -/
structure WState where
  blk : NBlock
  secs : List Sec

/-- A NIX file: blocks plus root sections. -/
structure NFile where
  blocks : List NBlock
  secs : List Sec

/-- `Writer.Help.compare` (`src/neo2nix/nixio.py` lines 472–479) on the two
key lists (the caller applies `get_obj_nix_name` to the neo objects and
`.name` to the NIX objects): `to_remove` is the set of existing names not
among the resolved keys, `to_append` the set of resolved keys not among the
existing names.  Python set iteration is determinised as deduplicated
order-preserving filtering. -/
def compare (neoKeys nixNames : List String) : List String × List String :=
  ((nixNames.filter (fun n => !neoKeys.contains n)).dedup,
   (neoKeys.filter (fun n => !nixNames.contains n)).dedup)

/-- `has_references` of `Writer.Help.clean`: some tag of the block
references the named array. -/
def daHasTagRef (tags : List NTag) (n : String) : Bool :=
  tags.any (fun t => t.references.contains n)

/-- `Writer.Help.clean` (`src/neo2nix/nixio.py` lines 481–494): delete every
data array that has no tag reference and no source link. -/
def clean (blk : NBlock) : NBlock :=
  { blk with dataArrays :=
      blk.dataArrays.filter (fun da => daHasTagRef blk.tags da.name || !da.sources.isEmpty) }

/-- Whether the named array exists and has the given type (used when
filtering typed references). -/
def daHasType (das : List NDA) (n t : String) : Bool :=
  match das.find? (fun da => da.name == n) with
  | some da => da.dtype == t
  | none => false

/-- The in-place mutations `Writer.write_analogsignal` performs on the
array found (or created) under the content key: set the unit, create the
sampled dimension only when no dimension exists, set the dimension's unit,
and point the metadata field at the signal's section. -/
def dsUpdate (mp : List String) (sg : NeoSignal) (da : NDA) : NDA :=
  if da.name = hashName sg then
    { da with
      unit := sg.unit,
      dims := match (if da.dims.isEmpty then [⟨sg.sampleRate, ""⟩] else da.dims) with
        | [] => []
        | d0 :: rest => ⟨d0.interval, sg.sampleRateUnit⟩ :: rest,
      metaPath := mp }
  else da

/-- The array freshly created by `create_data_array` + `append(signal)`. -/
def freshDA (sg : NeoSignal) : NDA :=
  ⟨hashName sg, "analogsignal", sg.data, "", [], [], []⟩

/-- `Writer.write_analogsignal` (`src/neo2nix/nixio.py` lines 660–695) on
the data arrays and section forest of one block whose metadata section path
is `blockMeta`: look the array up under the content key, creating it (with
the payload appended) only when absent; apply the in-place mutations; get
or create the metadata section and write the metadata (with the special
`t_start` serialisation). -/
def writeAnalogsignalDS (blockMeta : List String) (das : List NDA)
    (secs : List Sec) (sg : NeoSignal) : List NDA × List Sec :=
  let nm := hashName sg
  let das1 := if das.any (fun da => da.name == nm) then das else das ++ [freshDA sg]
  (das1.map (dsUpdate (blockMeta ++ ["analogsignals", nm]) sg),
   writeProps (getOrCreateSection secs blockMeta "analogsignal" nm)
     (blockMeta ++ ["analogsignals", nm]) (extractSigFull sg))

/-- `seg.analogsignals`-style fold of `Writer.write_analogsignal` over a
list of signals, threading the arrays and sections of the block. -/
def foldWriteDS (bm : List String) (p : List NDA × List Sec)
    (sgs : List NeoSignal) : List NDA × List Sec :=
  sgs.foldl (fun p sg => writeAnalogsignalDS bm p.1 p.2 sg) p

/-- `write_segment`: `try tags[name] except KeyError: create_tag(...)`. -/
def segTags0 (ws : WState) (seg : NeoSegment) : List NTag :=
  if ws.blk.tags.any (fun t => t.name == seg.name) then ws.blk.tags
  else ws.blk.tags ++ [⟨seg.name, "segment", [], []⟩]

/-- The metadata path of a segment's tag. -/
def segMp (ws : WState) (seg : NeoSegment) : List String :=
  ws.blk.metaPath ++ ["segments", seg.name]

/-- `nix_tag.metadata = get_or_create_section(...)`: record the path. -/
def segTags1 (ws : WState) (seg : NeoSegment) : List NTag :=
  (segTags0 ws seg).map (fun t =>
    if t.name = seg.name then { t with metaPath := segMp ws seg } else t)

/-- The references of the segment's tag before the signal diff. -/
def segRefs (ws : WState) (seg : NeoSegment) : List String :=
  match (segTags1 ws seg).find? (fun t => t.name == seg.name) with
  | some t => t.references
  | none => []

/-- `existing = list(filter(lambda x: x.type == 'analogsignal',
nix_tag.references))`. -/
def segExisting (ws : WState) (seg : NeoSegment) : List String :=
  (segRefs ws seg).filter (fun n => daHasType ws.blk.dataArrays n "analogsignal")

/-- The `(to_remove, to_append)` diff of the segment's signals. -/
def segDiff (ws : WState) (seg : NeoSegment) : List String × List String :=
  compare (seg.analogsignals.map hashName) (segExisting ws seg)

/-- Section state after the tag's metadata section is created and filled. -/
def segSecs2 (ws : WState) (seg : NeoSegment) : List Sec :=
  writeProps (getOrCreateSection ws.secs ws.blk.metaPath "segment" seg.name)
    (segMp ws seg) (extractSegMeta seg)

/-- Arrays and sections after all of the segment's signals are written. -/
def segDs (ws : WState) (seg : NeoSegment) : List NDA × List Sec :=
  foldWriteDS ws.blk.metaPath (ws.blk.dataArrays, segSecs2 ws seg) seg.analogsignals

/-- The tag's references after the diff: drop `to_remove`, append
`to_append`. -/
def segRefs2 (ws : WState) (seg : NeoSegment) : List String :=
  (segRefs ws seg).filter (fun n => !(segDiff ws seg).1.contains n) ++ (segDiff ws seg).2

/-- The block's tags after the segment write. -/
def segTags2 (ws : WState) (seg : NeoSegment) : List NTag :=
  (segTags1 ws seg).map (fun t =>
    if t.name = seg.name then { t with references := segRefs2 ws seg } else t)

/-- `Writer.write_segment` (`src/neo2nix/nixio.py` lines 530–569): get or
create the tag; attach and fill its metadata section; run the
`write_multiple` diff for the analog signals against the tag's typed
references (write every signal, drop the references diffed away, append the
new ones); finally `clean` the block. -/
def writeSegment (ws : WState) (seg : NeoSegment) : WState :=
  ⟨clean { ws.blk with tags := segTags2 ws seg, dataArrays := (segDs ws seg).1 },
   (segDs ws seg).2⟩

/-- `write_recordingchannelgroup`: `try sources[name] except KeyError:
create_source(...)`. -/
def rcgSrcs0 (ws : WState) (rcg : NeoRCG) : List NSrc :=
  if ws.blk.sources.any (fun s => s.name == rcg.name) then ws.blk.sources
  else ws.blk.sources ++ [⟨rcg.name, "recordingchannelgroup", []⟩]

/-- The metadata path of a channel group's source. -/
def rcgMp (ws : WState) (rcg : NeoRCG) : List String :=
  ws.blk.metaPath ++ ["recordingchannelgroups", rcg.name]

/-- `nix_source.metadata = get_or_create_section(...)`: record the path. -/
def rcgSrcs1 (ws : WState) (rcg : NeoRCG) : List NSrc :=
  (rcgSrcs0 ws rcg).map (fun s =>
    if s.name = rcg.name then { s with metaPath := rcgMp ws rcg } else s)

/-- `existing` of `write_signals`: names of arrays typed `analogsignal`
that link this source. -/
def rcgExisting (ws : WState) (rcg : NeoRCG) : List String :=
  (ws.blk.dataArrays.filter
    (fun da => da.dtype == "analogsignal" && da.sources.contains rcg.name)).map
    (fun da => da.name)

/-- The `(to_remove, to_append)` diff of the group's signals. -/
def rcgDiff (ws : WState) (rcg : NeoRCG) : List String × List String :=
  compare (rcg.analogsignals.map hashName) (rcgExisting ws rcg)

/-- Section state after the source's metadata section is created and
filled. -/
def rcgSecs2 (ws : WState) (rcg : NeoRCG) : List Sec :=
  writeProps (getOrCreateSection ws.secs ws.blk.metaPath "recordingchannelgroup" rcg.name)
    (rcgMp ws rcg) (extractRCGMeta rcg)

/-- Arrays and sections after all of the group's signals are written. -/
def rcgDs (ws : WState) (rcg : NeoRCG) : List NDA × List Sec :=
  foldWriteDS ws.blk.metaPath (ws.blk.dataArrays, rcgSecs2 ws rcg) rcg.analogsignals

/-- Array link updates of `write_signals`: unlink `to_remove` from this
source, link `to_append` to it. -/
def rcgDas2 (ws : WState) (rcg : NeoRCG) : List NDA :=
  ((rcgDs ws rcg).1.map (fun da =>
    if (rcgDiff ws rcg).1.contains da.name then
      { da with sources := da.sources.filter (fun s => !(s == rcg.name)) }
    else da)).map (fun da =>
      if (rcgDiff ws rcg).2.contains da.name then
        { da with sources := da.sources ++ [rcg.name] }
      else da)

/-- `Writer.write_recordingchannelgroup` (`src/neo2nix/nixio.py` lines
572–618): get or create the source; attach and fill its metadata section;
`write_units` over the (unmodelled, hence absent) units writes nothing; run
the `write_signals` diff: write every signal, then unlink the arrays diffed
away from this source and link the new ones; finally `clean` the block. -/
def writeRCG (ws : WState) (rcg : NeoRCG) : WState :=
  ⟨clean { ws.blk with sources := rcgSrcs1 ws rcg, dataArrays := rcgDas2 ws rcg },
   (rcgDs ws rcg).2⟩

/-- Section state of `write_block` after the block's metadata section is
created (directly under the file root) and filled. -/
def blkSecs2 (ws : WState) (b : NeoBlock) : List Sec :=
  writeProps (getOrCreateFileSec ws.secs b.name) [b.name] (extractBlockMeta b)

/-- `to_remove` of `write_block`'s segment diff. -/
def blkRmT (blk1 : NBlock) (b : NeoBlock) : List String :=
  (compare (b.segments.map (fun s => s.name))
    ((blk1.tags.filter (fun t => t.ttype == "segment")).map (fun t => t.name))).1

/-- `to_remove` of `write_block`'s channel-group diff. -/
def blkRmS (blk2 : NBlock) (b : NeoBlock) : List String :=
  (compare (b.rcgs.map (fun r => r.name))
    ((blk2.sources.filter (fun s => s.stype == "recordingchannelgroup")).map
      (fun s => s.name))).1

/-- `write_block`'s `nix_block.metadata = ...` step: the block object with
its metadata path attached. -/
def blk1W (ws : WState) (b : NeoBlock) : NBlock :=
  { ws.blk with metaPath := [b.name] }

/-- State after `write_block` has written all segments. -/
def blkWs1 (ws : WState) (b : NeoBlock) : WState :=
  b.segments.foldl writeSegment ⟨blk1W ws b, blkSecs2 ws b⟩

/-- Block after the segment diff's `to_remove` tags are deleted. -/
def blk2W (ws : WState) (b : NeoBlock) : NBlock :=
  { (blkWs1 ws b).blk with
    tags := (blkWs1 ws b).blk.tags.filter (fun t => !(blkRmT (blk1W ws b) b).contains t.name) }

/-- State after `write_block` has written all recording channel groups. -/
def blkWs2 (ws : WState) (b : NeoBlock) : WState :=
  b.rcgs.foldl writeRCG ⟨blk2W ws b, (blkWs1 ws b).secs⟩

/-- `Writer.write_block` (`src/neo2nix/nixio.py` lines 496–528) given the
block object (looked up or created by name by `writeBlock`): attach and fill
the block metadata section, then run the `write_multiple` diff for segments
(write all, then delete the tags diffed away) and for recording channel
groups (write all, then delete the sources diffed away). -/
def writeBlockAux (ws : WState) (b : NeoBlock) : WState :=
  ⟨{ (blkWs2 ws b).blk with
     sources := (blkWs2 ws b).blk.sources.filter (fun s => !(blkRmS (blk2W ws b) b).contains s.name) },
   (blkWs2 ws b).secs⟩

/-- `try blocks[name] except KeyError: create_block(name, 'block')` followed
by `writeBlockAux`; the block is stored back in place (or appended when
fresh). -/
def writeBlock (f : NFile) (b : NeoBlock) : NFile :=
  match f.blocks.find? (fun blk => blk.name == b.name) with
  | some blk0 =>
      let ws := writeBlockAux ⟨blk0, f.secs⟩ b
      ⟨f.blocks.map (fun blk => if blk.name = b.name then ws.blk else blk), ws.secs⟩
  | none =>
      let ws := writeBlockAux ⟨⟨b.name, "block", [], [], [], []⟩, f.secs⟩ b
      ⟨f.blocks ++ [ws.blk], ws.secs⟩

/-- A fresh store. -/
def emptyFile : NFile := ⟨[], []⟩

def dictKeysNodup (d : List (String × PVal)) : Prop := (d.map Prod.fst).Nodup

/-- All signals of a block, owned (in segments) or referenced (in groups). -/
def allSignals (b : NeoBlock) : List NeoSignal :=
  (b.segments.map (fun s => s.analogsignals)).flatten ++
    (b.rcgs.map (fun r => r.analogsignals)).flatten

/-- Well-formedness of a neo block as Python hands it over: sibling names
are unique (they are dictionary keys in the store), annotation dictionaries
have unique keys (they are Python dicts), and signals with equal content
keys are the same signal (the content-hash identity the writer relies on). -/
def WF (b : NeoBlock) : Prop :=
  (b.segments.map (fun s => s.name)).Nodup ∧
  (b.rcgs.map (fun r => r.name)).Nodup ∧
  (∀ s1 ∈ allSignals b, ∀ s2 ∈ allSignals b, hashName s1 = hashName s2 → s1 = s2) ∧
  dictKeysNodup b.anns ∧
  (∀ sg ∈ b.segments, dictKeysNodup sg.anns) ∧
  (∀ r ∈ b.rcgs, dictKeysNodup r.anns) ∧
  (∀ s ∈ allSignals b, dictKeysNodup s.anns)

instance (b : NeoBlock) : Decidable (WF b) := by
  unfold WF dictKeysNodup
  infer_instance

/-- A property slot holds exactly these values (uniformly over duplicates,
of which the verified flows create none). -/
def propIs (props : List NProp) (k : String) (vs : List NVal) : Prop :=
  (∃ p ∈ props, p.name = k) ∧ ∀ p ∈ props, p.name = k → p.values = vs

/-- The property fold of `Writer.Help.write_metadata`. -/
def propsFold (props : List NProp) (d : List (String × PVal)) : List NProp :=
  d.foldl (fun ps kv => upsertProp ps kv.1 (makeNixValues kv.2)) props

/-- Every entry of the dictionary is already stored with exactly its
values. -/
def propsAgreeD (props : List NProp) (d : List (String × PVal)) : Prop :=
  ∀ kv ∈ d, propIs props kv.1 (makeNixValues kv.2)

/-- The group section `gs` exists under every root named `b`, and the target
`x` exists in every such group. -/
def HasGT (secs : List Sec) (b gs x : String) : Prop :=
  ∀ r ∈ secs, r.name = b → secHas r.subs gs = true ∧
    ∀ g ∈ r.subs, g.name = gs → secHas g.subs x = true

/-- Every target section at `[b, gs, x]` already stores the dictionary. -/
def AgreeDeep (secs : List Sec) (b gs x : String) (d : List (String × PVal)) : Prop :=
  ∀ r ∈ secs, r.name = b → ∀ g ∈ r.subs, g.name = gs → ∀ t ∈ g.subs, t.name = x →
    propsAgreeD t.props d

/-- Every root section named `b` already stores the dictionary. -/
def AgreeRoot (secs : List Sec) (b : String) (d : List (String × PVal)) : Prop :=
  ∀ r ∈ secs, r.name = b → propsAgreeD r.props d

/-- Every data array of the block passes the orphan check. -/
def NoOrphans (blk : NBlock) : Prop :=
  ∀ da ∈ blk.dataArrays, (daHasTagRef blk.tags da.name || !da.sources.isEmpty) = true

/-- The array-side state of `Writer.write_analogsignal` (components that
live in the block's data arrays): the writer only ever touches the arrays of
the block and the sections of the file, and the two components of
`writeAnalogsignalDS` read disjoint halves of the state. -/
def wdsD (bm : List String) (das : List NDA) (sg : NeoSignal) : List NDA :=
  (if das.any (fun da => da.name == hashName sg) then das
   else das ++ [freshDA sg]).map
    (dsUpdate (bm ++ ["analogsignals", hashName sg]) sg)

/-- The section-side state of `Writer.write_analogsignal`. -/
def wdsS (bm : List String) (secs : List Sec) (sg : NeoSignal) : List Sec :=
  writeProps (getOrCreateSection secs bm "analogsignal" (hashName sg))
    (bm ++ ["analogsignals", hashName sg]) (extractSigFull sg)

/-- The decision-relevant skeleton of a data array: its name, type and
source links (the fields every diff and the orphan check read). -/
def skel (da : NDA) : String × String × List String :=
  (da.name, da.dtype, da.sources)

/-- Array half of the signal-synced state. -/
def DasSync (b : String) (das : List NDA) (sg : NeoSignal) : Prop :=
  (∃ da ∈ das, da.name = hashName sg) ∧
  (∀ da ∈ das, da.name = hashName sg →
     da.dtype = "analogsignal" ∧ da.unit = sg.unit ∧
     da.metaPath = [b, "analogsignals", hashName sg] ∧
     ∃ d0 rest, da.dims = d0 :: rest ∧ d0.unit = sg.sampleRateUnit)

/-- Section half of the signal-synced state. -/
def SecsSync (b : String) (secs : List Sec) (sg : NeoSignal) : Prop :=
  HasGT secs b "analogsignals" (hashName sg) ∧
  AgreeDeep secs b "analogsignals" (hashName sg) (extractSigFull sg)

/-- The state of one signal after `Writer.write_analogsignal`: the array
exists under the content key with the written unit, type, dimension unit and
metadata pointer, and its metadata section exists and stores the full
metadata dictionary. -/
def SigSynced (b : String) (das : List NDA) (secs : List Sec) (sg : NeoSignal) : Prop :=
  DasSync b das sg ∧ SecsSync b secs sg

/-- The state of one segment after `Writer.write_segment`: its tag exists
with the segment type, metadata pointer and exactly the signals' content
keys as references, the metadata section stores the extracted dictionary,
and every signal of the segment is synced. -/
def SegSynced (bn : String) (blk : NBlock) (secs : List Sec)
    (seg : NeoSegment) : Prop :=
  blk.tags.any (fun t => t.name == seg.name) = true ∧
  (∀ t ∈ blk.tags, t.name = seg.name →
     t.ttype = "segment" ∧ t.metaPath = [bn, "segments", seg.name] ∧
     t.references = (seg.analogsignals.map hashName).dedup) ∧
  HasGT secs bn "segments" seg.name ∧
  AgreeDeep secs bn "segments" seg.name (extractSegMeta seg) ∧
  (∀ sg ∈ seg.analogsignals, SigSynced bn blk.dataArrays secs sg)

/-- The state of one recording channel group after
`Writer.write_recordingchannelgroup`: its source exists with the group type
and metadata pointer, the metadata section stores the extracted dictionary,
every signal of the group is synced, and an array links the source exactly
when its name is one of the group's content keys. -/
def RCGSynced (bn : String) (blk : NBlock) (secs : List Sec)
    (rcg : NeoRCG) : Prop :=
  blk.sources.any (fun s => s.name == rcg.name) = true ∧
  (∀ s ∈ blk.sources, s.name = rcg.name →
     s.stype = "recordingchannelgroup" ∧
     s.metaPath = [bn, "recordingchannelgroups", rcg.name]) ∧
  HasGT secs bn "recordingchannelgroups" rcg.name ∧
  AgreeDeep secs bn "recordingchannelgroups" rcg.name (extractRCGMeta rcg) ∧
  (∀ sg ∈ rcg.analogsignals, SigSynced bn blk.dataArrays secs sg) ∧
  (∀ da ∈ blk.dataArrays,
     rcg.name ∈ da.sources ↔ da.name ∈ rcg.analogsignals.map hashName)

/-- The full invariant of one written block: the store state `writeBlock`
reaches from a fresh file, phrased so that a second `write_block` of the
same unmodified neo block changes nothing. -/
def BlockSynced (b : NeoBlock) (blk : NBlock) (secs : List Sec) : Prop :=
  blk.name = b.name ∧
  blk.metaPath = [b.name] ∧
  secHas secs b.name = true ∧
  AgreeRoot secs b.name (extractBlockMeta b) ∧
  (∀ t ∈ blk.tags, t.ttype = "segment" ∧
    t.name ∈ b.segments.map (fun s => s.name)) ∧
  (∀ s ∈ blk.sources, s.stype = "recordingchannelgroup" ∧
    s.name ∈ b.rcgs.map (fun r => r.name)) ∧
  NoOrphans blk ∧
  (∀ seg ∈ b.segments, SegSynced b.name blk secs seg) ∧
  (∀ rcg ∈ b.rcgs, RCGSynced b.name blk secs rcg)

/-- The tag `write_segment` creates for a fresh segment, after its metadata
pointer and references are filled in. -/
def segFreshTag (bn : String) (seg : NeoSegment) : NTag :=
  ⟨seg.name, "segment", (seg.analogsignals.map hashName).dedup,
   [bn, "segments", seg.name]⟩

/-- The invariant carried through `write_block`'s segment loop: `done` is
the list of segments written so far. -/
def SegPhaseInv (b : NeoBlock) (done : List NeoSegment) (ws : WState) : Prop :=
  ws.blk.name = b.name ∧
  ws.blk.metaPath = [b.name] ∧
  secHas ws.secs b.name = true ∧
  AgreeRoot ws.secs b.name (extractBlockMeta b) ∧
  (∀ t ∈ ws.blk.tags, t.ttype = "segment" ∧
    t.name ∈ done.map (fun s => s.name)) ∧
  ws.blk.sources = [] ∧
  (∀ da ∈ ws.blk.dataArrays, da.sources = []) ∧
  (∀ da ∈ ws.blk.dataArrays, da.dtype = "analogsignal") ∧
  ((ws.blk.dataArrays.map (fun da => da.name)).Nodup) ∧
  NoOrphans ws.blk ∧
  (∀ seg ∈ done, SegSynced b.name ws.blk ws.secs seg)

/-- The invariant carried through `write_block`'s channel-group loop:
`doneR` is the list of groups written so far. -/
def RCGPhaseInv (b : NeoBlock) (doneR : List NeoRCG) (ws : WState) : Prop :=
  ws.blk.name = b.name ∧
  ws.blk.metaPath = [b.name] ∧
  secHas ws.secs b.name = true ∧
  AgreeRoot ws.secs b.name (extractBlockMeta b) ∧
  (∀ t ∈ ws.blk.tags, t.ttype = "segment" ∧
    t.name ∈ b.segments.map (fun s => s.name)) ∧
  (∀ s ∈ ws.blk.sources, s.stype = "recordingchannelgroup" ∧
    s.name ∈ doneR.map (fun r => r.name)) ∧
  (∀ da ∈ ws.blk.dataArrays, ∀ n ∈ da.sources, n ∈ doneR.map (fun r => r.name)) ∧
  (∀ da ∈ ws.blk.dataArrays, da.dtype = "analogsignal") ∧
  ((ws.blk.dataArrays.map (fun da => da.name)).Nodup) ∧
  NoOrphans ws.blk ∧
  (∀ seg ∈ b.segments, SegSynced b.name ws.blk ws.secs seg) ∧
  (∀ rcg ∈ doneR, RCGSynced b.name ws.blk ws.secs rcg)

/-- The source `write_recordingchannelgroup` creates for a fresh group,
after its metadata pointer is filled in. -/
def rcgFreshSrc (bn : String) (rcg : NeoRCG) : NSrc :=
  ⟨rcg.name, "recordingchannelgroup", [bn, "recordingchannelgroups", rcg.name]⟩

/-- The `to_append` link update of `write_signals` when the diff appends
every content key of the group. -/
def rcgLink (rcg : NeoRCG) (da : NDA) : NDA :=
  if ((rcg.analogsignals.map hashName).dedup).contains da.name then
    { da with sources := da.sources ++ [rcg.name] }
  else da

/-- A NIX data-array dimension as the spike-train/event/epoch writers see
it: `append_sampled_dimension` creates a sampled dimension (interval and
unit), `append_set_dimension` a set dimension (labels). -/
inductive DDim
  | sampled (interval : Int) (unit : String)
  | set (labels : List String)
deriving DecidableEq

/-- `dimensions[0].unit = …`: assigning the unit of the head dimension.  On
every path `write_spiketrain` takes the head dimension is sampled; a set
dimension has no unit attribute and is left untouched. -/
def DDim.withUnit : DDim → String → DDim
  | .sampled i _, u => .sampled i u
  | .set ls, _ => .set ls

/-- `dimensions[0].labels = …`: assigning the labels of the head dimension.
On every path `write_event`/`write_epoch` takes the head dimension is a set
dimension; a sampled dimension has no labels attribute and is left
untouched. -/
def DDim.withLabels : DDim → List String → DDim
  | .set _, ls => .set ls
  | .sampled i u, _ => .sampled i u

/-- The fields of a NIX `DataArray` that `write_spiketrain`, `write_event`
and `write_epoch` read or write (none of these writers touches the source
links; the metadata dictionary itself goes to the section named by
`metaPath` via `write_metadata`, modelled by `writeProps`). -/
structure DArr where
  name : String
  dtype : String
  data : List Int
  unit : String
  dims : List DDim
  metaPath : List String
deriving DecidableEq

/-- A neo `SpikeTrain` as `write_spiketrain` and `get_obj_nix_name` read
it: the spike-time payload (whose bytes `tostring()` serialises), the unit,
the optional sampling rate, and the name attribute (which goes only to the
metadata dictionary, never into the store identity). -/
structure NeoSpikeTrain where
  data : List Int
  unit : String
  samplingRate : Option Int
  samplingRateUnit : String
  name : Option String
deriving DecidableEq

/-- A neo `Event` as `write_event` and `get_obj_nix_name` read it. -/
structure NeoEvent where
  times : List Int
  labels : List String
  name : Option String
deriving DecidableEq

/-- A neo `Epoch` as `write_epoch` and `get_obj_nix_name` read it. -/
structure NeoEpoch where
  times : List Int
  durations : List Int
  labels : List String
  name : Option String
deriving DecidableEq

/-- `get_obj_nix_name` for a spike train (`clsname in ['analogsignal',
'spiketrain']` branch): `str(hash(neo_obj.tostring()))`, a stable hash of
the raw payload bytes. -/
def hashNameST (st : NeoSpikeTrain) : String := pyHashStr st.data

/-- `get_obj_nix_name` for an event (`clsname in ['event', 'epoch']`
branch): `str(hash(neo_obj.times.tostring()))`, a stable hash of the time
values only. -/
def hashNameEv (ev : NeoEvent) : String := pyHashStr ev.times

/-- `get_obj_nix_name` for an epoch: `str(hash(neo_obj.times.tostring()))`
— the time values only; the durations and labels are not part of the
key. -/
def hashNameEp (ep : NeoEpoch) : String := pyHashStr ep.times

/-- The in-place mutations `write_spiketrain` performs on the array found
(or created) under the content key: set the unit; when a sampling rate is
present, create the sampled dimension only if no dimension exists and set
its unit; point the metadata field at the spike train's section. -/
def stUpdate (mp : List String) (st : NeoSpikeTrain) (da : DArr) : DArr :=
  if da.name = hashNameST st then
    { da with
      unit := st.unit,
      dims := match st.samplingRate with
        | none => da.dims
        | some r =>
            match (if da.dims.isEmpty then [DDim.sampled r ""] else da.dims) with
            | [] => []
            | d0 :: rest => d0.withUnit st.samplingRateUnit :: rest,
      metaPath := mp }
  else da

/-- The array `create_data_array(obj_name, 'spiketrain', …)` +
`append(st)` creates. -/
def freshST (st : NeoSpikeTrain) : DArr :=
  ⟨hashNameST st, "spiketrain", st.data, "", [], []⟩

/-- `Writer.write_spiketrain` (`src/neo2nix/nixio.py` lines 700–740) on the
data arrays of a block whose metadata section path is `bm`: look the array
up under the content key, creating it (with the payload appended) only when
absent, then apply the in-place mutations. -/
def writeSpiketrainDA (bm : List String) (das : List DArr)
    (st : NeoSpikeTrain) : List DArr :=
  let nm := hashNameST st
  (if das.any (fun da => da.name == nm) then das else das ++ [freshST st]).map
    (stUpdate (bm ++ ["spiketrains", nm]) st)

/-- The in-place mutations `write_event` performs on the array found (or
created) under the content key: create the set dimension only if no
dimension exists, set its labels, and point the metadata field at the
event's section (no unit is written for events). -/
def evUpdate (mp : List String) (ev : NeoEvent) (da : DArr) : DArr :=
  if da.name = hashNameEv ev then
    { da with
      dims := match (if da.dims.isEmpty then [DDim.set []] else da.dims) with
        | [] => []
        | d0 :: rest => d0.withLabels ev.labels :: rest,
      metaPath := mp }
  else da

/-- The array `create_data_array(obj_name, 'event', …)` +
`append(event.times)` creates. -/
def freshEv (ev : NeoEvent) : DArr :=
  ⟨hashNameEv ev, "event", ev.times, "", [], []⟩

/-- `Writer.write_event` (`src/neo2nix/nixio.py` lines 742–763). -/
def writeEventDA (bm : List String) (das : List DArr)
    (ev : NeoEvent) : List DArr :=
  let nm := hashNameEv ev
  (if das.any (fun da => da.name == nm) then das else das ++ [freshEv ev]).map
    (evUpdate (bm ++ ["events", nm]) ev)

/-- The in-place mutations `write_epoch` performs on the array found (or
created) under the content key. -/
def epUpdate (mp : List String) (ep : NeoEpoch) (da : DArr) : DArr :=
  if da.name = hashNameEp ep then
    { da with
      dims := match (if da.dims.isEmpty then [DDim.set []] else da.dims) with
        | [] => []
        | d0 :: rest => d0.withLabels ep.labels :: rest,
      metaPath := mp }
  else da

/-- The array `create_data_array(obj_name, 'epoch', …,
data=np.array([epoch.times, epoch.durations]))` creates: the payload is the
2×n stack of times and durations (row-major), but the name — the store
identity — hashes the times alone. -/
def freshEp (ep : NeoEpoch) : DArr :=
  ⟨hashNameEp ep, "epoch", ep.times ++ ep.durations, "", [], []⟩

/-- `Writer.write_epoch` (`src/neo2nix/nixio.py` lines 765–790). -/
def writeEpochDA (bm : List String) (das : List DArr)
    (ep : NeoEpoch) : List DArr :=
  let nm := hashNameEp ep
  (if das.any (fun da => da.name == nm) then das else das ++ [freshEp ep]).map
    (epUpdate (bm ++ ["epochs", nm]) ep)

end NeoToNix

namespace NeoNix

/-- Model of the write-only `NixIO.write_block` of `src/neonix/io/nixio.py`
(lines 280–297) at the file level, restricted to blocks without children and
without datetime/origin attributes (for which the method resolves a name
against the existing blocks and then unconditionally calls `create_block`):
the list of block names grows by the freshly resolved name on every call. -/
def neonixWriteBlockNames (blocks : List String) (neoName : String) : List String :=
  blocks ++ [resolveName neoName "" blocks]

end NeoNix

namespace ProxyM

/-- The open state of a `FileHandler` (`src/neo2nix/nixio.py` lines 37–64):
no handle yet, a closed handle, or an open handle. -/
inductive FhSt
  | absent
  | closed
  | opened
deriving DecidableEq

def isOpen : FhSt → Bool
  | .opened => true
  | _ => false

/-- The mutable state of a `ProxyList`: the cache. -/
structure ProxySt (α : Type) where
  cache : Option (List α)
deriving DecidableEq

/-- `ProxyList._data` (`src/neo2nix/nixio.py` lines 79–93).  `items` models
`fetch_func(handle)`.  Returns the produced list, the proxy state, the file
state, and the number of store fetches performed. -/
def proxyData {α : Type} (items : List α) (p : ProxySt α) (fh : FhSt) :
    List α × ProxySt α × FhSt × Nat :=
  match p.cache with
  | some c => (c, p, fh, 0)
  | none =>
      match fh with
      | .opened => (items, ⟨some items⟩, .opened, 1)
      | _ => (items, ⟨some items⟩, .closed, 1)

end ProxyM

namespace NeoNix

theorem digitChar_toNat {n : Nat} (h : n < 10) : (digitChar n).toNat = 48 + n := by
  unfold digitChar
  interval_cases n <;> decide

theorem charsVal_append_digit (l : List Char) (c : Char) :
    charsVal (l ++ [c]) = 10 * charsVal l + (c.toNat - 48) := by
  unfold charsVal
  rw [List.foldl_append]
  rfl

theorem charsVal_natChars :
    ∀ fuel n, n < 10 ^ fuel → charsVal (natChars fuel n) = n := by
  intro fuel
  induction fuel with
  | zero =>
      intro n hn
      simp only [pow_zero, Nat.lt_one_iff] at hn
      subst hn
      rfl
  | succ m ih =>
      intro n hn
      unfold natChars
      by_cases h : n < 10
      · simp only [if_pos h]
        show charsVal ([] ++ [digitChar n]) = n
        rw [charsVal_append_digit, digitChar_toNat h]
        simp [charsVal]
      · simp only [if_neg h]
        rw [charsVal_append_digit, digitChar_toNat (Nat.mod_lt n (by norm_num)),
          ih (n / 10) (Nat.div_lt_of_lt_mul (by rw [mul_comm]; exact hn.trans_eq (pow_succ 10 m)))]
        omega

theorem natStr_injective : Function.Injective natStr := by
  intro a b h
  have ha : charsVal (natChars (a + 1) a) = a :=
    charsVal_natChars _ _ ((Nat.lt_pow_self (by norm_num) a).trans
      (Nat.pow_lt_pow_right (by norm_num) (Nat.lt_succ_self a)))
  have hb : charsVal (natChars (b + 1) b) = b :=
    charsVal_natChars _ _ ((Nat.lt_pow_self (by norm_num) b).trans
      (Nat.pow_lt_pow_right (by norm_num) (Nat.lt_succ_self b)))
  have hdata : natChars (a + 1) a = natChars (b + 1) b :=
    congrArg String.data h
  rw [← ha, hdata, hb]

theorem candName_probe_injective (basename suffix : String) :
    Function.Injective (fun i => candName basename i ++ suffix) := by
  intro i j h
  simp only [candName] at h
  have h1 : basename.data ++ ("-".data ++ ((natStr i).data ++ suffix.data))
      = basename.data ++ ("-".data ++ ((natStr j).data ++ suffix.data)) := by
    have h0 := congrArg String.data h
    simpa only [String.data_append, List.append_assoc] using h0
  have h2 := List.append_cancel_left (List.append_cancel_left h1)
  have h3 := List.append_cancel_right h2
  exact natStr_injective (congrArg String.mk h3)

theorem exists_fresh_probe (basename suffix : String) (container : List String)
    (idx : Nat) : ∃ k ≤ container.length,
      candName basename (idx + k) ++ suffix ∉ container := by
  by_contra hall
  push_neg at hall
  have hinj : Function.Injective
      (fun k : Fin (container.length + 1) =>
        candName basename (idx + k.val) ++ suffix) := by
    intro k1 k2 h
    have := candName_probe_injective basename suffix h
    exact Fin.ext (Nat.add_left_cancel this)
  have hsub : (Finset.univ.image
      (fun k : Fin (container.length + 1) =>
        candName basename (idx + k.val) ++ suffix)) ⊆ container.toFinset := by
    intro x hx
    rw [Finset.mem_image] at hx
    obtain ⟨k, _, rfl⟩ := hx
    rw [List.mem_toFinset]
    exact hall k.val (Nat.lt_succ_iff.mp k.isLt)
  have hcard := Finset.card_le_card hsub
  rw [Finset.card_image_of_injective _ hinj, Finset.card_univ, Fintype.card_fin] at hcard
  have := (container.toFinset_card_le).trans_lt (Nat.lt_succ_self _)
  omega

theorem resolveLoop_fresh (basename suffix : String) (container : List String) :
    ∀ fuel idx, (∃ k < fuel, candName basename (idx + k) ++ suffix ∉ container) →
      resolveLoop basename suffix container fuel idx ++ suffix ∉ container := by
  intro fuel
  induction fuel with
  | zero =>
      intro idx h
      obtain ⟨k, hk, _⟩ := h
      exact absurd hk (Nat.not_lt_zero k)
  | succ m ih =>
      intro idx h
      unfold resolveLoop
      by_cases hmem : candName basename idx ++ suffix ∈ container
      · simp only [if_pos hmem]
        apply ih
        obtain ⟨k, hk, hfree⟩ := h
        match k, hfree with
        | 0, hfree => exact absurd hmem (by simpa using hfree)
        | k' + 1, hfree =>
            exact ⟨k', by omega, by rw [show idx + 1 + k' = idx + (k' + 1) by omega]; exact hfree⟩
      · simp only [if_neg hmem]
        exact hmem

/-- The probed form of the resolved name is always free of the container. -/
theorem resolveName_fresh (basename suffix : String) (container : List String) :
    resolveName basename suffix container ++ suffix ∉ container := by
  unfold resolveName
  by_cases h : basename ++ suffix ∈ container
  · simp only [if_pos h]
    apply resolveLoop_fresh
    obtain ⟨k, hk, hfree⟩ := exists_fresh_probe basename suffix container 1
    exact ⟨k, by omega, hfree⟩
  · simp only [if_neg h]
    exact h

/-- C5 (counterexample): the claim "name resolution returns a name distinct
from every existing sibling name" is false as stated for the signal kinds.
Their collision probe appends the first-channel suffix `".0"`
(`src/neonix/io/nixio.py` lines 777–781), so for a signal whose basename
`"foo"` coincides with an existing sibling named `"foo"` the probe
`"foo.0"` is free and the resolver returns `"foo"`, which equals an
existing sibling name. -/
theorem C5_cex_signal_probe_name :
    resolveName "foo" ".0" ["foo"] = "foo" ∧ "foo" ∈ ["foo"] := by
  constructor
  · rfl
  · simp

/-- C5 (amended): the name resolver of `_neo_attr_to_nix` is collision-free
at the granularity it actually checks: the returned name followed by the
kind-dependent probe suffix (`".0"` for signal kinds, `""` otherwise) never
occurs among the existing sibling names; when the probed base candidate does
not collide the basename is returned unmodified; an empty sibling set always
yields the unmodified basename; for kinds with an empty suffix the returned
name itself is distinct from every existing sibling name.  Resolution is a
pure function of its inputs, hence deterministic. -/
theorem C5_resolved_name_fresh (basename suffix : String) (container : List String) :
    resolveName basename suffix container ++ suffix ∉ container ∧
    (basename ++ suffix ∉ container → resolveName basename suffix container = basename) ∧
    resolveName basename suffix [] = basename ∧
    (suffix = "" → resolveName basename "" container ∉ container) := by
  refine ⟨resolveName_fresh basename suffix container, ?_, ?_, ?_⟩
  · intro h
    unfold resolveName
    simp only [if_neg h]
  · unfold resolveName
    simp
  · intro _
    have h := resolveName_fresh basename "" container
    rwa [String.append_empty] at h

theorem C5_witness :
    resolveName "x" "" ["x", "x-1"] ∉ ["x", "x-1"] ∧
    resolveName "y" "" ["x"] = "y" :=
  ⟨(C5_resolved_name_fresh "x" "" ["x", "x-1"]).2.2.2 rfl,
   (C5_resolved_name_fresh "y" "" ["x"]).2.1 (by decide)⟩

/-- C6 (counterexample): an unnamed signal does *not* get a name of the
claimed form `"<KindTag><ordinal>"` with the ordinal derived from the count
of existing same-kind siblings.  With no siblings at all the claimed scheme
would produce a name ending in the ordinal `0`; the code instead uses the
fixed default basename `"neo." + type` with no ordinal:
the result is `"neo.AnalogSignal"`, which ends in `'l'`. -/
theorem C6_cex_no_ordinal_default :
    resolveName (defaultBasename "AnalogSignal") ".0" [] = "neo.AnalogSignal" ∧
    ¬ ∃ tag : String,
        resolveName (defaultBasename "AnalogSignal") ".0" [] = tag ++ "0" := by
  constructor
  · rfl
  · rintro ⟨tag, htag⟩
    have h0 : resolveName (defaultBasename "AnalogSignal") ".0" [] = "neo.AnalogSignal" := rfl
    rw [h0] at htag
    have hdata : ("neo.AnalogSignal").data = tag.data ++ ['0'] := by
      have := congrArg String.data htag
      rwa [String.data_append] at this
    have hlast := congrArg List.getLast? hdata
    rw [List.getLast?_concat] at hlast
    simp at hlast

/-- C6 (amended): two unnamed signals under the same parent do resolve to
two distinct deterministic names, but via the fixed default basename
`"neo.AnalogSignal"` plus the `-1` collision suffix — not via a
sibling-count ordinal.  The first unnamed signal (empty container) resolves
to `"neo.AnalogSignal"`; the second, probed against the first one's channel
arrays, resolves to `"neo.AnalogSignal-1"`.  Both resolutions are pure
functions of their inputs, hence re-running them is deterministic. -/
theorem C6_unnamed_signals_distinct :
    resolveName (defaultBasename "AnalogSignal") ".0" [] = "neo.AnalogSignal" ∧
    resolveName (defaultBasename "AnalogSignal") ".0"
        ["neo.AnalogSignal.0", "neo.AnalogSignal.1"] = "neo.AnalogSignal-1" ∧
    ("neo.AnalogSignal" : String) ≠ "neo.AnalogSignal-1" := by
  refine ⟨rfl, ?_, by decide⟩
  rfl

theorem str_append_single_lt (p : String) {c d : Char} (h : c < d) :
    p ++ String.mk [c] < p ++ String.mk [d] := by
  rw [String.lt_iff_toList_lt]
  rw [show (p ++ String.mk [c]).toList = p.toList ++ [c] from String.data_append p _]
  rw [show (p ++ String.mk [d]).toList = p.toList ++ [d] from String.data_append p _]
  induction p.toList with
  | nil => exact List.Lex.rel h
  | cons x xs ih => exact List.Lex.cons ih

theorem digitChar_lt {i j : Nat} (hj : j < 10) (h : i < j) :
    digitChar i < digitChar j := by
  have hval : (digitChar i).toNat < (digitChar j).toNat := by
    rw [digitChar_toNat (h.trans hj), digitChar_toNat hj]
    omega
  exact hval

theorem natStr_digit {i : Nat} (h : i < 10) : natStr i = String.mk [digitChar i] := by
  unfold natStr natChars
  rw [if_pos h]

theorem name_lt_of_digit_lt (p : String) {i j : Nat} (hj : j < 10) (h : i < j) :
    p ++ natStr i < p ++ natStr j := by
  rw [natStr_digit (h.trans hj), natStr_digit hj]
  exact str_append_single_lt p (digitChar_lt hj h)

theorem foldl_groupInsert_const {T : Nat} {α : Type} (s : Nat) :
    ∀ (l : List (DataArray T α)) (acc : List (DataArray T α)),
      (∀ da ∈ l, da.secId = s) →
      l.foldl (fun gs da => groupInsert da gs) [(s, acc)] = [(s, acc ++ l)] := by
  intro l
  induction l with
  | nil => intro acc _; simp
  | cons d rest ih =>
      intro acc h
      have hd : d.secId = s := h d (List.mem_cons_self d rest)
      have hstep : groupInsert d [(s, acc)] = [(s, acc ++ [d])] := by
        unfold groupInsert
        rw [if_pos hd.symm]
      simp only [List.foldl_cons, hstep]
      rw [ih (acc ++ [d]) (fun da hda => h da (List.mem_cons_of_mem d hda))]
      simp

theorem groupSignals_const {T : Nat} {α : Type} (das : List (DataArray T α))
    (s : Nat) (hs : ∀ da ∈ das, da.secId = s) (hne : das ≠ []) :
    groupSignals das = [das] := by
  match das, hne with
  | d :: rest, _ =>
      unfold groupSignals
      have h0 : groupInsert d ([] : List (Nat × List (DataArray T α))) = [(d.secId, [d])] := rfl
      have hd : d.secId = s := hs d (List.mem_cons_self d rest)
      simp only [List.foldl_cons, h0, hd]
      rw [foldl_groupInsert_const s rest [d]
        (fun da hda => hs da (List.mem_cons_of_mem d hda))]
      simp

/-- C1: writing a 3-channel, 1000-sample signal creates exactly 3
single-channel DataArrays, all pointing at the one shared metadata section;
grouping the arrays by shared section identity yields that single group, the
sort by array name leaves the creation order (channel order) unchanged, and
the channel-major stack followed by the transpose reproduces the original
time × channel payload bit-identically. -/
theorem C1_multichannel_roundtrip {α : Type} (m : Fin 1000 → Fin 3 → α)
    (base : String) (sec : Nat) :
    (writeAnalogsignalArrays base sec m).length = 3 ∧
    ((writeAnalogsignalArrays base sec m).all (fun da => da.secId == sec)) = true ∧
    groupSignals (writeAnalogsignalArrays base sec m) =
      [writeAnalogsignalArrays base sec m] ∧
    sortByName (writeAnalogsignalArrays base sec m) =
      writeAnalogsignalArrays base sec m ∧
    ∀ (t : Fin 1000) (c : Fin 3),
      stackPayload (sortByName (writeAnalogsignalArrays base sec m)) t c.val =
        some (m t c) := by
  have hsec : ∀ da ∈ writeAnalogsignalArrays base sec m, da.secId = sec := by
    intro da hda
    rw [writeAnalogsignalArrays, List.mem_ofFn] at hda
    obtain ⟨c, rfl⟩ := hda
    rfl
  have hsorted : List.Sorted (fun x y : DataArray 1000 α => x.name ≤ y.name)
      (writeAnalogsignalArrays base sec m) := by
    rw [writeAnalogsignalArrays, List.Sorted, List.pairwise_ofFn]
    intro i j hij
    exact le_of_lt (name_lt_of_digit_lt (base ++ ".") (by omega) hij)
  have hsort : sortByName (writeAnalogsignalArrays base sec m) =
      writeAnalogsignalArrays base sec m :=
    List.Sorted.insertionSort_eq hsorted
  refine ⟨?_, ?_, ?_, hsort, ?_⟩
  · rw [writeAnalogsignalArrays, List.length_ofFn]
  · rw [List.all_eq_true]
    intro da hda
    rw [beq_iff_eq]
    exact hsec da hda
  · refine groupSignals_const _ sec hsec ?_
    intro hcontra
    have := congrArg List.length hcontra
    rw [writeAnalogsignalArrays, List.length_ofFn] at this
    simp at this
  · intro t c
    rw [hsort, stackPayload, writeAnalogsignalArrays, List.getElem?_ofFn]
    have : List.ofFnNthVal
        (fun c : Fin 3 => (⟨base ++ "." ++ natStr c.val, sec, fun t => m t c⟩ : DataArray 1000 α))
        c.val = some ⟨base ++ "." ++ natStr c.val, sec, fun t => m t c⟩ := by
      unfold List.ofFnNthVal
      rw [dif_pos c.isLt]
    rw [this]
    rfl

theorem addAnnotations_eq (anns : List (String × PyV))
    (props : List (String × Option ValRes)) :
    addAnnotations anns props = props ++ anns.map (fun kv => (kv.1, toValue kv.2)) := by
  induction anns generalizing props with
  | nil => simp [addAnnotations]
  | cons kv rest ih =>
      unfold addAnnotations
      rw [List.foldl_cons]
      have := ih (props ++ [(kv.1, toValue kv.2)])
      unfold addAnnotations at this
      rw [this]
      simp

/-- C7: a physical-quantity-valued annotation is rejected (`_to_value`
returns `None` after warning — the reported `UnsupportedAnnotationType`
condition), and so is a nested list of lists; the rejection is non-fatal:
`_add_annotations` still creates a property for every annotation entry of
the same entity (with the converted value where conversion succeeds), and
the loop never aborts. -/
theorem C7_quantity_rejected_nonfatal (anns : List (String × PyV))
    (props : List (String × Option ValRes)) (k0 : String) (mag : Int) (u : String) :
    (toValue (.pyQuantity mag u) = none ∧ toValueWarns (.pyQuantity mag u) = true) ∧
    (∀ (v : List PyV) (rest : List PyV),
      toValue (.pyList (.pyList v :: rest)) = none ∧
      toValueWarns (.pyList (.pyList v :: rest)) = true) ∧
    ((k0, PyV.pyQuantity mag u) ∈ anns →
      ∀ kv ∈ anns, (kv.1, toValue kv.2) ∈ addAnnotations anns props) := by
  refine ⟨⟨rfl, rfl⟩, fun v rest => ⟨rfl, rfl⟩, ?_⟩
  intro _ kv hkv
  rw [addAnnotations_eq]
  exact List.mem_append_right _ (List.mem_map_of_mem _ hkv)

theorem C7_witness :
    toValue (.pyQuantity 5 "mV") = none ∧
    ("b", toValue (PyV.pyInt 7)) ∈
      addAnnotations [("a", .pyQuantity 5 "mV"), ("b", .pyInt 7)] [] :=
  ⟨(C7_quantity_rejected_nonfatal [("a", .pyQuantity 5 "mV"), ("b", .pyInt 7)]
      [] "a" 5 "mV").1.1,
   (C7_quantity_rejected_nonfatal [("a", .pyQuantity 5 "mV"), ("b", .pyInt 7)]
      [] "a" 5 "mV").2.2
      (by simp)
      ("b", PyV.pyInt 7)
      (by simp)⟩

/-- C8: contrary to the claim, a one-dimensional homogeneous sequence does
*not* become a multi-valued property in this writer: the `Iterable` branch
of `_to_value` tests `isinstance(v, Iterable)` on the container `v` instead
of the loop item, so the very first iteration over any non-empty flat list
warns about "multidimensional arrays and nested containers" and returns
`None` — the code contradicts its own warning text, which targets only
nested containers.  The read direction behaves as claimed: a one-value
property unwraps to a scalar and a multi-value property becomes a
sequence. -/
theorem C8_flat_sequence_rejected :
    toValue (.pyList [.pyInt 1, .pyInt 2, .pyInt 3]) = none ∧
    toValueWarns (.pyList [.pyInt 1, .pyInt 2, .pyInt 3]) = true ∧
    nixPropToNeo [.vInt 1] = .scalar (.vInt 1) ∧
    nixPropToNeo [.vInt 1, .vInt 2] = .seq [.vInt 1, .vInt 2] :=
  ⟨rfl, rfl, rfl, rfl⟩

end NeoNix

namespace ProxyM

/-- C10: `ProxyList._data` leaves the file's open/closed state as it found
it — a closed (or absent) handle is opened, the items fetched and the file
closed again, while an already-open handle is used without closing; on first
access (empty cache) exactly one store fetch happens and the result is
cached; any subsequent access returns the cached result with no further
fetch and no change to the proxy or file state. -/
theorem C10_proxy_list_state {α : Type} (items : List α) (p : ProxySt α) (fh : FhSt) :
    isOpen (proxyData items p fh).2.2.1 = isOpen fh ∧
    (p.cache = none →
      (proxyData items p fh).2.2.2 = 1 ∧
      (proxyData items p fh).1 = items ∧
      (proxyData items p fh).2.1.cache = some items) ∧
    proxyData items (proxyData items p fh).2.1 (proxyData items p fh).2.2.1 =
      ((proxyData items p fh).1, (proxyData items p fh).2.1,
        (proxyData items p fh).2.2.1, 0) := by
  obtain ⟨c⟩ := p
  cases c <;> cases fh <;> simp [proxyData, isOpen]

theorem C10_witness :
    (proxyData [1, 2] (⟨none⟩ : ProxySt Nat) .closed).2.2.2 = 1 ∧
    isOpen (proxyData [1, 2] (⟨none⟩ : ProxySt Nat) .closed).2.2.1 = isOpen .closed :=
  ⟨((C10_proxy_list_state [1, 2] ⟨none⟩ .closed).2.1 rfl).1,
   (C10_proxy_list_state [1, 2] ⟨none⟩ .closed).1⟩

end ProxyM

namespace NeoToNix

/-- C9: `Writer.Help.compare` computes two disjoint difference sets:
`to_remove` holds exactly the existing store names that are not among the
resolved source keys, `to_append` exactly the resolved source keys that are
not among the existing store names; no name is in both, and a key present on
both sides is in neither. -/
theorem C9_compare_diff_sets (neoKeys nixNames : List String) (x : String) :
    (x ∈ (compare neoKeys nixNames).1 ↔ x ∈ nixNames ∧ x ∉ neoKeys) ∧
    (x ∈ (compare neoKeys nixNames).2 ↔ x ∈ neoKeys ∧ x ∉ nixNames) ∧
    ¬ (x ∈ (compare neoKeys nixNames).1 ∧ x ∈ (compare neoKeys nixNames).2) ∧
    (x ∈ neoKeys → x ∈ nixNames →
      x ∉ (compare neoKeys nixNames).1 ∧ x ∉ (compare neoKeys nixNames).2) := by
  have h1 : x ∈ (compare neoKeys nixNames).1 ↔ x ∈ nixNames ∧ x ∉ neoKeys := by
    simp [compare, List.mem_dedup, List.mem_filter, List.elem_iff]
  have h2 : x ∈ (compare neoKeys nixNames).2 ↔ x ∈ neoKeys ∧ x ∉ nixNames := by
    simp [compare, List.mem_dedup, List.mem_filter, List.elem_iff]
  refine ⟨h1, h2, ?_, ?_⟩
  · rintro ⟨hr, ha⟩
    exact (h2.mp ha).2 (h1.mp hr).1
  · intro hn hx
    exact ⟨fun hr => (h1.mp hr).2 hn, fun ha => (h2.mp ha).2 hx⟩

theorem C9_witness :
    ("a" ∉ (compare ["a", "b"] ["a", "c"]).1) ∧
    ("a" ∉ (compare ["a", "b"] ["a", "c"]).2) :=
  (C9_compare_diff_sets ["a", "b"] ["a", "c"] "a").2.2.2 (by decide) (by decide)

theorem dsUpdate_name (mp : List String) (sg : NeoSignal) (da : NDA) :
    (dsUpdate mp sg da).name = da.name := by
  unfold dsUpdate
  by_cases hn : da.name = hashName sg
  · rw [if_pos hn]
  · rw [if_neg hn]

theorem dsUpdate_other {mp : List String} {sg : NeoSignal} {da : NDA}
    (hne : da.name ≠ hashName sg) : dsUpdate mp sg da = da := by
  unfold dsUpdate
  rw [if_neg hne]

theorem writeDS_map_names (bm : List String) (das : List NDA) (secs : List Sec)
    (sg : NeoSignal) :
    (writeAnalogsignalDS bm das secs sg).1.map (fun da => da.name) =
      (if das.any (fun da => da.name == hashName sg) then das.map (fun da => da.name)
       else das.map (fun da => da.name) ++ [hashName sg]) := by
  unfold writeAnalogsignalDS
  by_cases h : das.any (fun da => da.name == hashName sg)
  · simp only [if_pos h]
    rw [List.map_map]
    apply List.map_congr_left
    intro da _
    exact dsUpdate_name _ _ da
  · simp only [if_neg h]
    rw [List.map_map, List.map_append]
    congr 1
    · apply List.map_congr_left
      intro da _
      exact dsUpdate_name _ _ da
    · simp [dsUpdate_name, freshDA]

theorem writeDS_mem_name (bm : List String) (das : List NDA) (secs : List Sec)
    (sg : NeoSignal) :
    hashName sg ∈ (writeAnalogsignalDS bm das secs sg).1.map (fun da => da.name) := by
  rw [writeDS_map_names]
  by_cases h : das.any (fun da => da.name == hashName sg)
  · simp only [if_pos h]
    rw [List.any_eq_true] at h
    obtain ⟨da, hda, hbeq⟩ := h
    rw [beq_iff_eq] at hbeq
    exact List.mem_map.mpr ⟨da, hda, hbeq⟩
  · simp only [if_neg h]
    simp

theorem stUpdate_name (mp : List String) (st : NeoSpikeTrain) (da : DArr) :
    (stUpdate mp st da).name = da.name := by
  unfold stUpdate
  split <;> rfl

theorem evUpdate_name (mp : List String) (ev : NeoEvent) (da : DArr) :
    (evUpdate mp ev da).name = da.name := by
  unfold evUpdate
  split <;> rfl

theorem epUpdate_name (mp : List String) (ep : NeoEpoch) (da : DArr) :
    (epUpdate mp ep da).name = da.name := by
  unfold epUpdate
  split <;> rfl

theorem lookupCreate_map_names (upd : DArr → DArr)
    (hupd : ∀ da, (upd da).name = da.name) (nm : String) (fresh : DArr)
    (hfresh : fresh.name = nm) (das : List DArr) :
    ((if das.any (fun da => da.name == nm) then das else das ++ [fresh]).map upd).map
        (fun da => da.name) =
      (if das.any (fun da => da.name == nm) then das.map (fun da => da.name)
       else das.map (fun da => da.name) ++ [nm]) := by
  by_cases h : das.any (fun da => da.name == nm)
  · rw [if_pos h, if_pos h, List.map_map]
    exact List.map_congr_left (fun da _ => hupd da)
  · rw [if_neg h, if_neg h, List.map_map, List.map_append]
    congr 1
    · exact List.map_congr_left (fun da _ => hupd da)
    · show [(upd fresh).name] = [nm]
      rw [hupd fresh, hfresh]

theorem lookupCreate_mem_name (upd : DArr → DArr)
    (hupd : ∀ da, (upd da).name = da.name) (nm : String) (fresh : DArr)
    (hfresh : fresh.name = nm) (das : List DArr) :
    nm ∈ ((if das.any (fun da => da.name == nm) then das
      else das ++ [fresh]).map upd).map (fun da => da.name) := by
  rw [lookupCreate_map_names upd hupd nm fresh hfresh das]
  by_cases h : das.any (fun da => da.name == nm)
  · rw [if_pos h]
    obtain ⟨da, hda, hbeq⟩ := List.any_eq_true.mp h
    exact List.mem_map.mpr ⟨da, hda, beq_iff_eq.mp hbeq⟩
  · rw [if_neg h]
    exact List.mem_append_right _ (List.mem_singleton_self _)

theorem writeSpiketrainDA_map_names (bm : List String) (das : List DArr)
    (st : NeoSpikeTrain) :
    (writeSpiketrainDA bm das st).map (fun da => da.name) =
      (if das.any (fun da => da.name == hashNameST st) then das.map (fun da => da.name)
       else das.map (fun da => da.name) ++ [hashNameST st]) := by
  unfold writeSpiketrainDA
  exact lookupCreate_map_names (stUpdate (bm ++ ["spiketrains", hashNameST st]) st)
    (stUpdate_name (bm ++ ["spiketrains", hashNameST st]) st) (hashNameST st)
    (freshST st) rfl das

theorem writeSpiketrainDA_mem (bm : List String) (das : List DArr)
    (st : NeoSpikeTrain) :
    hashNameST st ∈ (writeSpiketrainDA bm das st).map (fun da => da.name) := by
  unfold writeSpiketrainDA
  exact lookupCreate_mem_name (stUpdate (bm ++ ["spiketrains", hashNameST st]) st)
    (stUpdate_name (bm ++ ["spiketrains", hashNameST st]) st) (hashNameST st)
    (freshST st) rfl das

theorem writeEventDA_map_names (bm : List String) (das : List DArr)
    (ev : NeoEvent) :
    (writeEventDA bm das ev).map (fun da => da.name) =
      (if das.any (fun da => da.name == hashNameEv ev) then das.map (fun da => da.name)
       else das.map (fun da => da.name) ++ [hashNameEv ev]) := by
  unfold writeEventDA
  exact lookupCreate_map_names (evUpdate (bm ++ ["events", hashNameEv ev]) ev)
    (evUpdate_name (bm ++ ["events", hashNameEv ev]) ev) (hashNameEv ev)
    (freshEv ev) rfl das

theorem writeEventDA_mem (bm : List String) (das : List DArr) (ev : NeoEvent) :
    hashNameEv ev ∈ (writeEventDA bm das ev).map (fun da => da.name) := by
  unfold writeEventDA
  exact lookupCreate_mem_name (evUpdate (bm ++ ["events", hashNameEv ev]) ev)
    (evUpdate_name (bm ++ ["events", hashNameEv ev]) ev) (hashNameEv ev)
    (freshEv ev) rfl das

theorem writeEpochDA_map_names (bm : List String) (das : List DArr)
    (ep : NeoEpoch) :
    (writeEpochDA bm das ep).map (fun da => da.name) =
      (if das.any (fun da => da.name == hashNameEp ep) then das.map (fun da => da.name)
       else das.map (fun da => da.name) ++ [hashNameEp ep]) := by
  unfold writeEpochDA
  exact lookupCreate_map_names (epUpdate (bm ++ ["epochs", hashNameEp ep]) ep)
    (epUpdate_name (bm ++ ["epochs", hashNameEp ep]) ep) (hashNameEp ep)
    (freshEp ep) rfl das

theorem writeEpochDA_mem (bm : List String) (das : List DArr) (ep : NeoEpoch) :
    hashNameEp ep ∈ (writeEpochDA bm das ep).map (fun da => da.name) := by
  unfold writeEpochDA
  exact lookupCreate_mem_name (epUpdate (bm ++ ["epochs", hashNameEp ep]) ep)
    (epUpdate_name (bm ++ ["epochs", hashNameEp ep]) ep) (hashNameEp ep)
    (freshEp ep) rfl das

/-- C4: for every content-keyed entity kind — analog signals, spike trains,
events and epochs — the store identity `get_obj_nix_name` computes is the
stable content key `str(hash(...))` over the entity's raw payload bytes,
and for the discrete series (events and epochs) over the time values alone;
any two source objects of a kind with equal content keys are written to the
same store object — the second write finds the already-existing array under
that key and creates nothing new (the set of array names is unchanged). -/
theorem C4_content_key_dedup (bm : List String) (das : List NDA) (secs : List Sec)
    (s1 s2 : NeoSignal) (dasT dasE dasP : List DArr)
    (st1 st2 : NeoSpikeTrain) (ev1 ev2 : NeoEvent) (ep1 ep2 : NeoEpoch)
    (hs : hashName s1 = hashName s2) (hst : hashNameST st1 = hashNameST st2)
    (hev : hashNameEv ev1 = hashNameEv ev2) (hep : hashNameEp ep1 = hashNameEp ep2) :
    (hashName s1 = pyHashStr s1.data ∧ hashNameST st1 = pyHashStr st1.data ∧
     hashNameEv ev1 = pyHashStr ev1.times ∧ hashNameEp ep1 = pyHashStr ep1.times) ∧
    ((writeAnalogsignalDS bm (writeAnalogsignalDS bm das secs s1).1
        (writeAnalogsignalDS bm das secs s1).2 s2).1.map (fun da => da.name) =
      (writeAnalogsignalDS bm das secs s1).1.map (fun da => da.name) ∧
     hashName s2 ∈ (writeAnalogsignalDS bm das secs s1).1.map (fun da => da.name)) ∧
    ((writeSpiketrainDA bm (writeSpiketrainDA bm dasT st1) st2).map (fun da => da.name) =
      (writeSpiketrainDA bm dasT st1).map (fun da => da.name) ∧
     hashNameST st2 ∈ (writeSpiketrainDA bm dasT st1).map (fun da => da.name)) ∧
    ((writeEventDA bm (writeEventDA bm dasE ev1) ev2).map (fun da => da.name) =
      (writeEventDA bm dasE ev1).map (fun da => da.name) ∧
     hashNameEv ev2 ∈ (writeEventDA bm dasE ev1).map (fun da => da.name)) ∧
    ((writeEpochDA bm (writeEpochDA bm dasP ep1) ep2).map (fun da => da.name) =
      (writeEpochDA bm dasP ep1).map (fun da => da.name) ∧
     hashNameEp ep2 ∈ (writeEpochDA bm dasP ep1).map (fun da => da.name)) := by
  refine ⟨⟨rfl, rfl, rfl, rfl⟩, ?_, ?_, ?_, ?_⟩
  · have hmem : hashName s2 ∈ (writeAnalogsignalDS bm das secs s1).1.map
        (fun da => da.name) := by
      rw [← hs]
      exact writeDS_mem_name bm das secs s1
    refine ⟨?_, hmem⟩
    rw [writeDS_map_names]
    have hany : (writeAnalogsignalDS bm das secs s1).1.any
        (fun da => da.name == hashName s2) = true := by
      rw [List.any_eq_true]
      obtain ⟨da, hda, hname⟩ := List.mem_map.mp hmem
      exact ⟨da, hda, by rw [beq_iff_eq]; exact hname⟩
    rw [if_pos hany]
  · have hmem : hashNameST st2 ∈ (writeSpiketrainDA bm dasT st1).map
        (fun da => da.name) := by
      rw [← hst]
      exact writeSpiketrainDA_mem bm dasT st1
    refine ⟨?_, hmem⟩
    rw [writeSpiketrainDA_map_names]
    have hany : (writeSpiketrainDA bm dasT st1).any
        (fun da => da.name == hashNameST st2) = true := by
      rw [List.any_eq_true]
      obtain ⟨da, hda, hname⟩ := List.mem_map.mp hmem
      exact ⟨da, hda, by rw [beq_iff_eq]; exact hname⟩
    rw [if_pos hany]
  · have hmem : hashNameEv ev2 ∈ (writeEventDA bm dasE ev1).map
        (fun da => da.name) := by
      rw [← hev]
      exact writeEventDA_mem bm dasE ev1
    refine ⟨?_, hmem⟩
    rw [writeEventDA_map_names]
    have hany : (writeEventDA bm dasE ev1).any
        (fun da => da.name == hashNameEv ev2) = true := by
      rw [List.any_eq_true]
      obtain ⟨da, hda, hname⟩ := List.mem_map.mp hmem
      exact ⟨da, hda, by rw [beq_iff_eq]; exact hname⟩
    rw [if_pos hany]
  · have hmem : hashNameEp ep2 ∈ (writeEpochDA bm dasP ep1).map
        (fun da => da.name) := by
      rw [← hep]
      exact writeEpochDA_mem bm dasP ep1
    refine ⟨?_, hmem⟩
    rw [writeEpochDA_map_names]
    have hany : (writeEpochDA bm dasP ep1).any
        (fun da => da.name == hashNameEp ep2) = true := by
      rw [List.any_eq_true]
      obtain ⟨da, hda, hname⟩ := List.mem_map.mp hmem
      exact ⟨da, hda, by rw [beq_iff_eq]; exact hname⟩
    rw [if_pos hany]

theorem writeDS_preserves_other (bm : List String) (das : List NDA) (secs : List Sec)
    (sg : NeoSignal) (d : NDA) (hd : d ∈ das) (hne : d.name ≠ hashName sg) :
    d ∈ (writeAnalogsignalDS bm das secs sg).1 := by
  unfold writeAnalogsignalDS
  have hd1 : d ∈ (if das.any (fun da => da.name == hashName sg) then das
      else das ++ [freshDA sg]) := by
    by_cases h : das.any (fun da => da.name == hashName sg)
    · rw [if_pos h]
      exact hd
    · rw [if_neg h]
      exact List.mem_append_left _ hd
  have := List.mem_map_of_mem (dsUpdate (bm ++ ["analogsignals", hashName sg]) sg) hd1
  rwa [dsUpdate_other hne] at this

theorem foldDS_preserves (bm : List String) (sgs : List NeoSignal) (X : String)
    (hX : ∀ sg ∈ sgs, hashName sg ≠ X) :
    ∀ (p : List NDA × List Sec) (d : NDA), d ∈ p.1 → d.name = X →
      d ∈ (sgs.foldl (fun p sg => writeAnalogsignalDS bm p.1 p.2 sg) p).1 := by
  induction sgs with
  | nil => intro p d hd _; exact hd
  | cons sg rest ih =>
      intro p d hd hX'
      rw [List.foldl_cons]
      refine ih (fun s hs => hX s (List.mem_cons_of_mem sg hs)) _ d ?_ hX'
      exact writeDS_preserves_other bm p.1 p.2 sg d hd
        (by rw [hX']; exact fun hc => hX sg (List.mem_cons_self sg rest) hc.symm)

/-- C3: `clean` never deletes a data array that is still linked from a
source or still referenced by a tag, and only deletes arrays for which the
orphan check finds neither; in particular, for a signal-array `X` owned by
segment `A` (via its tag's references) and linked from group source `G`,
re-writing `A` without the signal detaches `X` from `A`'s tag but leaves it
present in the block with the `G` link intact. -/
theorem C3_link_removal_orphan_check (ws : WState) (seg : NeoSegment)
    (X G : String)
    (hX : ∀ d ∈ ws.blk.dataArrays, d.name = X → G ∈ d.sources ∧ d.dtype = "analogsignal")
    (hEx : ∃ d ∈ ws.blk.dataArrays, d.name = X)
    (hDrop : X ∉ seg.analogsignals.map hashName) :
    (∀ (b : NBlock), ∀ d ∈ b.dataArrays, d.sources ≠ [] → d ∈ (clean b).dataArrays) ∧
    (∀ (b : NBlock), ∀ d ∈ b.dataArrays, daHasTagRef b.tags d.name = true →
      d ∈ (clean b).dataArrays) ∧
    (∀ (b : NBlock), ∀ d ∈ b.dataArrays, d ∉ (clean b).dataArrays →
      daHasTagRef b.tags d.name = false ∧ d.sources = []) ∧
    (∃ d ∈ (writeSegment ws seg).blk.dataArrays, d.name = X ∧ G ∈ d.sources) ∧
    (∀ t ∈ (writeSegment ws seg).blk.tags, t.name = seg.name → X ∉ t.references) := by
  have hkeep : ∀ (b : NBlock), ∀ d ∈ b.dataArrays, d.sources ≠ [] →
      d ∈ (clean b).dataArrays := by
    intro b d hd hs
    unfold clean
    simp only [List.mem_filter]
    refine ⟨hd, ?_⟩
    simp [List.isEmpty_iff, hs]
  have hkeep2 : ∀ (b : NBlock), ∀ d ∈ b.dataArrays, daHasTagRef b.tags d.name = true →
      d ∈ (clean b).dataArrays := by
    intro b d hd hr
    unfold clean
    simp only [List.mem_filter]
    exact ⟨hd, by simp [hr]⟩
  refine ⟨hkeep, hkeep2, ?_, ?_, ?_⟩
  · intro b d hd hnot
    by_contra hcon
    rw [not_and_or] at hcon
    rcases hcon with hcon | hcon
    · exact hnot (hkeep2 b d hd (by revert hcon; cases daHasTagRef b.tags d.name <;> simp))
    · exact hnot (hkeep b d hd hcon)
  · -- the X array survives the re-write of segment A without the signal
    obtain ⟨d, hd, hdX⟩ := hEx
    obtain ⟨hG, _⟩ := hX d hd hdX
    have hne : ∀ sg ∈ seg.analogsignals, hashName sg ≠ X := by
      intro sg hsg hc
      exact hDrop (hc ▸ List.mem_map_of_mem hashName hsg)
    refine ⟨d, ?_, hdX, hG⟩
    show d ∈ (clean _).dataArrays
    apply hkeep
    · exact foldDS_preserves ws.blk.metaPath seg.analogsignals X hne _ d hd hdX
    · intro hcon
      rw [hcon] at hG
      exact (List.not_mem_nil G) hG
  · -- X is no longer among the references of A's tag
    intro t ht htname
    have hda : daHasType ws.blk.dataArrays X "analogsignal" = true := by
      unfold daHasType
      cases hfind : ws.blk.dataArrays.find? (fun da => da.name == X) with
      | none =>
          obtain ⟨d, hd, hdX⟩ := hEx
          rw [List.find?_eq_none] at hfind
          exact absurd (by rw [beq_iff_eq]; exact hdX) (hfind d hd)
      | some d =>
          have hmem := List.mem_of_find?_eq_some hfind
          have hpred := List.find?_some hfind
          rw [beq_iff_eq] at hpred
          rw [beq_iff_eq]
          exact (hX d hmem hpred).2
    -- every tag of the result named seg.name carries the updated references
    have htags : t.references = segRefs2 ws seg := by
      have ht' : t ∈ segTags2 ws seg := ht
      rw [segTags2, List.mem_map] at ht'
      obtain ⟨t0, _, rfl⟩ := ht'
      by_cases h0 : t0.name = seg.name
      · simp [if_pos h0]
      · rw [if_neg h0] at htname ⊢
        exact absurd htname h0
    rw [htags]
    -- X is diffed away: it is in to_remove and not in to_append
    rw [segRefs2, List.mem_append]
    rintro (hmem | hmem)
    · rw [List.mem_filter] at hmem
      obtain ⟨hrefs, hkeep⟩ := hmem
      have hrm : X ∈ (segDiff ws seg).1 := by
        rw [segDiff, compare]
        rw [List.mem_dedup, List.mem_filter]
        refine ⟨?_, ?_⟩
        · rw [segExisting, List.mem_filter]
          exact ⟨hrefs, hda⟩
        · simp only [Bool.not_eq_eq_eq_not, Bool.not_true]
          rw [← Bool.not_eq_true]
          intro hc
          exact hDrop (List.elem_iff.mp hc)
      rw [Bool.not_eq_eq_eq_not, Bool.not_true, ← Bool.not_eq_true] at hkeep
      exact hkeep (List.elem_iff.mpr hrm)
    · rw [segDiff, compare] at hmem
      rw [List.mem_dedup, List.mem_filter] at hmem
      exact hDrop hmem.1

theorem C3_witness :
    (∃ d ∈ (writeSegment
        ⟨⟨"B", "block", [⟨"A", "segment", ["X1"], []⟩],
          [⟨"G", "recordingchannelgroup", []⟩],
          [⟨"X1", "analogsignal", [5], "mV", [], ["G"], []⟩], ["B"]⟩, []⟩
        ⟨"A", none, none, none, none, none, [], []⟩).blk.dataArrays,
      d.name = "X1" ∧ "G" ∈ d.sources) ∧
    (∀ t ∈ (writeSegment
        ⟨⟨"B", "block", [⟨"A", "segment", ["X1"], []⟩],
          [⟨"G", "recordingchannelgroup", []⟩],
          [⟨"X1", "analogsignal", [5], "mV", [], ["G"], []⟩], ["B"]⟩, []⟩
        ⟨"A", none, none, none, none, none, [], []⟩).blk.tags,
      t.name = "A" → "X1" ∉ t.references) :=
  ⟨(C3_link_removal_orphan_check
      ⟨⟨"B", "block", [⟨"A", "segment", ["X1"], []⟩],
        [⟨"G", "recordingchannelgroup", []⟩],
        [⟨"X1", "analogsignal", [5], "mV", [], ["G"], []⟩], ["B"]⟩, []⟩
      ⟨"A", none, none, none, none, none, [], []⟩ "X1" "G"
      (by decide) (by decide) (by decide)).2.2.2.1,
   (C3_link_removal_orphan_check
      ⟨⟨"B", "block", [⟨"A", "segment", ["X1"], []⟩],
        [⟨"G", "recordingchannelgroup", []⟩],
        [⟨"X1", "analogsignal", [5], "mV", [], ["G"], []⟩], ["B"]⟩, []⟩
      ⟨"A", none, none, none, none, none, [], []⟩ "X1" "G"
      (by decide) (by decide) (by decide)).2.2.2.2⟩

theorem C4_witness :
    (hashName (⟨[1, 2], "mV", 0, "s", 1, "Hz", none, none, none, []⟩ : NeoSignal) =
      hashName (⟨[1, 2], "uV", 3, "ms", 2, "kHz", some "other", none, none, []⟩ : NeoSignal) ∧
     hashNameST (⟨[3, 4], "mV", none, "", none⟩ : NeoSpikeTrain) =
      hashNameST (⟨[3, 4], "uV", some 5, "Hz", some "named"⟩ : NeoSpikeTrain) ∧
     hashNameEv (⟨[1, 2], [], none⟩ : NeoEvent) =
      hashNameEv (⟨[1, 2], ["a", "b"], some "e"⟩ : NeoEvent) ∧
     hashNameEp (⟨[1, 2], [1, 1], [], none⟩ : NeoEpoch) =
      hashNameEp (⟨[1, 2], [2, 3], [], none⟩ : NeoEpoch)) ∧
    (writeEpochDA ["B"] (writeEpochDA ["B"] [] ⟨[1, 2], [1, 1], [], none⟩)
        ⟨[1, 2], [2, 3], [], none⟩).map (fun da => da.name) =
      (writeEpochDA ["B"] [] ⟨[1, 2], [1, 1], [], none⟩).map (fun da => da.name) :=
  ⟨⟨rfl, rfl, rfl, rfl⟩,
   (C4_content_key_dedup ["B"] [] []
      ⟨[1, 2], "mV", 0, "s", 1, "Hz", none, none, none, []⟩
      ⟨[1, 2], "uV", 3, "ms", 2, "kHz", some "other", none, none, []⟩
      [] [] []
      ⟨[3, 4], "mV", none, "", none⟩ ⟨[3, 4], "uV", some 5, "Hz", some "named"⟩
      ⟨[1, 2], [], none⟩ ⟨[1, 2], ["a", "b"], some "e"⟩
      ⟨[1, 2], [1, 1], [], none⟩ ⟨[1, 2], [2, 3], [], none⟩
      rfl rfl rfl rfl).2.2.2.2.1⟩

theorem Sec.withSubs_eta (s : Sec) : s.withSubs s.subs = s := by
  cases s
  rfl

theorem Sec.withSubs_name (s : Sec) (l : List Sec) : (s.withSubs l).name = s.name := by
  cases s
  rfl

theorem Sec.withProps_name (s : Sec) (p : List NProp) : (s.withProps p).name = s.name := by
  cases s
  rfl

theorem Sec.withSubs_props (s : Sec) (l : List Sec) : (s.withSubs l).props = s.props := by
  cases s
  rfl

theorem Sec.withProps_subs (s : Sec) (p : List NProp) : (s.withProps p).subs = s.subs := by
  cases s
  rfl

theorem Sec.withSubs_subs (s : Sec) (l : List Sec) : (s.withSubs l).subs = l := by
  cases s
  rfl

theorem Sec.withProps_props (s : Sec) (p : List NProp) : (s.withProps p).props = p := by
  cases s
  rfl


theorem writeProps_eq (secs : List Sec) (path : List String) (d : List (String × PVal)) :
    writeProps secs path d = modifyAt path (fun s => s.withProps (propsFold s.props d)) secs :=
  rfl


theorem upsertProp_noop {props : List NProp} {k : String} {vs : List NVal}
    (h : propIs props k vs) : upsertProp props k vs = props := by
  obtain ⟨⟨p0, hp0, hp0n⟩, hall⟩ := h
  unfold upsertProp
  rw [if_pos (by rw [List.any_eq_true]; exact ⟨p0, hp0, by rw [beq_iff_eq]; exact hp0n⟩)]
  have hcongr : ∀ p ∈ props, (if p.name = k then (⟨k, vs⟩ : NProp) else p) = p := by
    intro p hp
    by_cases hn : p.name = k
    · rw [if_pos hn]
      have hv := hall p hp hn
      cases p
      cases hn
      cases hv
      rfl
    · rw [if_neg hn]
  rw [List.map_congr_left hcongr, List.map_id']

theorem upsertProp_establish (props : List NProp) (k : String) (vs : List NVal) :
    propIs (upsertProp props k vs) k vs := by
  unfold upsertProp
  by_cases hany : props.any (fun p => p.name == k)
  · rw [if_pos hany]
    rw [List.any_eq_true] at hany
    obtain ⟨p0, hp0, hp0k⟩ := hany
    rw [beq_iff_eq] at hp0k
    constructor
    · exact ⟨⟨k, vs⟩, List.mem_map.mpr ⟨p0, hp0, if_pos hp0k⟩, rfl⟩
    · intro p hp hpk
      rw [List.mem_map] at hp
      obtain ⟨q, _, rfl⟩ := hp
      by_cases hq : q.name = k
      · rw [if_pos hq]
      · rw [if_neg hq] at hpk ⊢
        exact absurd hpk hq
  · rw [if_neg hany]
    constructor
    · exact ⟨⟨k, vs⟩, List.mem_append_right _ (List.mem_singleton_self _), rfl⟩
    · intro p hp hpk
      rw [List.mem_append] at hp
      rcases hp with hp | hp
      · exfalso
        apply hany
        rw [List.any_eq_true]
        exact ⟨p, hp, by rw [beq_iff_eq]; exact hpk⟩
      · rw [List.mem_singleton] at hp
        rw [hp]

theorem upsertProp_preserve {props : List NProp} {k' : String} {vs' : List NVal}
    (k : String) (vs : List NVal) (hne : k ≠ k') (h : propIs props k' vs') :
    propIs (upsertProp props k vs) k' vs' := by
  obtain ⟨⟨p0, hp0, hp0n⟩, hall⟩ := h
  unfold upsertProp
  by_cases hany : props.any (fun p => p.name == k)
  · rw [if_pos hany]
    constructor
    · exact ⟨p0, List.mem_map.mpr ⟨p0, hp0,
        if_neg (by rw [hp0n]; exact fun hc => hne hc.symm)⟩, hp0n⟩
    · intro p hp hpk
      rw [List.mem_map] at hp
      obtain ⟨q, hq, rfl⟩ := hp
      by_cases hqk : q.name = k
      · rw [if_pos hqk] at hpk ⊢
        exact absurd hpk hne
      · rw [if_neg hqk] at hpk ⊢
        exact hall q hq hpk
  · rw [if_neg hany]
    constructor
    · exact ⟨p0, List.mem_append_left _ hp0, hp0n⟩
    · intro p hp hpk
      rw [List.mem_append] at hp
      rcases hp with hp | hp
      · exact hall p hp hpk
      · rw [List.mem_singleton] at hp
        rw [hp] at hpk
        exact absurd hpk hne

theorem propsFold_noop {props : List NProp} {d : List (String × PVal)}
    (h : propsAgreeD props d) : propsFold props d = props := by
  induction d with
  | nil => rfl
  | cons kv rest ih =>
      unfold propsFold
      rw [List.foldl_cons]
      rw [upsertProp_noop (h kv (List.mem_cons_self kv rest))]
      exact ih (fun kv' h' => h kv' (List.mem_cons_of_mem kv h'))

theorem propsFold_preserve {props : List NProp} {k' : String} {vs' : List NVal}
    {d : List (String × PVal)} (hne : ∀ kv ∈ d, kv.1 ≠ k') (h : propIs props k' vs') :
    propIs (propsFold props d) k' vs' := by
  induction d generalizing props with
  | nil => exact h
  | cons kv rest ih =>
      unfold propsFold
      rw [List.foldl_cons]
      exact ih (fun kv' h' => hne kv' (List.mem_cons_of_mem kv h'))
        (upsertProp_preserve kv.1 _ (hne kv (List.mem_cons_self kv rest)) h)

theorem propsFold_establish {d : List (String × PVal)} (props : List NProp)
    (hnd : (d.map Prod.fst).Nodup) : propsAgreeD (propsFold props d) d := by
  induction d generalizing props with
  | nil => intro kv h; exact absurd h (List.not_mem_nil kv)
  | cons kv rest ih =>
      rw [List.map_cons, List.nodup_cons] at hnd
      intro kv' hkv'
      rw [List.mem_cons] at hkv'
      rcases hkv' with rfl | hkv'
      · unfold propsFold
        rw [List.foldl_cons]
        exact propsFold_preserve
          (fun kv2 h2 hc => hnd.1 (hc ▸ List.mem_map_of_mem Prod.fst h2))
          (upsertProp_establish props kv'.1 _)
      · exact ih _ hnd.2 kv' hkv'

theorem dictUpsert_keys_nodup {d : List (String × PVal)} (k : String) (v : PVal)
    (h : (d.map Prod.fst).Nodup) : ((dictUpsert d k v).map Prod.fst).Nodup := by
  unfold dictUpsert
  by_cases hany : d.any (fun kv => kv.1 == k)
  · rw [if_pos hany]
    rw [List.map_map]
    have : ∀ kv ∈ d, (Prod.fst ∘ fun kv => if kv.1 = k then (k, v) else kv) kv = kv.1 := by
      intro kv _
      by_cases hk : kv.1 = k
      · simp [hk]
      · simp [hk]
    rw [List.map_congr_left this]
    exact h
  · rw [if_neg hany]
    rw [List.map_append]
    simp only [List.map_cons, List.map_nil]
    rw [List.nodup_append]
    refine ⟨h, List.nodup_singleton k, ?_⟩
    intro x hx hxk
    rw [List.mem_singleton] at hxk
    subst hxk
    apply hany
    rw [List.any_eq_true]
    rw [List.mem_map] at hx
    obtain ⟨kv, hkv, hfst⟩ := hx
    exact ⟨kv, hkv, by rw [beq_iff_eq]; exact hfst⟩

theorem addOptAttr_keys_nodup {d : List (String × PVal)} (k : String)
    (o : Option PVal) (h : (d.map Prod.fst).Nodup) :
    ((addOptAttr d k o).map Prod.fst).Nodup := by
  cases o with
  | none => exact h
  | some v => exact dictUpsert_keys_nodup k v h

theorem extractBlockMeta_keys_nodup (b : NeoBlock) (h : dictKeysNodup b.anns) :
    ((extractBlockMeta b).map Prod.fst).Nodup := by
  unfold extractBlockMeta
  exact addOptAttr_keys_nodup _ _ (addOptAttr_keys_nodup _ _ (addOptAttr_keys_nodup _ _
    (addOptAttr_keys_nodup _ _ (addOptAttr_keys_nodup _ _ h))))

theorem extractSegMeta_keys_nodup (sg : NeoSegment) (h : dictKeysNodup sg.anns) :
    ((extractSegMeta sg).map Prod.fst).Nodup := by
  unfold extractSegMeta
  exact addOptAttr_keys_nodup _ _ (addOptAttr_keys_nodup _ _ (addOptAttr_keys_nodup _ _
    (addOptAttr_keys_nodup _ _ (addOptAttr_keys_nodup _ _ h))))

theorem extractRCGMeta_keys_nodup (r : NeoRCG) (h : dictKeysNodup r.anns) :
    ((extractRCGMeta r).map Prod.fst).Nodup := by
  unfold extractRCGMeta
  exact addOptAttr_keys_nodup _ _ (addOptAttr_keys_nodup _ _ (addOptAttr_keys_nodup _ _
    (addOptAttr_keys_nodup _ _ (addOptAttr_keys_nodup _ _ h))))

theorem extractSigFull_keys_nodup (sg : NeoSignal) (h : dictKeysNodup sg.anns) :
    ((extractSigFull sg).map Prod.fst).Nodup := by
  unfold extractSigFull extractSigMeta
  exact dictUpsert_keys_nodup _ _ (dictUpsert_keys_nodup _ _ (addOptAttr_keys_nodup _ _
    (addOptAttr_keys_nodup _ _ (addOptAttr_keys_nodup _ _ h))))

theorem secUpdate_id {l : List Sec} {n : String} {f : Sec → Sec}
    (h : ∀ s ∈ l, s.name = n → f s = s) : secUpdate l n f = l := by
  unfold secUpdate
  have : ∀ s ∈ l, (if s.name = n then f s else s) = s := by
    intro s hs
    by_cases hn : s.name = n
    · rw [if_pos hn]
      exact h s hs hn
    · rw [if_neg hn]
  rw [List.map_congr_left this, List.map_id']

theorem secUpdate_mem {l : List Sec} {n : String} {f : Sec → Sec} {s : Sec}
    (hs : s ∈ secUpdate l n f) :
    ∃ s0 ∈ l, s = (if s0.name = n then f s0 else s0) := by
  unfold secUpdate at hs
  rw [List.mem_map] at hs
  obtain ⟨s0, hs0, rfl⟩ := hs
  exact ⟨s0, hs0, rfl⟩

theorem secHas_secUpdate (l : List Sec) (n m : String) (f : Sec → Sec)
    (hf : ∀ s, (f s).name = s.name) : secHas (secUpdate l n f) m = secHas l m := by
  induction l with
  | nil => rfl
  | cons s rest ih =>
      show (((if s.name = n then f s else s) :: secUpdate rest n f).any
        (fun s => s.name == m)) = ((s :: rest).any (fun s => s.name == m))
      rw [List.any_cons, List.any_cons]
      have hhead : (if s.name = n then f s else s).name = s.name := by
        by_cases hn : s.name = n
        · rw [if_pos hn, hf]
        · rw [if_neg hn]
      rw [hhead]
      have htail : (secUpdate rest n f).any (fun s => s.name == m)
          = rest.any (fun s => s.name == m) := ih
      rw [htail]

theorem secHas_getOrCreateSub (l : List Sec) (n t m : String) (h : secHas l m = true) :
    secHas (getOrCreateSub l n t) m = true := by
  unfold getOrCreateSub
  by_cases hh : secHas l n
  · rwa [if_pos hh]
  · rw [if_neg hh]
    unfold secHas at h ⊢
    rw [List.any_append, h]
    rfl

theorem secHas_getOrCreateSub_self (l : List Sec) (n t : String) :
    secHas (getOrCreateSub l n t) n = true := by
  unfold getOrCreateSub
  by_cases hh : secHas l n
  · rwa [if_pos hh]
  · rw [if_neg hh]
    unfold secHas
    rw [List.any_append]
    simp [Sec.name]

theorem ensureChain_single_eq (x t : String) (l : List Sec) :
    ensureChain [(x, t)] l = getOrCreateSub l x t := by
  show secUpdate (getOrCreateSub l x t) x (fun s => s.withSubs (ensureChain [] s.subs))
      = getOrCreateSub l x t
  exact secUpdate_id (fun s _ _ => Sec.withSubs_eta s)

theorem ensureChain_pair_eq (gs t1 x t2 : String) (l : List Sec) :
    ensureChain [(gs, t1), (x, t2)] l =
      secUpdate (getOrCreateSub l gs t1) gs
        (fun g => g.withSubs (getOrCreateSub g.subs x t2)) := by
  show secUpdate (getOrCreateSub l gs t1) gs
      (fun g => g.withSubs (ensureChain [(x, t2)] g.subs)) = _
  congr 1
  funext g
  rw [ensureChain_single_eq]

theorem ensureChain_pair_noop {gs t1 x t2 : String} {l : List Sec}
    (h1 : secHas l gs = true)
    (h2 : ∀ g ∈ l, g.name = gs → secHas g.subs x = true) :
    ensureChain [(gs, t1), (x, t2)] l = l := by
  rw [ensureChain_pair_eq]
  have hgoc : getOrCreateSub l gs t1 = l := by
    unfold getOrCreateSub
    rw [if_pos h1]
  rw [hgoc]
  apply secUpdate_id
  intro g hg hgname
  have hx : getOrCreateSub g.subs x t2 = g.subs := by
    unfold getOrCreateSub
    rw [if_pos (h2 g hg hgname)]
  rw [hx]
  exact Sec.withSubs_eta g

theorem getOrCreateSection_eq (secs : List Sec) (b grp x : String) :
    getOrCreateSection secs [b] grp x =
      secUpdate secs b (fun root =>
        root.withSubs (ensureChain [(grp ++ "s", grp), (x, grp)] root.subs)) := rfl

theorem getOrCreateSection_noop {secs : List Sec} {b grp x : String}
    (h : ∀ r ∈ secs, r.name = b → secHas r.subs (grp ++ "s") = true ∧
      ∀ g ∈ r.subs, g.name = grp ++ "s" → secHas g.subs x = true) :
    getOrCreateSection secs [b] grp x = secs := by
  rw [getOrCreateSection_eq]
  apply secUpdate_id
  intro r hr hrname
  rw [ensureChain_pair_noop (h r hr hrname).1 (h r hr hrname).2]
  exact Sec.withSubs_eta r

theorem getOrCreateFileSec_noop {secs : List Sec} {b : String}
    (h : secHas secs b = true) : getOrCreateFileSec secs b = secs := by
  unfold getOrCreateFileSec getOrCreateSub
  rw [if_pos h]

theorem modifyAt_single_eq (n : String) (f : Sec → Sec) (secs : List Sec) :
    modifyAt [n] f secs = secUpdate secs n f := rfl

theorem modifyAt_triple_eq (n m k : String) (f : Sec → Sec) (secs : List Sec) :
    modifyAt [n, m, k] f secs =
      secUpdate secs n (fun s => s.withSubs
        (secUpdate s.subs m (fun g => g.withSubs (secUpdate g.subs k f)))) := rfl

theorem writeProps_root_noop {secs : List Sec} {b : String} {d : List (String × PVal)}
    (h : ∀ r ∈ secs, r.name = b → propsAgreeD r.props d) :
    writeProps secs [b] d = secs := by
  rw [writeProps_eq, modifyAt_single_eq]
  apply secUpdate_id
  intro r hr hrname
  rw [propsFold_noop (h r hr hrname)]
  cases r
  rfl

theorem writeProps_deep_noop {secs : List Sec} {b gs x : String}
    {d : List (String × PVal)}
    (h : ∀ r ∈ secs, r.name = b → ∀ g ∈ r.subs, g.name = gs →
      ∀ t ∈ g.subs, t.name = x → propsAgreeD t.props d) :
    writeProps secs [b, gs, x] d = secs := by
  rw [writeProps_eq, modifyAt_triple_eq]
  apply secUpdate_id
  intro r hr hrname
  have hsub : secUpdate r.subs gs
      (fun g => g.withSubs (secUpdate g.subs x
        (fun s => s.withProps (propsFold s.props d)))) = r.subs := by
    apply secUpdate_id
    intro g hg hgname
    have hsub2 : secUpdate g.subs x (fun s => s.withProps (propsFold s.props d)) = g.subs := by
      apply secUpdate_id
      intro t ht htname
      rw [propsFold_noop (h r hr hrname g hg hgname t ht htname)]
      cases t
      rfl
    rw [hsub2]
    exact Sec.withSubs_eta g
  rw [hsub]
  exact Sec.withSubs_eta r


theorem secHas_getOrCreateFileSec_self (secs : List Sec) (b : String) :
    secHas (getOrCreateFileSec secs b) b = true :=
  secHas_getOrCreateSub_self secs b "block"

theorem secHas_getOrCreateSection (secs : List Sec) (b grp x m : String) :
    secHas (getOrCreateSection secs [b] grp x) m = secHas secs m := by
  rw [getOrCreateSection_eq]
  exact secHas_secUpdate _ _ _ _ (fun s => Sec.withSubs_name s _)

theorem secHas_writeProps_root (secs : List Sec) (b m : String)
    (d : List (String × PVal)) :
    secHas (writeProps secs [b] d) m = secHas secs m := by
  rw [writeProps_eq, modifyAt_single_eq]
  exact secHas_secUpdate _ _ _ _ (fun s => Sec.withProps_name s _)

theorem secHas_writeProps_deep (secs : List Sec) (b gs x m : String)
    (d : List (String × PVal)) :
    secHas (writeProps secs [b, gs, x] d) m = secHas secs m := by
  rw [writeProps_eq, modifyAt_triple_eq]
  exact secHas_secUpdate _ _ _ _ (fun s => Sec.withSubs_name s _)

theorem getOrCreateSub_mem {l : List Sec} {n t : String} {s : Sec}
    (hs : s ∈ getOrCreateSub l n t) : s ∈ l ∨ s = ⟨n, t, [], []⟩ := by
  unfold getOrCreateSub at hs
  by_cases h : secHas l n
  · rw [if_pos h] at hs
    exact Or.inl hs
  · rw [if_neg h] at hs
    rw [List.mem_append, List.mem_singleton] at hs
    exact hs

theorem HasGT_establish (secs : List Sec) (b grp x : String) :
    HasGT (getOrCreateSection secs [b] grp x) b (grp ++ "s") x := by
  rw [getOrCreateSection_eq]
  intro r' hr' hname
  obtain ⟨r, hr, rfl⟩ := secUpdate_mem hr'
  by_cases hb : r.name = b
  · rw [if_pos hb] at hname ⊢
    rw [Sec.withSubs_subs]
    rw [ensureChain_pair_eq]
    constructor
    · rw [secHas_secUpdate _ _ _ _ (fun s => Sec.withSubs_name s _)]
      exact secHas_getOrCreateSub_self _ _ _
    · intro g' hg' hgname
      obtain ⟨g, hg, rfl⟩ := secUpdate_mem hg'
      by_cases hgs : g.name = grp ++ "s"
      · rw [if_pos hgs]
        rw [Sec.withSubs_subs]
        exact secHas_getOrCreateSub_self _ _ _
      · rw [if_neg hgs] at hgname ⊢
        exact absurd hgname hgs
  · rw [if_neg hb] at hname
    exact absurd hname hb

theorem getOrCreateSub_cases (l : List Sec) (n t : String) :
    (secHas l n = true ∧ getOrCreateSub l n t = l) ∨
    (secHas l n = false ∧ getOrCreateSub l n t = l ++ [⟨n, t, [], []⟩]) := by
  unfold getOrCreateSub
  by_cases h : secHas l n
  · exact Or.inl ⟨h, if_pos h⟩
  · exact Or.inr ⟨Bool.not_eq_true _ ▸ h, if_neg h⟩

theorem secHas_append_left {l : List Sec} {m : String} (l2 : List Sec)
    (h : secHas l m = true) : secHas (l ++ l2) m = true := by
  unfold secHas at h ⊢
  rw [List.any_append, h]
  rfl

theorem HasGT_preserve_section (secs : List Sec) (b grp x gs' x' : String)
    (h : HasGT secs b gs' x') :
    HasGT (getOrCreateSection secs [b] grp x) b gs' x' := by
  rw [getOrCreateSection_eq]
  intro r' hr' hname
  obtain ⟨r, hr, rfl⟩ := secUpdate_mem hr'
  by_cases hb : r.name = b
  case neg =>
    rw [if_neg hb] at hname
    exact absurd hname hb
  rw [if_pos hb] at hname ⊢
  rw [Sec.withSubs_subs, ensureChain_pair_eq]
  obtain ⟨hhas, hsub⟩ := h r hr hb
  rcases getOrCreateSub_cases r.subs (grp ++ "s") grp with ⟨hcase, heq⟩ | ⟨hcase, heq⟩
  · rw [heq]
    constructor
    · rw [secHas_secUpdate _ _ _ _ (fun s => Sec.withSubs_name s _)]
      exact hhas
    · intro g' hg' hgname
      obtain ⟨g, hg, rfl⟩ := secUpdate_mem hg'
      by_cases hgs : g.name = grp ++ "s"
      · rw [if_pos hgs] at hgname ⊢
        rw [Sec.withSubs_name] at hgname
        rw [Sec.withSubs_subs]
        exact secHas_getOrCreateSub _ _ _ _ (hsub g hg hgname)
      · rw [if_neg hgs] at hgname ⊢
        exact hsub g hg hgname
  · rw [heq]
    constructor
    · rw [secHas_secUpdate _ _ _ _ (fun s => Sec.withSubs_name s _)]
      exact secHas_append_left _ hhas
    · intro g' hg' hgname
      obtain ⟨g, hg, rfl⟩ := secUpdate_mem hg'
      rw [List.mem_append, List.mem_singleton] at hg
      by_cases hgs : g.name = grp ++ "s"
      · rw [if_pos hgs] at hgname ⊢
        rw [Sec.withSubs_name] at hgname
        rw [Sec.withSubs_subs]
        rcases hg with hg | rfl
        · exact secHas_getOrCreateSub _ _ _ _ (hsub g hg hgname)
        · exfalso
          have hne : grp ++ "s" = gs' := hgname
          rw [← hne] at hhas
          rw [hhas] at hcase
          exact absurd hcase (by simp)
      · rw [if_neg hgs] at hgname ⊢
        rcases hg with hg | rfl
        · exact hsub g hg hgname
        · exact absurd rfl hgs

theorem HasGT_preserve_wp_root (secs : List Sec) (b gs' x' : String)
    (d : List (String × PVal)) (h : HasGT secs b gs' x') :
    HasGT (writeProps secs [b] d) b gs' x' := by
  rw [writeProps_eq, modifyAt_single_eq]
  intro r' hr' hname
  obtain ⟨r, hr, rfl⟩ := secUpdate_mem hr'
  by_cases hb : r.name = b
  case neg =>
    rw [if_neg hb] at hname
    exact absurd hname hb
  rw [if_pos hb]
  rw [Sec.withProps_subs]
  exact h r hr hb

theorem HasGT_preserve_wp_deep (secs : List Sec) (b gs x gs' x' : String)
    (d : List (String × PVal)) (h : HasGT secs b gs' x') :
    HasGT (writeProps secs [b, gs, x] d) b gs' x' := by
  rw [writeProps_eq, modifyAt_triple_eq]
  intro r' hr' hname
  obtain ⟨r, hr, rfl⟩ := secUpdate_mem hr'
  by_cases hb : r.name = b
  case neg =>
    rw [if_neg hb] at hname
    exact absurd hname hb
  rw [if_pos hb]
  rw [Sec.withSubs_subs]
  obtain ⟨hhas, hsub⟩ := h r hr hb
  constructor
  · rw [secHas_secUpdate _ _ _ _ (fun s => Sec.withSubs_name s _)]
    exact hhas
  · intro g' hg' hgname
    obtain ⟨g, hg, rfl⟩ := secUpdate_mem hg'
    by_cases hgs : g.name = gs
    · rw [if_pos hgs] at hgname ⊢
      rw [Sec.withSubs_name] at hgname
      rw [Sec.withSubs_subs]
      rw [secHas_secUpdate _ _ _ _ (fun s => Sec.withProps_name s _)]
      exact hsub g hg hgname
    · rw [if_neg hgs] at hgname ⊢
      exact hsub g hg hgname

theorem AgreeRoot_establish (secs : List Sec) (b : String)
    (d : List (String × PVal)) (hnd : (d.map Prod.fst).Nodup) :
    AgreeRoot (writeProps secs [b] d) b d := by
  rw [writeProps_eq, modifyAt_single_eq]
  intro r' hr' hname
  obtain ⟨r, hr, rfl⟩ := secUpdate_mem hr'
  by_cases hb : r.name = b
  · rw [if_pos hb]
    rw [Sec.withProps_props]
    exact propsFold_establish _ hnd
  · rw [if_neg hb] at hname
    exact absurd hname hb

theorem AgreeRoot_preserve_section (secs : List Sec) (b grp x : String)
    (d0 : List (String × PVal)) (h : AgreeRoot secs b d0) :
    AgreeRoot (getOrCreateSection secs [b] grp x) b d0 := by
  rw [getOrCreateSection_eq]
  intro r' hr' hname
  obtain ⟨r, hr, rfl⟩ := secUpdate_mem hr'
  by_cases hb : r.name = b
  · rw [if_pos hb]
    rw [Sec.withSubs_props]
    exact h r hr hb
  · rw [if_neg hb] at hname
    exact absurd hname hb

theorem AgreeRoot_preserve_wp_deep (secs : List Sec) (b gs x : String)
    (d d0 : List (String × PVal)) (h : AgreeRoot secs b d0) :
    AgreeRoot (writeProps secs [b, gs, x] d) b d0 := by
  rw [writeProps_eq, modifyAt_triple_eq]
  intro r' hr' hname
  obtain ⟨r, hr, rfl⟩ := secUpdate_mem hr'
  by_cases hb : r.name = b
  · rw [if_pos hb]
    rw [Sec.withSubs_props]
    exact h r hr hb
  · rw [if_neg hb] at hname
    exact absurd hname hb

theorem AgreeDeep_establish (secs : List Sec) (b gs x : String)
    (d : List (String × PVal)) (hnd : (d.map Prod.fst).Nodup) :
    AgreeDeep (writeProps secs [b, gs, x] d) b gs x d := by
  rw [writeProps_eq, modifyAt_triple_eq]
  intro r' hr' hname g' hg' hgname t' ht' htname
  obtain ⟨r, hr, rfl⟩ := secUpdate_mem hr'
  by_cases hb : r.name = b
  case neg =>
    rw [if_neg hb] at hname
    exact absurd hname hb
  rw [if_pos hb] at hg'
  rw [Sec.withSubs_subs] at hg'
  obtain ⟨g, hg, rfl⟩ := secUpdate_mem hg'
  by_cases hgs : g.name = gs
  case neg =>
    rw [if_neg hgs] at hgname
    exact absurd hgname hgs
  rw [if_pos hgs] at ht'
  rw [Sec.withSubs_subs] at ht'
  obtain ⟨t, ht, rfl⟩ := secUpdate_mem ht'
  by_cases htx : t.name = x
  · rw [if_pos htx]
    rw [Sec.withProps_props]
    exact propsFold_establish _ hnd
  · rw [if_neg htx] at htname
    exact absurd htname htx

theorem AgreeDeep_preserve_wp_root (secs : List Sec) (b gs' x' : String)
    (d d' : List (String × PVal)) (h : AgreeDeep secs b gs' x' d') :
    AgreeDeep (writeProps secs [b] d) b gs' x' d' := by
  rw [writeProps_eq, modifyAt_single_eq]
  intro r' hr' hname
  obtain ⟨r, hr, rfl⟩ := secUpdate_mem hr'
  by_cases hb : r.name = b
  case neg =>
    rw [if_neg hb] at hname
    exact absurd hname hb
  rw [if_pos hb]
  rw [Sec.withProps_subs]
  exact h r hr hb

theorem AgreeDeep_preserve_section_other (secs : List Sec) (b grp x gs' x' : String)
    (d' : List (String × PVal)) (hne : grp ++ "s" ≠ gs' ∨ x ≠ x')
    (h : AgreeDeep secs b gs' x' d') :
    AgreeDeep (getOrCreateSection secs [b] grp x) b gs' x' d' := by
  rw [getOrCreateSection_eq]
  intro r' hr' hname g' hg' hgname t' ht' htname
  obtain ⟨r, hr, rfl⟩ := secUpdate_mem hr'
  by_cases hb : r.name = b
  case neg =>
    rw [if_neg hb] at hname
    exact absurd hname hb
  rw [if_pos hb] at hg'
  rw [Sec.withSubs_subs, ensureChain_pair_eq] at hg'
  obtain ⟨g, hg, rfl⟩ := secUpdate_mem hg'
  have hgcases := getOrCreateSub_mem hg
  by_cases hgs : g.name = grp ++ "s"
  · rw [if_pos hgs] at hgname ht'
    rw [Sec.withSubs_name] at hgname
    rw [Sec.withSubs_subs] at ht'
    -- the touched group is named both gs' (by membership) and grp ++ "s"
    rcases hne with hne | hne
    · exact absurd (hgs.symm.trans hgname) hne
    · -- x ≠ x': the only section the ensure may add or touch is named x
      rcases getOrCreateSub_mem ht' with ht | rfl
      · rcases hgcases with hgmem | rfl
        · exact h r hr hb g hgmem hgname t' ht htname
        · exact absurd ht (List.not_mem_nil t')
      · exact absurd htname hne -- fresh target named x, but t'.name = x'
  · rw [if_neg hgs] at hgname ht'
    rcases hgcases with hgmem | rfl
    · exact h r hr hb g hgmem hgname t' ht' htname
    · exact absurd rfl hgs

theorem AgreeDeep_preserve_wp_deep_other (secs : List Sec) (b gs x gs' x' : String)
    (d d' : List (String × PVal)) (hne : gs ≠ gs' ∨ x ≠ x')
    (h : AgreeDeep secs b gs' x' d') :
    AgreeDeep (writeProps secs [b, gs, x] d) b gs' x' d' := by
  rw [writeProps_eq, modifyAt_triple_eq]
  intro r' hr' hname g' hg' hgname t' ht' htname
  obtain ⟨r, hr, rfl⟩ := secUpdate_mem hr'
  by_cases hb : r.name = b
  case neg =>
    rw [if_neg hb] at hname
    exact absurd hname hb
  rw [if_pos hb] at hg'
  rw [Sec.withSubs_subs] at hg'
  obtain ⟨g, hg, rfl⟩ := secUpdate_mem hg'
  by_cases hgs : g.name = gs
  · rw [if_pos hgs] at hgname ht'
    rw [Sec.withSubs_name] at hgname
    rw [Sec.withSubs_subs] at ht'
    rcases hne with hne | hne
    · exact absurd (hgs.symm.trans hgname) hne
    · obtain ⟨t, ht, rfl⟩ := secUpdate_mem ht'
      by_cases htx : t.name = x
      · rw [if_pos htx] at htname
        rw [Sec.withProps_name] at htname
        exact absurd (htx.symm.trans htname) hne
      · rw [if_neg htx] at htname ⊢
        exact h r hr hb g hg hgname t ht htname
  · rw [if_neg hgs] at hgname ht'
    exact h r hr hb g hg hgname t' ht' htname

theorem foldl_const {α β : Type} (f : β → α → β) (s : β) (l : List α)
    (h : ∀ x ∈ l, f s x = s) : l.foldl f s = s := by
  induction l with
  | nil => rfl
  | cons x rest ih =>
      rw [List.foldl_cons, h x (List.mem_cons_self x rest)]
      exact ih (fun y hy => h y (List.mem_cons_of_mem x hy))


theorem clean_noop {blk : NBlock} (h : NoOrphans blk) : clean blk = blk := by
  unfold clean
  rw [List.filter_eq_self.mpr h]

theorem NoOrphans_clean (blk : NBlock) : NoOrphans (clean blk) := by
  intro da hda
  unfold clean at hda
  simp only at hda
  exact (List.mem_filter.mp hda).2


theorem analogsignals_append : "analogsignal" ++ "s" = "analogsignals" := rfl

theorem writeDS_pair (bm : List String) (das : List NDA) (secs : List Sec)
    (sg : NeoSignal) :
    writeAnalogsignalDS bm das secs sg = (wdsD bm das sg, wdsS bm secs sg) := rfl

theorem foldWriteDS_pair (bm : List String) (sgs : List NeoSignal) :
    ∀ (p : List NDA × List Sec),
    foldWriteDS bm p sgs = (sgs.foldl (wdsD bm) p.1, sgs.foldl (wdsS bm) p.2) := by
  induction sgs with
  | nil => intro p; rfl
  | cons sg rest ih =>
      intro p
      have h1 : foldWriteDS bm p (sg :: rest) =
          foldWriteDS bm (writeAnalogsignalDS bm p.1 p.2 sg) rest := rfl
      rw [h1, ih, writeDS_pair]
      rfl

theorem writeDS_secs_eq (b : String) (das : List NDA) (secs : List Sec)
    (sg : NeoSignal) :
    (writeAnalogsignalDS [b] das secs sg).2 =
      writeProps (getOrCreateSection secs [b] "analogsignal" (hashName sg))
        [b, "analogsignals", hashName sg] (extractSigFull sg) := rfl

theorem dsUpdate_synced {mp : List String} {sg : NeoSignal} {da : NDA}
    (hn : da.name = hashName sg) (hunit : da.unit = sg.unit) (hmp : da.metaPath = mp)
    (hdims : ∃ d0 rest, da.dims = d0 :: rest ∧ d0.unit = sg.sampleRateUnit) :
    dsUpdate mp sg da = da := by
  obtain ⟨d0, rest, hdims, hd0⟩ := hdims
  unfold dsUpdate
  rw [if_pos hn]
  cases da with
  | mk n t dat u dims src mpa =>
    simp only at hunit hmp hdims
    subst hunit
    subst hmp
    subst hdims
    cases d0 with
    | mk iv du =>
      simp only at hd0
      subst hd0
      rfl

theorem writeDS_noop {b : String} {das : List NDA} {secs : List Sec} {sg : NeoSignal}
    (h : SigSynced b das secs sg) : writeAnalogsignalDS [b] das secs sg = (das, secs) := by
  obtain ⟨⟨⟨da0, hda0, hda0n⟩, hall⟩, hgt, hagree⟩ := h
  have hany : das.any (fun da => da.name == hashName sg) = true := by
    rw [List.any_eq_true]
    exact ⟨da0, hda0, by rw [beq_iff_eq]; exact hda0n⟩
  have hdas : (writeAnalogsignalDS [b] das secs sg).1 = das := by
    show ((if das.any (fun da => da.name == hashName sg) then das
        else das ++ [freshDA sg]).map
      (dsUpdate ([b] ++ ["analogsignals", hashName sg]) sg)) = das
    rw [if_pos hany]
    have hid : ∀ da ∈ das, dsUpdate ([b] ++ ["analogsignals", hashName sg]) sg da = da := by
      intro da hda
      by_cases hn : da.name = hashName sg
      · obtain ⟨_, hunit, hmp, hdims⟩ := hall da hda hn
        exact dsUpdate_synced hn hunit hmp hdims
      · exact dsUpdate_other hn
    rw [List.map_congr_left hid, List.map_id']
  have hsecs : (writeAnalogsignalDS [b] das secs sg).2 = secs := by
    rw [writeDS_secs_eq]
    have hens : getOrCreateSection secs [b] "analogsignal" (hashName sg) = secs := by
      apply getOrCreateSection_noop
      intro r hr hrname
      rw [analogsignals_append]
      exact hgt r hr hrname
    rw [hens]
    exact writeProps_deep_noop hagree
  calc writeAnalogsignalDS [b] das secs sg
      = ((writeAnalogsignalDS [b] das secs sg).1,
         (writeAnalogsignalDS [b] das secs sg).2) := rfl
    _ = (das, secs) := by rw [hdas, hsecs]

theorem dsUpdate_dtype (mp : List String) (sg : NeoSignal) (da : NDA) :
    (dsUpdate mp sg da).dtype = da.dtype := by
  unfold dsUpdate
  split <;> rfl

theorem dsUpdate_sources (mp : List String) (sg : NeoSignal) (da : NDA) :
    (dsUpdate mp sg da).sources = da.sources := by
  unfold dsUpdate
  split <;> rfl

theorem dsUpdate_skel (mp : List String) (sg : NeoSignal) (da : NDA) :
    skel (dsUpdate mp sg da) = skel da := by
  unfold skel
  rw [dsUpdate_name, dsUpdate_dtype, dsUpdate_sources]

theorem skel_freshDA (sg : NeoSignal) :
    skel (freshDA sg) = (hashName sg, "analogsignal", []) := rfl

theorem wdsD_noop_eq {bn : String} {das : List NDA} {sg : NeoSignal}
    (h : DasSync bn das sg) : wdsD [bn] das sg = das := by
  have hfull : writeAnalogsignalDS [bn] das [] sg = (das, []) :=
    writeDS_noop ⟨h, by intro r hr _; exact absurd hr (List.not_mem_nil r),
      by intro r hr _; exact absurd hr (List.not_mem_nil r)⟩
  have : (writeAnalogsignalDS [bn] das [] sg).1 = das := by rw [hfull]
  exact this

theorem wdsD_name_lift {bm : List String} {das : List NDA} {sg : NeoSignal}
    {n : String} (h : ∃ da ∈ das, da.name = n) :
    ∃ da ∈ wdsD bm das sg, da.name = n := by
  obtain ⟨da, hda, hn⟩ := h
  have hda1 : da ∈ (if das.any (fun da => da.name == hashName sg) then das
      else das ++ [freshDA sg]) := by
    by_cases hany : das.any (fun da => da.name == hashName sg)
    · rw [if_pos hany]; exact hda
    · rw [if_neg hany]; exact List.mem_append_left _ hda
  exact ⟨dsUpdate (bm ++ ["analogsignals", hashName sg]) sg da,
    List.mem_map.mpr ⟨da, hda1, rfl⟩, by rw [dsUpdate_name]; exact hn⟩

theorem wdsD_preserve_pred (bm : List String) (das : List NDA) (sg : NeoSignal)
    (n : String) (hne : n ≠ hashName sg) (P : NDA → Prop)
    (hfa : ∀ da ∈ das, da.name = n → P da) :
    ∀ da ∈ wdsD bm das sg, da.name = n → P da := by
  intro da' hda' hn'
  unfold wdsD at hda'
  obtain ⟨da, hda1, rfl⟩ := List.mem_map.mp hda'
  rw [dsUpdate_name] at hn'
  have hda : da ∈ das := by
    by_cases hany : das.any (fun da => da.name == hashName sg)
    · rw [if_pos hany] at hda1; exact hda1
    · rw [if_neg hany] at hda1
      rcases List.mem_append.mp hda1 with hm | hm
      · exact hm
      · rw [List.mem_singleton] at hm
        subst hm
        exact absurd hn'.symm hne
  rw [dsUpdate_other (by rw [hn']; exact hne)]
  exact hfa da hda hn'

theorem wdsD_skel_pointwise {bm : List String} {das : List NDA} {sg : NeoSignal}
    (P : String × String × List String → Prop)
    (hfresh : das.any (fun da => da.name == hashName sg) = false →
      P (hashName sg, "analogsignal", []))
    (h : ∀ da ∈ das, P (skel da)) : ∀ da ∈ wdsD bm das sg, P (skel da) := by
  intro da' hda'
  unfold wdsD at hda'
  obtain ⟨da, hda1, rfl⟩ := List.mem_map.mp hda'
  rw [dsUpdate_skel]
  by_cases hany : das.any (fun da => da.name == hashName sg)
  · rw [if_pos hany] at hda1
    exact h da hda1
  · rw [if_neg hany] at hda1
    rcases List.mem_append.mp hda1 with hm | hm
    · exact h da hm
    · rw [List.mem_singleton] at hm
      subst hm
      rw [skel_freshDA]
      exact hfresh (Bool.not_eq_true _ ▸ hany)

theorem wdsD_all_analog {bm : List String} {das : List NDA} {sg : NeoSignal}
    (h : ∀ da ∈ das, da.dtype = "analogsignal") :
    ∀ da ∈ wdsD bm das sg, da.dtype = "analogsignal" := by
  have := @wdsD_skel_pointwise bm das sg
    (fun p => p.2.1 = "analogsignal") (fun _ => rfl) (fun da hda => h da hda)
  exact this

theorem wdsD_names (bm : List String) (das : List NDA) (sg : NeoSignal) :
    (wdsD bm das sg).map (fun da => da.name) =
      (if das.any (fun da => da.name == hashName sg) then das.map (fun da => da.name)
       else das.map (fun da => da.name) ++ [hashName sg]) :=
  writeDS_map_names bm das [] sg

theorem wdsD_names_nodup {bm : List String} {das : List NDA} {sg : NeoSignal}
    (h : (das.map (fun da => da.name)).Nodup) :
    ((wdsD bm das sg).map (fun da => da.name)).Nodup := by
  rw [wdsD_names]
  by_cases hany : das.any (fun da => da.name == hashName sg)
  · rw [if_pos hany]
    exact h
  · rw [if_neg hany]
    have hnot : hashName sg ∉ das.map (fun da => da.name) := by
      intro hmem
      obtain ⟨da, hda, hn⟩ := List.mem_map.mp hmem
      exact hany (List.any_eq_true.mpr ⟨da, hda, by rw [beq_iff_eq]; exact hn⟩)
    rw [List.nodup_append]
    exact ⟨h, List.nodup_singleton _, by
      intro a ha hb
      rw [List.mem_singleton] at hb
      subst hb
      exact hnot ha⟩

theorem wdsD_establish (bn : String) (das : List NDA) (sg : NeoSignal)
    (hAll : ∀ da ∈ das, da.dtype = "analogsignal") :
    DasSync bn (wdsD [bn] das sg) sg := by
  constructor
  · unfold wdsD
    have hda1 : ∃ da1 ∈ (if das.any (fun da => da.name == hashName sg) then das
        else das ++ [freshDA sg]), da1.name = hashName sg := by
      by_cases hany : das.any (fun da => da.name == hashName sg)
      · rw [if_pos hany]
        obtain ⟨da, hda, hbeq⟩ := List.any_eq_true.mp hany
        exact ⟨da, hda, beq_iff_eq.mp hbeq⟩
      · rw [if_neg hany]
        exact ⟨freshDA sg, List.mem_append_right _ (List.mem_singleton_self _), rfl⟩
    obtain ⟨da1, hda1m, hda1n⟩ := hda1
    exact ⟨dsUpdate ([bn] ++ ["analogsignals", hashName sg]) sg da1,
      List.mem_map.mpr ⟨da1, hda1m, rfl⟩, by rw [dsUpdate_name]; exact hda1n⟩
  · intro da' hda' hn'
    unfold wdsD at hda'
    obtain ⟨da, hda1, rfl⟩ := List.mem_map.mp hda'
    rw [dsUpdate_name] at hn'
    have hdtype0 : da.dtype = "analogsignal" := by
      by_cases hany : das.any (fun da => da.name == hashName sg)
      · rw [if_pos hany] at hda1
        exact hAll da hda1
      · rw [if_neg hany] at hda1
        rcases List.mem_append.mp hda1 with hm | hm
        · exact hAll da hm
        · rw [List.mem_singleton] at hm
          subst hm
          rfl
    have hu : (dsUpdate ([bn] ++ ["analogsignals", hashName sg]) sg da).unit = sg.unit := by
      unfold dsUpdate
      rw [if_pos hn']
    have hm : (dsUpdate ([bn] ++ ["analogsignals", hashName sg]) sg da).metaPath =
        [bn] ++ ["analogsignals", hashName sg] := by
      unfold dsUpdate
      rw [if_pos hn']
    have hd : (dsUpdate ([bn] ++ ["analogsignals", hashName sg]) sg da).dims =
        (match (if da.dims.isEmpty then [⟨sg.sampleRate, ""⟩] else da.dims) with
         | [] => []
         | d0 :: rest => (⟨d0.interval, sg.sampleRateUnit⟩ : NDim) :: rest) := by
      unfold dsUpdate
      rw [if_pos hn']
    refine ⟨by rw [dsUpdate_dtype]; exact hdtype0, hu, hm, ?_⟩
    rw [hd]
    cases hdims : da.dims with
    | nil => exact ⟨⟨sg.sampleRate, sg.sampleRateUnit⟩, [], rfl, rfl⟩
    | cons d0 rest => exact ⟨⟨d0.interval, sg.sampleRateUnit⟩, rest, rfl, rfl⟩

theorem wdsD_preserve (bn : String) (das : List NDA) (sg sg' : NeoSignal)
    (hne : hashName sg' ≠ hashName sg) (h : DasSync bn das sg') :
    DasSync bn (wdsD [bn] das sg) sg' :=
  ⟨wdsD_name_lift h.1, wdsD_preserve_pred _ das sg _ hne _ h.2⟩

theorem wdsS_path_eq (bn : String) (secs : List Sec) (sg : NeoSignal) :
    wdsS [bn] secs sg =
      writeProps (getOrCreateSection secs [bn] "analogsignal" (hashName sg))
        [bn, "analogsignals", hashName sg] (extractSigFull sg) := rfl

theorem wdsS_secHas (bn : String) (secs : List Sec) (sg : NeoSignal) (m : String) :
    secHas (wdsS [bn] secs sg) m = secHas secs m := by
  rw [wdsS_path_eq, secHas_writeProps_deep, secHas_getOrCreateSection]

theorem wdsS_HasGT (bn : String) (secs : List Sec) (sg : NeoSignal) (gs' x' : String)
    (h : HasGT secs bn gs' x') : HasGT (wdsS [bn] secs sg) bn gs' x' := by
  rw [wdsS_path_eq]
  exact HasGT_preserve_wp_deep _ _ _ _ _ _ _
    (HasGT_preserve_section _ _ _ _ _ _ h)

theorem wdsS_AgreeRoot (bn : String) (secs : List Sec) (sg : NeoSignal)
    (d0 : List (String × PVal)) (h : AgreeRoot secs bn d0) :
    AgreeRoot (wdsS [bn] secs sg) bn d0 := by
  rw [wdsS_path_eq]
  exact AgreeRoot_preserve_wp_deep _ _ _ _ _ _
    (AgreeRoot_preserve_section _ _ _ _ _ h)

theorem wdsS_AgreeDeep_other (bn : String) (secs : List Sec) (sg : NeoSignal)
    (gs' x' : String) (d' : List (String × PVal))
    (hne : gs' ≠ "analogsignals" ∨ x' ≠ hashName sg)
    (h : AgreeDeep secs bn gs' x' d') :
    AgreeDeep (wdsS [bn] secs sg) bn gs' x' d' := by
  rw [wdsS_path_eq]
  have hne1 : "analogsignal" ++ "s" ≠ gs' ∨ hashName sg ≠ x' := by
    rcases hne with hne | hne
    · left
      rw [analogsignals_append]
      exact fun hc => hne hc.symm
    · right
      exact fun hc => hne hc.symm
  have hne2 : "analogsignals" ≠ gs' ∨ hashName sg ≠ x' := by
    rwa [analogsignals_append] at hne1
  exact AgreeDeep_preserve_wp_deep_other _ _ _ _ _ _ _ _ hne2
    (AgreeDeep_preserve_section_other _ _ _ _ _ _ _ hne1 h)

theorem wdsS_establish (bn : String) (secs : List Sec) (sg : NeoSignal)
    (hnd : ((extractSigFull sg).map Prod.fst).Nodup) :
    SecsSync bn (wdsS [bn] secs sg) sg := by
  rw [wdsS_path_eq]
  constructor
  · apply HasGT_preserve_wp_deep
    have := HasGT_establish secs bn "analogsignal" (hashName sg)
    rwa [analogsignals_append] at this
  · exact AgreeDeep_establish _ _ _ _ _ hnd

theorem wds_SigSynced_establish (bn : String) (das : List NDA) (secs : List Sec)
    (sg : NeoSignal) (hAll : ∀ da ∈ das, da.dtype = "analogsignal")
    (hnd : ((extractSigFull sg).map Prod.fst).Nodup) :
    SigSynced bn (wdsD [bn] das sg) (wdsS [bn] secs sg) sg :=
  ⟨wdsD_establish bn das sg hAll, wdsS_establish bn secs sg hnd⟩

theorem wds_SigSynced_preserve (bn : String) (das : List NDA) (secs : List Sec)
    (sg sg' : NeoSignal) (hAll : ∀ da ∈ das, da.dtype = "analogsignal")
    (hnd : ((extractSigFull sg).map Prod.fst).Nodup)
    (hcase : hashName sg' ≠ hashName sg ∨ sg' = sg)
    (h : SigSynced bn das secs sg') :
    SigSynced bn (wdsD [bn] das sg) (wdsS [bn] secs sg) sg' := by
  rcases hcase with hne | rfl
  · exact ⟨wdsD_preserve bn das sg sg' hne h.1,
      wdsS_HasGT bn secs sg _ _ h.2.1,
      wdsS_AgreeDeep_other bn secs sg _ _ _ (Or.inr hne) h.2.2⟩
  · exact wds_SigSynced_establish bn das secs sg' hAll hnd

theorem foldD_pres {bm : List String} {Q : List NDA → Prop}
    (hstep : ∀ das sg, Q das → Q (wdsD bm das sg)) :
    ∀ (sgs : List NeoSignal) (das : List NDA), Q das → Q (sgs.foldl (wdsD bm) das) := by
  intro sgs
  induction sgs with
  | nil => intro das h; exact h
  | cons sg rest ih => intro das h; exact ih _ (hstep das sg h)

theorem foldS_pres {bn : String} {Q : List Sec → Prop}
    (hstep : ∀ secs sg, Q secs → Q (wdsS [bn] secs sg)) :
    ∀ (sgs : List NeoSignal) (secs : List Sec), Q secs → Q (sgs.foldl (wdsS [bn]) secs) := by
  intro sgs
  induction sgs with
  | nil => intro secs h; exact h
  | cons sg rest ih => intro secs h; exact ih _ (hstep secs sg h)

theorem foldD_all_analog {bm : List String} (sgs : List NeoSignal) (das : List NDA)
    (h : ∀ da ∈ das, da.dtype = "analogsignal") :
    ∀ da ∈ sgs.foldl (wdsD bm) das, da.dtype = "analogsignal" :=
  foldD_pres (Q := fun l => ∀ da ∈ l, da.dtype = "analogsignal")
    (fun _ _ hq => wdsD_all_analog hq) sgs das h

theorem foldD_names_nodup {bm : List String} (sgs : List NeoSignal) (das : List NDA)
    (h : (das.map (fun da => da.name)).Nodup) :
    ((sgs.foldl (wdsD bm) das).map (fun da => da.name)).Nodup :=
  foldD_pres (Q := fun l => (l.map (fun da => da.name)).Nodup)
    (fun _ _ hq => wdsD_names_nodup hq) sgs das h

theorem foldD_name_lift {bm : List String} (sgs : List NeoSignal) (das : List NDA)
    (n : String) (h : ∃ da ∈ das, da.name = n) :
    ∃ da ∈ sgs.foldl (wdsD bm) das, da.name = n :=
  foldD_pres (Q := fun l => ∃ da ∈ l, da.name = n)
    (fun _ _ hq => wdsD_name_lift hq) sgs das h

theorem foldD_skel_pointwise {bm : List String}
    (P : String × String × List String → Prop) :
    ∀ (sgs : List NeoSignal) (das : List NDA),
    (∀ da ∈ das, P (skel da)) →
    (∀ sg ∈ sgs, (∃ da ∈ das, da.name = hashName sg) ∨
      P (hashName sg, "analogsignal", [])) →
    ∀ da ∈ sgs.foldl (wdsD bm) das, P (skel da) := by
  intro sgs
  induction sgs with
  | nil => intro das h _; exact h
  | cons sg rest ih =>
      intro das h hfr
      apply ih (wdsD bm das sg)
      · apply wdsD_skel_pointwise P ?_ h
        intro habs
        rcases hfr sg (List.mem_cons_self sg rest) with hex | hp
        · exfalso
          obtain ⟨da, hda, hn⟩ := hex
          have : das.any (fun da => da.name == hashName sg) = true :=
            List.any_eq_true.mpr ⟨da, hda, by rw [beq_iff_eq]; exact hn⟩
          rw [habs] at this
          exact absurd this (by simp)
        · exact hp
      · intro s hs
        rcases hfr s (List.mem_cons_of_mem sg hs) with hex | hp
        · left
          exact wdsD_name_lift hex
        · right
          exact hp

theorem foldS_secHas (bn : String) (sgs : List NeoSignal) :
    ∀ (secs : List Sec) (m : String),
    secHas (sgs.foldl (wdsS [bn]) secs) m = secHas secs m := by
  induction sgs with
  | nil => intro secs m; rfl
  | cons sg rest ih =>
      intro secs m
      have : secHas ((sg :: rest).foldl (wdsS [bn]) secs) m =
          secHas (rest.foldl (wdsS [bn]) (wdsS [bn] secs sg)) m := rfl
      rw [this, ih, wdsS_secHas]

theorem foldS_AgreeRoot (bn : String) (d0 : List (String × PVal))
    (sgs : List NeoSignal) (secs : List Sec) (h : AgreeRoot secs bn d0) :
    AgreeRoot (sgs.foldl (wdsS [bn]) secs) bn d0 :=
  foldS_pres (Q := fun l => AgreeRoot l bn d0)
    (fun secs sg hq => wdsS_AgreeRoot bn secs sg d0 hq) sgs secs h

theorem foldS_HasGT (bn gs' x' : String) (sgs : List NeoSignal) (secs : List Sec)
    (h : HasGT secs bn gs' x') : HasGT (sgs.foldl (wdsS [bn]) secs) bn gs' x' :=
  foldS_pres (Q := fun l => HasGT l bn gs' x')
    (fun secs sg hq => wdsS_HasGT bn secs sg gs' x' hq) sgs secs h

theorem foldS_AgreeDeep_left (bn gs' x' : String) (d' : List (String × PVal))
    (hne : gs' ≠ "analogsignals") (sgs : List NeoSignal) (secs : List Sec)
    (h : AgreeDeep secs bn gs' x' d') :
    AgreeDeep (sgs.foldl (wdsS [bn]) secs) bn gs' x' d' :=
  foldS_pres (Q := fun l => AgreeDeep l bn gs' x' d')
    (fun secs sg hq =>
      wdsS_AgreeDeep_other bn secs sg gs' x' d' (Or.inl hne) hq) sgs secs h

theorem foldWds_sync (bn : String) (sgs : List NeoSignal) :
    ∀ (das : List NDA) (secs : List Sec) (sg' : NeoSignal),
    (∀ s ∈ sgs, ((extractSigFull s).map Prod.fst).Nodup) →
    (∀ da ∈ das, da.dtype = "analogsignal") →
    (∀ s ∈ sgs, hashName sg' = hashName s → sg' = s) →
    (SigSynced bn das secs sg' ∨ sg' ∈ sgs) →
    SigSynced bn (sgs.foldl (wdsD [bn]) das) (sgs.foldl (wdsS [bn]) secs) sg' := by
  induction sgs with
  | nil =>
      intro das secs sg' _ _ _ h
      rcases h with h | h
      · exact h
      · exact absurd h (List.not_mem_nil _)
  | cons sg rest ih =>
      intro das secs sg' hnd hAll hinj h
      have hstep : SigSynced bn (wdsD [bn] das sg) (wdsS [bn] secs sg) sg' ∨ sg' ∈ rest := by
        rcases h with h | h
        · left
          refine wds_SigSynced_preserve bn das secs sg sg' hAll
            (hnd sg (List.mem_cons_self sg rest)) ?_ h
          by_cases he : hashName sg' = hashName sg
          · right
            exact hinj sg (List.mem_cons_self sg rest) he
          · left
            exact he
        · rcases List.mem_cons.mp h with rfl | hmem
          · left
            exact wds_SigSynced_establish bn das secs _ hAll
              (hnd _ (List.mem_cons_self _ rest))
          · right
            exact hmem
      exact ih (wdsD [bn] das sg) (wdsS [bn] secs sg) sg'
        (fun s hs => hnd s (List.mem_cons_of_mem sg hs))
        (wdsD_all_analog hAll)
        (fun s hs => hinj s (List.mem_cons_of_mem sg hs))
        hstep

theorem segments_append : "segment" ++ "s" = "segments" := rfl

theorem rcgroups_append :
    "recordingchannelgroup" ++ "s" = "recordingchannelgroups" := rfl


theorem compare_nil_of {neoKeys nixNames : List String}
    (h1 : ∀ n ∈ nixNames, n ∈ neoKeys) (h2 : ∀ n ∈ neoKeys, n ∈ nixNames) :
    compare neoKeys nixNames = ([], []) := by
  unfold compare
  have hA : (nixNames.filter (fun n => !neoKeys.contains n)) = [] := by
    rw [List.filter_eq_nil_iff]
    intro n hn
    have hmem : n ∈ neoKeys := h1 n hn
    simp [List.elem_iff, hmem]
  have hB : (neoKeys.filter (fun n => !nixNames.contains n)) = [] := by
    rw [List.filter_eq_nil_iff]
    intro n hn
    have hmem : n ∈ nixNames := h2 n hn
    simp [List.elem_iff, hmem]
  rw [hA, hB]
  rfl

theorem wdsS_noop_eq {bn : String} {secs : List Sec} {sg : NeoSignal}
    (h : SecsSync bn secs sg) : wdsS [bn] secs sg = secs := by
  rw [wdsS_path_eq]
  have hens : getOrCreateSection secs [bn] "analogsignal" (hashName sg) = secs := by
    apply getOrCreateSection_noop
    intro r hr hrname
    rw [analogsignals_append]
    exact h.1 r hr hrname
  rw [hens]
  exact writeProps_deep_noop h.2

theorem writeSegment_noop (bn : String) (blk : NBlock) (secs : List Sec)
    (seg : NeoSegment) (hmp : blk.metaPath = [bn]) (hno : NoOrphans blk)
    (h : SegSynced bn blk secs seg) :
    writeSegment ⟨blk, secs⟩ seg = ⟨blk, secs⟩ := by
  obtain ⟨hany, htagf, hGT, hAD, hsigs⟩ := h
  have htags0 : segTags0 ⟨blk, secs⟩ seg = blk.tags := by
    unfold segTags0
    rw [if_pos hany]
  have hsegmp : segMp ⟨blk, secs⟩ seg = [bn, "segments", seg.name] := by
    unfold segMp
    show blk.metaPath ++ ["segments", seg.name] = _
    rw [hmp]
    rfl
  have htags1 : segTags1 ⟨blk, secs⟩ seg = blk.tags := by
    unfold segTags1
    rw [htags0]
    have hpt : ∀ t ∈ blk.tags,
        (if t.name = seg.name then
          { t with metaPath := segMp ⟨blk, secs⟩ seg } else t) = t := by
      intro t ht
      by_cases hn : t.name = seg.name
      · rw [if_pos hn, hsegmp]
        rw [← (htagf t ht hn).2.1]
      · rw [if_neg hn]
    rw [List.map_congr_left hpt, List.map_id']
  have hfs : ∃ t, blk.tags.find? (fun t => t.name == seg.name) = some t := by
    cases hf : blk.tags.find? (fun t => t.name == seg.name) with
    | some t => exact ⟨t, rfl⟩
    | none =>
        exfalso
        obtain ⟨t0, ht0, hbeq⟩ := List.any_eq_true.mp hany
        exact absurd hbeq (List.find?_eq_none.mp hf t0 ht0)
  obtain ⟨t, hft⟩ := hfs
  have htmem : t ∈ blk.tags := List.mem_of_find?_eq_some hft
  have htp := List.find?_some hft
  have htn : t.name = seg.name := beq_iff_eq.mp htp
  have hrefs : segRefs ⟨blk, secs⟩ seg = (seg.analogsignals.map hashName).dedup := by
    unfold segRefs
    rw [htags1, hft]
    exact (htagf t htmem htn).2.2
  have hex : segExisting ⟨blk, secs⟩ seg = (seg.analogsignals.map hashName).dedup := by
    unfold segExisting
    rw [hrefs]
    apply List.filter_eq_self.mpr
    intro n hn
    have hn' : n ∈ seg.analogsignals.map hashName := List.mem_dedup.mp hn
    obtain ⟨sg, hsg, rfl⟩ := List.mem_map.mp hn'
    obtain ⟨⟨⟨da, hda, hdan⟩, hfa⟩, _⟩ := hsigs sg hsg
    unfold daHasType
    cases hfd : blk.dataArrays.find? (fun d => d.name == hashName sg) with
    | none =>
        exact absurd (by rw [beq_iff_eq]; exact hdan)
          (List.find?_eq_none.mp hfd da hda)
    | some d =>
        have hdm := List.mem_of_find?_eq_some hfd
        have hdp := List.find?_some hfd
        have hdn : d.name = hashName sg := beq_iff_eq.mp hdp
        show (d.dtype == "analogsignal") = true
        rw [beq_iff_eq]
        exact (hfa d hdm hdn).1
  have hdiff : segDiff ⟨blk, secs⟩ seg = ([], []) := by
    unfold segDiff
    rw [hex]
    exact compare_nil_of (fun n hn => List.mem_dedup.mp hn)
      (fun n hn => List.mem_dedup.mpr hn)
  have hsecs2 : segSecs2 ⟨blk, secs⟩ seg = secs := by
    unfold segSecs2
    show writeProps (getOrCreateSection secs blk.metaPath "segment" seg.name)
      (segMp ⟨blk, secs⟩ seg) (extractSegMeta seg) = secs
    rw [hmp, hsegmp]
    have hgos : getOrCreateSection secs [bn] "segment" seg.name = secs := by
      apply getOrCreateSection_noop
      intro r hr hrname
      rw [segments_append]
      exact hGT r hr hrname
    rw [hgos]
    exact writeProps_deep_noop hAD
  have hds : segDs ⟨blk, secs⟩ seg = (blk.dataArrays, secs) := by
    unfold segDs
    show foldWriteDS blk.metaPath (blk.dataArrays, segSecs2 ⟨blk, secs⟩ seg)
      seg.analogsignals = _
    rw [hmp, hsecs2, foldWriteDS_pair]
    have hd : seg.analogsignals.foldl (wdsD [bn]) blk.dataArrays = blk.dataArrays :=
      foldl_const _ _ _ (fun sg hsg => wdsD_noop_eq (hsigs sg hsg).1)
    have hs : seg.analogsignals.foldl (wdsS [bn]) secs = secs :=
      foldl_const _ _ _ (fun sg hsg => wdsS_noop_eq (hsigs sg hsg).2)
    show (seg.analogsignals.foldl (wdsD [bn]) blk.dataArrays,
      seg.analogsignals.foldl (wdsS [bn]) secs) = _
    rw [hd, hs]
  have hrefs2 : segRefs2 ⟨blk, secs⟩ seg = (seg.analogsignals.map hashName).dedup := by
    unfold segRefs2
    rw [hdiff, hrefs]
    show ((seg.analogsignals.map hashName).dedup.filter
      (fun n => !([] : List String).contains n)) ++ [] = _
    rw [List.append_nil]
    apply List.filter_eq_self.mpr
    intro n _
    rfl
  have htags2 : segTags2 ⟨blk, secs⟩ seg = blk.tags := by
    unfold segTags2
    rw [htags1]
    have hpt : ∀ u ∈ blk.tags,
        (if u.name = seg.name then
          { u with references := segRefs2 ⟨blk, secs⟩ seg } else u) = u := by
      intro u hu
      by_cases hn : u.name = seg.name
      · rw [if_pos hn, hrefs2]
        rw [← (htagf u hu hn).2.2]
      · rw [if_neg hn]
    rw [List.map_congr_left hpt, List.map_id']
  show (⟨clean { blk with tags := segTags2 ⟨blk, secs⟩ seg, dataArrays := (segDs ⟨blk, secs⟩ seg).1 }, (segDs ⟨blk, secs⟩ seg).2⟩ : WState) = ⟨blk, secs⟩
  rw [htags2, hds]
  have hblk : { blk with tags := blk.tags, dataArrays := ((blk.dataArrays, secs).1 : List NDA) } = blk := by
    cases blk
    rfl
  rw [hblk, clean_noop hno]


theorem writeRCG_noop (bn : String) (blk : NBlock) (secs : List Sec)
    (rcg : NeoRCG) (hmp : blk.metaPath = [bn]) (hno : NoOrphans blk)
    (h : RCGSynced bn blk secs rcg) :
    writeRCG ⟨blk, secs⟩ rcg = ⟨blk, secs⟩ := by
  obtain ⟨hany, hsrcf, hGT, hAD, hsigs, hiff⟩ := h
  have hsrcs0 : rcgSrcs0 ⟨blk, secs⟩ rcg = blk.sources := by
    unfold rcgSrcs0
    rw [if_pos hany]
  have hrcgmp : rcgMp ⟨blk, secs⟩ rcg = [bn, "recordingchannelgroups", rcg.name] := by
    unfold rcgMp
    show blk.metaPath ++ ["recordingchannelgroups", rcg.name] = _
    rw [hmp]
    rfl
  have hsrcs1 : rcgSrcs1 ⟨blk, secs⟩ rcg = blk.sources := by
    unfold rcgSrcs1
    rw [hsrcs0]
    have hpt : ∀ s ∈ blk.sources,
        (if s.name = rcg.name then
          { s with metaPath := rcgMp ⟨blk, secs⟩ rcg } else s) = s := by
      intro s hs
      by_cases hn : s.name = rcg.name
      · rw [if_pos hn, hrcgmp]
        rw [← (hsrcf s hs hn).2]
      · rw [if_neg hn]
    rw [List.map_congr_left hpt, List.map_id']
  have hmemE : ∀ n, n ∈ rcgExisting ⟨blk, secs⟩ rcg →
      n ∈ rcg.analogsignals.map hashName := by
    intro n hn
    unfold rcgExisting at hn
    obtain ⟨da, hda, rfl⟩ := List.mem_map.mp hn
    have hdaf := List.mem_filter.mp hda
    have hcon : da.sources.contains rcg.name = true :=
      (Bool.and_eq_true _ _).mp hdaf.2 |>.2
    exact (hiff da hdaf.1).mp (List.elem_iff.mp hcon)
  have hmemH : ∀ n, n ∈ rcg.analogsignals.map hashName →
      n ∈ rcgExisting ⟨blk, secs⟩ rcg := by
    intro n hn
    obtain ⟨sg, hsg, rfl⟩ := List.mem_map.mp hn
    obtain ⟨⟨⟨da, hda, hdan⟩, hfa⟩, _⟩ := hsigs sg hsg
    have hlink : rcg.name ∈ da.sources := by
      apply (hiff da hda).mpr
      rw [hdan]
      exact List.mem_map.mpr ⟨sg, hsg, rfl⟩
    unfold rcgExisting
    apply List.mem_map.mpr
    refine ⟨da, List.mem_filter.mpr ⟨hda, ?_⟩, hdan⟩
    apply (Bool.and_eq_true _ _).mpr
    constructor
    · rw [beq_iff_eq]
      exact (hfa da hda hdan).1
    · exact List.elem_iff.mpr hlink
  have hdiff : rcgDiff ⟨blk, secs⟩ rcg = ([], []) := by
    unfold rcgDiff
    exact compare_nil_of hmemE (fun n hn => hmemH n hn)
  have hsecs2 : rcgSecs2 ⟨blk, secs⟩ rcg = secs := by
    unfold rcgSecs2
    show writeProps (getOrCreateSection secs blk.metaPath "recordingchannelgroup" rcg.name)
      (rcgMp ⟨blk, secs⟩ rcg) (extractRCGMeta rcg) = secs
    rw [hmp, hrcgmp]
    have hgos : getOrCreateSection secs [bn] "recordingchannelgroup" rcg.name = secs := by
      apply getOrCreateSection_noop
      intro r hr hrname
      rw [rcgroups_append]
      exact hGT r hr hrname
    rw [hgos]
    exact writeProps_deep_noop hAD
  have hds : rcgDs ⟨blk, secs⟩ rcg = (blk.dataArrays, secs) := by
    unfold rcgDs
    show foldWriteDS blk.metaPath (blk.dataArrays, rcgSecs2 ⟨blk, secs⟩ rcg)
      rcg.analogsignals = _
    rw [hmp, hsecs2, foldWriteDS_pair]
    have hd : rcg.analogsignals.foldl (wdsD [bn]) blk.dataArrays = blk.dataArrays :=
      foldl_const _ _ _ (fun sg hsg => wdsD_noop_eq (hsigs sg hsg).1)
    have hs : rcg.analogsignals.foldl (wdsS [bn]) secs = secs :=
      foldl_const _ _ _ (fun sg hsg => wdsS_noop_eq (hsigs sg hsg).2)
    show (rcg.analogsignals.foldl (wdsD [bn]) blk.dataArrays,
      rcg.analogsignals.foldl (wdsS [bn]) secs) = _
    rw [hd, hs]
  have hdas2 : rcgDas2 ⟨blk, secs⟩ rcg = blk.dataArrays := by
    unfold rcgDas2
    rw [hds, hdiff]
    have h1 : ∀ da ∈ blk.dataArrays,
        (if (([], []) : List String × List String).1.contains da.name then { da with sources := da.sources.filter (fun s => !(s == rcg.name)) } else da) = da :=
      fun da _ => rfl
    have h2 : ∀ da ∈ blk.dataArrays,
        (if (([], []) : List String × List String).2.contains da.name then { da with sources := da.sources ++ [rcg.name] } else da) = da :=
      fun da _ => rfl
    rw [List.map_congr_left h1, List.map_id', List.map_congr_left h2, List.map_id']
  show (⟨clean { blk with sources := rcgSrcs1 ⟨blk, secs⟩ rcg, dataArrays := rcgDas2 ⟨blk, secs⟩ rcg }, (rcgDs ⟨blk, secs⟩ rcg).2⟩ : WState) = ⟨blk, secs⟩
  rw [hsrcs1, hdas2, hds]
  have hblk : { blk with sources := blk.sources, dataArrays := blk.dataArrays } = blk := by
    cases blk
    rfl
  rw [hblk, clean_noop hno]

theorem compare_fst_nil {neoKeys nixNames : List String}
    (h1 : ∀ n ∈ nixNames, n ∈ neoKeys) : (compare neoKeys nixNames).1 = [] := by
  show (nixNames.filter (fun n => !neoKeys.contains n)).dedup = []
  have hA : (nixNames.filter (fun n => !neoKeys.contains n)) = [] := by
    rw [List.filter_eq_nil_iff]
    intro n hn
    have hmem : n ∈ neoKeys := h1 n hn
    simp [List.elem_iff, hmem]
  rw [hA]
  rfl


theorem writeBlockAux_noop (b : NeoBlock) (blk : NBlock) (secs : List Sec)
    (h : BlockSynced b blk secs) : writeBlockAux ⟨blk, secs⟩ b = ⟨blk, secs⟩ := by
  obtain ⟨hname, hmp, hsec, hroot, htagf, hsrcf, hno, hsegs, hrcgs⟩ := h
  have hblk1 : blk1W ⟨blk, secs⟩ b = blk := by
    unfold blk1W
    show { blk with metaPath := [b.name] } = blk
    rw [← hmp]
  have hsecs2 : blkSecs2 ⟨blk, secs⟩ b = secs := by
    unfold blkSecs2
    show writeProps (getOrCreateFileSec secs b.name) [b.name] (extractBlockMeta b) = secs
    rw [getOrCreateFileSec_noop hsec]
    exact writeProps_root_noop hroot
  have hws1 : blkWs1 ⟨blk, secs⟩ b = ⟨blk, secs⟩ := by
    unfold blkWs1
    rw [hblk1, hsecs2]
    exact foldl_const _ _ _ (fun seg hseg =>
      writeSegment_noop b.name blk secs seg hmp hno (hsegs seg hseg))
  have hrmT : blkRmT (blk1W ⟨blk, secs⟩ b) b = [] := by
    rw [hblk1]
    unfold blkRmT
    apply compare_fst_nil
    intro n hn
    obtain ⟨t, ht, rfl⟩ := List.mem_map.mp hn
    exact (htagf t (List.mem_filter.mp ht).1).2
  have hblk2 : blk2W ⟨blk, secs⟩ b = blk := by
    unfold blk2W
    rw [hws1, hrmT]
    show { blk with tags := blk.tags.filter (fun t => !([] : List String).contains t.name) } = blk
    have hf : blk.tags.filter (fun t => !([] : List String).contains t.name) = blk.tags :=
      List.filter_eq_self.mpr (fun t _ => rfl)
    rw [hf]
  have hrmS : blkRmS (blk2W ⟨blk, secs⟩ b) b = [] := by
    rw [hblk2]
    unfold blkRmS
    apply compare_fst_nil
    intro n hn
    obtain ⟨s, hs, rfl⟩ := List.mem_map.mp hn
    exact (hsrcf s (List.mem_filter.mp hs).1).2
  have hws2 : blkWs2 ⟨blk, secs⟩ b = ⟨blk, secs⟩ := by
    unfold blkWs2
    rw [hblk2, hws1]
    show b.rcgs.foldl writeRCG ⟨blk, secs⟩ = ⟨blk, secs⟩
    exact foldl_const _ _ _ (fun rcg hrcg =>
      writeRCG_noop b.name blk secs rcg hmp hno (hrcgs rcg hrcg))
  show (⟨{ (blkWs2 ⟨blk, secs⟩ b).blk with sources := (blkWs2 ⟨blk, secs⟩ b).blk.sources.filter (fun s => !(blkRmS (blk2W ⟨blk, secs⟩ b) b).contains s.name) }, (blkWs2 ⟨blk, secs⟩ b).secs⟩ : WState) = ⟨blk, secs⟩
  rw [hws2, hrmS]
  show (⟨{ blk with sources := blk.sources.filter (fun s => !([] : List String).contains s.name) }, secs⟩ : WState) = ⟨blk, secs⟩
  have hf : blk.sources.filter (fun s => !([] : List String).contains s.name) = blk.sources :=
    List.filter_eq_self.mpr (fun s _ => rfl)
  rw [hf]

theorem find?_append_none {α : Type} (p : α → Bool) :
    ∀ (l1 l2 : List α), (∀ x ∈ l1, p x = false) → (l1 ++ l2).find? p = l2.find? p := by
  intro l1
  induction l1 with
  | nil => intro l2 _; rfl
  | cons x rest ih =>
      intro l2 h
      have hx : p x = false := h x (List.mem_cons_self x rest)
      show List.find? p (x :: (rest ++ l2)) = List.find? p l2
      have hnx : ¬ p x = true := by
        rw [hx]
        exact Bool.false_ne_true
      have hstep : List.find? p (x :: (rest ++ l2)) = List.find? p (rest ++ l2) :=
        List.find?_cons_of_neg _ hnx
      rw [hstep]
      exact ih l2 (fun y hy => h y (List.mem_cons_of_mem x hy))

theorem find?_singleton_pos {α : Type} (p : α → Bool) (a : α) (h : p a = true) :
    [a].find? p = some a := by
  unfold List.find?
  rw [h]

theorem daHasTagRef_of_mem {tags : List NTag} {t : NTag} {n : String}
    (ht : t ∈ tags) (hn : n ∈ t.references) : daHasTagRef tags n = true :=
  List.any_eq_true.mpr ⟨t, ht, List.elem_iff.mpr hn⟩

theorem DasSync_filter {bn : String} {das : List NDA} {sg : NeoSignal} (p : NDA → Bool)
    (h : DasSync bn das sg)
    (hpass : ∀ da ∈ das, da.name = hashName sg → p da = true) :
    DasSync bn (das.filter p) sg := by
  obtain ⟨⟨da, hda, hdan⟩, hfa⟩ := h
  exact ⟨⟨da, List.mem_filter.mpr ⟨hda, hpass da hda hdan⟩, hdan⟩,
    fun d hd hdn => hfa d (List.mem_filter.mp hd).1 hdn⟩

theorem SigSynced_filter {bn : String} {das : List NDA} {secs : List Sec}
    {sg : NeoSignal} (p : NDA → Bool) (h : SigSynced bn das secs sg)
    (hpass : ∀ da ∈ das, da.name = hashName sg → p da = true) :
    SigSynced bn (das.filter p) secs sg :=
  ⟨DasSync_filter p h.1 hpass, h.2⟩

theorem DasSync_map {bn : String} {das : List NDA} {sg : NeoSignal} (f : NDA → NDA)
    (hf : ∀ da, (f da).name = da.name ∧ (f da).dtype = da.dtype ∧
      (f da).unit = da.unit ∧ (f da).dims = da.dims ∧ (f da).metaPath = da.metaPath)
    (h : DasSync bn das sg) : DasSync bn (das.map f) sg := by
  obtain ⟨⟨da, hda, hdan⟩, hfa⟩ := h
  constructor
  · exact ⟨f da, List.mem_map_of_mem f hda, by rw [(hf da).1]; exact hdan⟩
  · intro d hd hdn
    obtain ⟨da0, hda0, rfl⟩ := List.mem_map.mp hd
    rw [(hf da0).1] at hdn
    obtain ⟨h1, h2, h3, h4⟩ := hfa da0 hda0 hdn
    refine ⟨?_, ?_, ?_, ?_⟩
    · rw [(hf da0).2.1]; exact h1
    · rw [(hf da0).2.2.1]; exact h2
    · rw [(hf da0).2.2.2.2]; exact h3
    · rw [(hf da0).2.2.2.1]; exact h4

theorem seg_sig_mem_allSignals {b : NeoBlock} {seg : NeoSegment} {sg : NeoSignal}
    (hseg : seg ∈ b.segments) (hsg : sg ∈ seg.analogsignals) : sg ∈ allSignals b := by
  unfold allSignals
  apply List.mem_append_left
  exact List.mem_flatten.mpr
    ⟨seg.analogsignals, List.mem_map.mpr ⟨seg, hseg, rfl⟩, hsg⟩

theorem rcg_sig_mem_allSignals {b : NeoBlock} {rcg : NeoRCG} {sg : NeoSignal}
    (hrcg : rcg ∈ b.rcgs) (hsg : sg ∈ rcg.analogsignals) : sg ∈ allSignals b := by
  unfold allSignals
  apply List.mem_append_right
  exact List.mem_flatten.mpr
    ⟨rcg.analogsignals, List.mem_map.mpr ⟨rcg, hrcg, rfl⟩, hsg⟩


theorem writeSegment_establish (b : NeoBlock) (done : List NeoSegment)
    (blk : NBlock) (secs : List Sec) (seg : NeoSegment)
    (hWF : WF b) (hseg : seg ∈ b.segments)
    (hdone : ∀ s ∈ done, s ∈ b.segments)
    (hnotdone : seg.name ∉ done.map (fun s => s.name))
    (h : SegPhaseInv b done ⟨blk, secs⟩) :
    SegPhaseInv b (done ++ [seg]) (writeSegment ⟨blk, secs⟩ seg) := by
  obtain ⟨hname, hmp, hsec, hroot, htagf, hsrc, hdasrc, hAll, hNd, hno, hdones⟩ := h
  have hinj := hWF.2.2.1
  have hsanns := hWF.2.2.2.2.2.2
  have hsegann : dictKeysNodup seg.anns := hWF.2.2.2.2.1 seg hseg
  have hsgmem : ∀ sg ∈ seg.analogsignals, sg ∈ allSignals b :=
    fun sg hsg => seg_sig_mem_allSignals hseg hsg
  have hsignd : ∀ sg ∈ seg.analogsignals, ((extractSigFull sg).map Prod.fst).Nodup :=
    fun sg hsg => extractSigFull_keys_nodup sg (hsanns sg (hsgmem sg hsg))
  have hnotag : blk.tags.any (fun t => t.name == seg.name) = false := by
    rw [Bool.eq_false_iff]
    intro hc
    obtain ⟨t, ht, hbeq⟩ := List.any_eq_true.mp hc
    rw [beq_iff_eq] at hbeq
    exact hnotdone (hbeq ▸ (htagf t ht).2)
  have hfneg : ∀ t ∈ blk.tags, (t.name == seg.name) = false := by
    intro t ht
    rw [beq_eq_false_iff_ne]
    exact fun hc => hnotdone (hc ▸ (htagf t ht).2)
  have htags0 : segTags0 ⟨blk, secs⟩ seg =
      blk.tags ++ [⟨seg.name, "segment", [], []⟩] := by
    unfold segTags0
    show (if blk.tags.any (fun t => t.name == seg.name) then blk.tags
      else blk.tags ++ [⟨seg.name, "segment", [], []⟩]) = _
    rw [hnotag]
    rfl
  have hsegmp : segMp ⟨blk, secs⟩ seg = [b.name, "segments", seg.name] := by
    unfold segMp
    show blk.metaPath ++ ["segments", seg.name] = _
    rw [hmp]
    rfl
  have htags1 : segTags1 ⟨blk, secs⟩ seg =
      blk.tags ++ [⟨seg.name, "segment", [], [b.name, "segments", seg.name]⟩] := by
    unfold segTags1
    rw [htags0, List.map_append]
    congr 1
    · have hpt : ∀ t ∈ blk.tags,
          (if t.name = seg.name then
            { t with metaPath := segMp ⟨blk, secs⟩ seg } else t) = t := by
        intro t ht
        have hne : t.name ≠ seg.name := beq_eq_false_iff_ne.mp (hfneg t ht)
        rw [if_neg hne]
      rw [List.map_congr_left hpt, List.map_id']
    · show [if (⟨seg.name, "segment", [], []⟩ : NTag).name = seg.name then { (⟨seg.name, "segment", [], []⟩ : NTag) with metaPath := segMp ⟨blk, secs⟩ seg } else (⟨seg.name, "segment", [], []⟩ : NTag)] = _
      rw [if_pos rfl, hsegmp]
  have hrefs : segRefs ⟨blk, secs⟩ seg = [] := by
    unfold segRefs
    have hfneg1 : ∀ t ∈ blk.tags, (fun t => t.name == seg.name) t = false := hfneg
    rw [htags1, find?_append_none _ _ _ hfneg1,
      find?_singleton_pos _ _ (by rw [beq_iff_eq])]
  have hexisting : segExisting ⟨blk, secs⟩ seg = [] := by
    unfold segExisting
    rw [hrefs]
    rfl
  have hdiff : segDiff ⟨blk, secs⟩ seg =
      ([], (seg.analogsignals.map hashName).dedup) := by
    unfold segDiff
    rw [hexisting]
    unfold compare
    have hf2 : (seg.analogsignals.map hashName).filter
        (fun n => !([] : List String).contains n) = seg.analogsignals.map hashName :=
      List.filter_eq_self.mpr (fun n _ => rfl)
    rw [hf2]
    rfl
  have hsecs2eq : segSecs2 ⟨blk, secs⟩ seg =
      writeProps (getOrCreateSection secs [b.name] "segment" seg.name)
        [b.name, "segments", seg.name] (extractSegMeta seg) := by
    unfold segSecs2
    show writeProps (getOrCreateSection secs blk.metaPath "segment" seg.name)
      (segMp ⟨blk, secs⟩ seg) (extractSegMeta seg) = _
    rw [hmp, hsegmp]
  have hsecHasA : secHas (segSecs2 ⟨blk, secs⟩ seg) b.name = secHas secs b.name := by
    rw [hsecs2eq, secHas_writeProps_deep, secHas_getOrCreateSection]
  have hrootA : AgreeRoot (segSecs2 ⟨blk, secs⟩ seg) b.name (extractBlockMeta b) := by
    rw [hsecs2eq]
    exact AgreeRoot_preserve_wp_deep _ _ _ _ _ _
      (AgreeRoot_preserve_section _ _ _ _ _ hroot)
  have hGTA : HasGT (segSecs2 ⟨blk, secs⟩ seg) b.name "segments" seg.name := by
    rw [hsecs2eq]
    apply HasGT_preserve_wp_deep
    have := HasGT_establish secs b.name "segment" seg.name
    rwa [segments_append] at this
  have hADA : AgreeDeep (segSecs2 ⟨blk, secs⟩ seg) b.name "segments" seg.name
      (extractSegMeta seg) := by
    rw [hsecs2eq]
    exact AgreeDeep_establish _ _ _ _ _ (extractSegMeta_keys_nodup seg hsegann)
  have hGTdone : ∀ s ∈ done,
      HasGT (segSecs2 ⟨blk, secs⟩ seg) b.name "segments" s.name := by
    intro s hs
    rw [hsecs2eq]
    exact HasGT_preserve_wp_deep _ _ _ _ _ _ _
      (HasGT_preserve_section _ _ _ _ _ _ ((hdones s hs).2.2.1))
  have hADdone : ∀ s ∈ done,
      AgreeDeep (segSecs2 ⟨blk, secs⟩ seg) b.name "segments" s.name
        (extractSegMeta s) := by
    intro s hs
    have hne : seg.name ≠ s.name :=
      fun hc => hnotdone (hc ▸ List.mem_map.mpr ⟨s, hs, rfl⟩)
    rw [hsecs2eq]
    apply AgreeDeep_preserve_wp_deep_other _ _ _ _ _ _ _ _ (Or.inr hne)
    apply AgreeDeep_preserve_section_other _ _ _ _ _ _ _ (Or.inr hne)
    exact (hdones s hs).2.2.2.1
  have hSSpres : ∀ sg', SecsSync b.name secs sg' →
      SecsSync b.name (segSecs2 ⟨blk, secs⟩ seg) sg' := by
    intro sg' hss
    rw [hsecs2eq]
    constructor
    · exact HasGT_preserve_wp_deep _ _ _ _ _ _ _
        (HasGT_preserve_section _ _ _ _ _ _ hss.1)
    · apply AgreeDeep_preserve_wp_deep_other _ _ _ _ _ _ _ _ (Or.inl (by decide))
      apply AgreeDeep_preserve_section_other _ _ _ _ _ _ _ (Or.inl (by decide))
      exact hss.2
  have hdsEq : segDs ⟨blk, secs⟩ seg =
      (seg.analogsignals.foldl (wdsD [b.name]) blk.dataArrays,
       seg.analogsignals.foldl (wdsS [b.name]) (segSecs2 ⟨blk, secs⟩ seg)) := by
    unfold segDs
    show foldWriteDS blk.metaPath (blk.dataArrays, segSecs2 ⟨blk, secs⟩ seg)
      seg.analogsignals = _
    rw [hmp, foldWriteDS_pair]
  have hsyncB : ∀ sg ∈ seg.analogsignals,
      SigSynced b.name (seg.analogsignals.foldl (wdsD [b.name]) blk.dataArrays)
        (seg.analogsignals.foldl (wdsS [b.name]) (segSecs2 ⟨blk, secs⟩ seg)) sg := by
    intro sg hsg
    exact foldWds_sync b.name seg.analogsignals blk.dataArrays
      (segSecs2 ⟨blk, secs⟩ seg) sg hsignd hAll
      (fun s hs he => hinj sg (hsgmem sg hsg) s (hsgmem s hs) he) (Or.inr hsg)
  have hsyncDone : ∀ s ∈ done, ∀ sg ∈ s.analogsignals,
      SigSynced b.name (seg.analogsignals.foldl (wdsD [b.name]) blk.dataArrays)
        (seg.analogsignals.foldl (wdsS [b.name]) (segSecs2 ⟨blk, secs⟩ seg)) sg := by
    intro s hs sg hsg
    have hsgA : sg ∈ allSignals b := seg_sig_mem_allSignals (hdone s hs) hsg
    have h0 := (hdones s hs).2.2.2.2 sg hsg
    have hbase : SigSynced b.name blk.dataArrays (segSecs2 ⟨blk, secs⟩ seg) sg :=
      ⟨h0.1, hSSpres sg h0.2⟩
    exact foldWds_sync b.name seg.analogsignals blk.dataArrays
      (segSecs2 ⟨blk, secs⟩ seg) sg hsignd hAll
      (fun s' hs' he => hinj sg hsgA s' (hsgmem s' hs') he) (Or.inl hbase)
  have hAllB : ∀ da ∈ seg.analogsignals.foldl (wdsD [b.name]) blk.dataArrays,
      da.dtype = "analogsignal" := foldD_all_analog _ _ hAll
  have hNdB : ((seg.analogsignals.foldl (wdsD [b.name]) blk.dataArrays).map
      (fun da => da.name)).Nodup := foldD_names_nodup _ _ hNd
  have hsrcB : ∀ da ∈ seg.analogsignals.foldl (wdsD [b.name]) blk.dataArrays,
      da.sources = [] := by
    have := @foldD_skel_pointwise [b.name] (fun p => p.2.2 = ([] : List String))
      seg.analogsignals blk.dataArrays (fun da hda => hdasrc da hda)
      (fun sg _ => Or.inr rfl)
    exact this
  have hrefs2 : segRefs2 ⟨blk, secs⟩ seg = (seg.analogsignals.map hashName).dedup := by
    unfold segRefs2
    rw [hrefs, hdiff]
    rfl
  have htags2 : segTags2 ⟨blk, secs⟩ seg = blk.tags ++ [segFreshTag b.name seg] := by
    unfold segTags2
    rw [htags1, List.map_append]
    congr 1
    · have hpt : ∀ t ∈ blk.tags,
          (if t.name = seg.name then
            { t with references := segRefs2 ⟨blk, secs⟩ seg } else t) = t := by
        intro t ht
        have hne : t.name ≠ seg.name := beq_eq_false_iff_ne.mp (hfneg t ht)
        rw [if_neg hne]
      rw [List.map_congr_left hpt, List.map_id']
    · show [if (⟨seg.name, "segment", [], [b.name, "segments", seg.name]⟩ : NTag).name = seg.name then { (⟨seg.name, "segment", [], [b.name, "segments", seg.name]⟩ : NTag) with references := segRefs2 ⟨blk, secs⟩ seg } else (⟨seg.name, "segment", [], [b.name, "segments", seg.name]⟩ : NTag)] = _
      rw [if_pos rfl, hrefs2]
      rfl
  have hfinal : writeSegment ⟨blk, secs⟩ seg =
      ⟨clean { blk with tags := blk.tags ++ [segFreshTag b.name seg], dataArrays := seg.analogsignals.foldl (wdsD [b.name]) blk.dataArrays }, seg.analogsignals.foldl (wdsS [b.name]) (segSecs2 ⟨blk, secs⟩ seg)⟩ := by
    show (⟨clean { blk with tags := segTags2 ⟨blk, secs⟩ seg, dataArrays := (segDs ⟨blk, secs⟩ seg).1 }, (segDs ⟨blk, secs⟩ seg).2⟩ : WState) = _
    rw [htags2, hdsEq]
  rw [hfinal]
  have hpassSeg : ∀ sg ∈ seg.analogsignals,
      ∀ da ∈ seg.analogsignals.foldl (wdsD [b.name]) blk.dataArrays,
      da.name = hashName sg →
      (daHasTagRef (blk.tags ++ [segFreshTag b.name seg]) da.name
        || !da.sources.isEmpty) = true := by
    intro sg hsg da _ hdan
    have hmemref : hashName sg ∈ (segFreshTag b.name seg).references :=
      List.mem_dedup.mpr (List.mem_map.mpr ⟨sg, hsg, rfl⟩)
    have h1 : daHasTagRef (blk.tags ++ [segFreshTag b.name seg]) (hashName sg) = true :=
      daHasTagRef_of_mem (List.mem_append_right _ (List.mem_singleton_self _)) hmemref
    rw [hdan, h1]
    rfl
  have hpassDone : ∀ s ∈ done, ∀ sg ∈ s.analogsignals,
      ∀ da ∈ seg.analogsignals.foldl (wdsD [b.name]) blk.dataArrays,
      da.name = hashName sg →
      (daHasTagRef (blk.tags ++ [segFreshTag b.name seg]) da.name
        || !da.sources.isEmpty) = true := by
    intro s hs sg hsg da _ hdan
    obtain ⟨t', ht', hbeq⟩ := List.any_eq_true.mp (hdones s hs).1
    have ht'n : t'.name = s.name := beq_iff_eq.mp hbeq
    have hrefst' : t'.references = (s.analogsignals.map hashName).dedup :=
      ((hdones s hs).2.1 t' ht' ht'n).2.2
    have hmemref : hashName sg ∈ t'.references := by
      rw [hrefst']
      exact List.mem_dedup.mpr (List.mem_map.mpr ⟨sg, hsg, rfl⟩)
    have h1 : daHasTagRef (blk.tags ++ [segFreshTag b.name seg]) (hashName sg) = true :=
      daHasTagRef_of_mem (List.mem_append_left _ ht') hmemref
    rw [hdan, h1]
    rfl
  refine ⟨hname, hmp, ?_, ?_, ?_, hsrc, ?_, ?_, ?_, ?_, ?_⟩
  · rw [foldS_secHas, hsecHasA]
    exact hsec
  · exact foldS_AgreeRoot _ _ _ _ hrootA
  · intro t ht
    rcases List.mem_append.mp ht with htl | htr
    · refine ⟨(htagf t htl).1, ?_⟩
      rw [List.map_append]
      exact List.mem_append_left _ (htagf t htl).2
    · rw [List.mem_singleton] at htr
      subst htr
      refine ⟨rfl, ?_⟩
      rw [List.map_append]
      exact List.mem_append_right _ (List.mem_singleton_self _)
  · intro da hda
    exact hsrcB da (List.mem_filter.mp hda).1
  · intro da hda
    exact hAllB da (List.mem_filter.mp hda).1
  · exact List.Nodup.sublist ((List.filter_sublist _).map _) hNdB
  · exact NoOrphans_clean _
  · intro s hs
    rcases List.mem_append.mp hs with hsl | hsr
    · refine ⟨?_, ?_, ?_, ?_, ?_⟩
      · show ((blk.tags ++ [segFreshTag b.name seg]).any (fun t => t.name == s.name)) = true
        rw [List.any_append, (hdones s hsl).1]
        rfl
      · intro t ht htn
        rcases List.mem_append.mp ht with htl | htr
        · exact (hdones s hsl).2.1 t htl htn
        · rw [List.mem_singleton] at htr
          subst htr
          exfalso
          have hne : seg.name ≠ s.name :=
            fun hc => hnotdone (hc ▸ List.mem_map.mpr ⟨s, hsl, rfl⟩)
          exact hne htn
      · exact foldS_HasGT _ _ _ _ _ (hGTdone s hsl)
      · exact foldS_AgreeDeep_left _ _ _ _ (by decide) _ _ (hADdone s hsl)
      · intro sg hsg
        exact SigSynced_filter _ (hsyncDone s hsl sg hsg)
          (hpassDone s hsl sg hsg)
    · rw [List.mem_singleton] at hsr
      subst hsr
      refine ⟨?_, ?_, ?_, ?_, ?_⟩
      · show ((blk.tags ++ [segFreshTag b.name s]).any (fun t => t.name == s.name)) = true
        exact List.any_eq_true.mpr ⟨segFreshTag b.name s,
          List.mem_append_right _ (List.mem_singleton_self _), by rw [beq_iff_eq]; rfl⟩
      · intro t ht htn
        rcases List.mem_append.mp ht with htl | htr
        · exact absurd htn (beq_eq_false_iff_ne.mp (hfneg t htl))
        · rw [List.mem_singleton] at htr
          subst htr
          exact ⟨rfl, rfl, rfl⟩
      · exact foldS_HasGT _ _ _ _ _ hGTA
      · exact foldS_AgreeDeep_left _ _ _ _ (by decide) _ _ hADA
      · intro sg hsg
        exact SigSynced_filter _ (hsyncB sg hsg) (hpassSeg sg hsg)

theorem foldSeg_establish (b : NeoBlock) (hWF : WF b) :
    ∀ (todo done : List NeoSegment) (ws : WState),
    done ++ todo = b.segments →
    SegPhaseInv b done ws →
    SegPhaseInv b b.segments (todo.foldl writeSegment ws) := by
  intro todo
  induction todo with
  | nil =>
      intro done ws hsplit h
      rw [List.append_nil] at hsplit
      rw [← hsplit]
      exact h
  | cons seg rest ih =>
      intro done ws hsplit h
      obtain ⟨blk, secs⟩ := ws
      have hseg : seg ∈ b.segments := by
        rw [← hsplit]
        exact List.mem_append_right _ (List.mem_cons_self _ _)
      have hdone : ∀ s ∈ done, s ∈ b.segments := by
        intro s hs
        rw [← hsplit]
        exact List.mem_append_left _ hs
      have hnd : ((done ++ seg :: rest).map (fun s => s.name)).Nodup := by
        rw [hsplit]
        exact hWF.1
      rw [List.map_append] at hnd
      have hdisj := (List.nodup_append.mp hnd).2.2
      have hnotdone : seg.name ∉ done.map (fun s => s.name) := by
        intro hc
        exact hdisj hc (List.mem_cons_self _ _)
      have hstep := writeSegment_establish b done blk secs seg hWF hseg hdone hnotdone h
      exact ih (done ++ [seg]) (writeSegment ⟨blk, secs⟩ seg)
        (by rw [List.append_assoc]; exact hsplit) hstep


theorem rcgLink_fields (rcg : NeoRCG) (da : NDA) :
    (rcgLink rcg da).name = da.name ∧ (rcgLink rcg da).dtype = da.dtype ∧
    (rcgLink rcg da).unit = da.unit ∧ (rcgLink rcg da).dims = da.dims ∧
    (rcgLink rcg da).metaPath = da.metaPath := by
  unfold rcgLink
  split <;> exact ⟨rfl, rfl, rfl, rfl, rfl⟩

theorem rcgLink_self {rcg : NeoRCG} {da : NDA}
    (hmem : da.name ∈ rcg.analogsignals.map hashName) :
    rcg.name ∈ (rcgLink rcg da).sources := by
  unfold rcgLink
  rw [if_pos (List.elem_iff.mpr (List.mem_dedup.mpr hmem))]
  exact List.mem_append_right _ (List.mem_singleton_self _)

theorem rcgLink_not {rcg : NeoRCG} {da : NDA}
    (hnot : da.name ∉ rcg.analogsignals.map hashName) : rcgLink rcg da = da := by
  unfold rcgLink
  rw [if_neg (fun hc => hnot (List.mem_dedup.mp (List.elem_iff.mp hc)))]

theorem rcgLink_sources_mono {rcg : NeoRCG} {da : NDA} {n : String}
    (hn : n ∈ da.sources) : n ∈ (rcgLink rcg da).sources := by
  unfold rcgLink
  split
  · exact List.mem_append_left _ hn
  · exact hn

theorem rcgLink_sub {rcg : NeoRCG} {da : NDA} {n : String}
    (hn : n ∈ (rcgLink rcg da).sources) : n ∈ da.sources ∨ n = rcg.name := by
  unfold rcgLink at hn
  by_cases hc : ((rcg.analogsignals.map hashName).dedup).contains da.name
  · rw [if_pos hc] at hn
    rcases List.mem_append.mp hn with hl | hr
    · exact Or.inl hl
    · exact Or.inr (List.mem_singleton.mp hr)
  · rw [if_neg hc] at hn
    exact Or.inl hn

theorem rcgLink_sources_mem {rcg : NeoRCG} {da : NDA} {n : String}
    (hne : n ≠ rcg.name) : n ∈ (rcgLink rcg da).sources ↔ n ∈ da.sources := by
  constructor
  · intro hn
    rcases rcgLink_sub hn with hl | hr
    · exact hl
    · exact absurd hr hne
  · exact rcgLink_sources_mono

theorem writeRCG_establish (b : NeoBlock) (doneR : List NeoRCG)
    (blk : NBlock) (secs : List Sec) (rcg : NeoRCG)
    (hWF : WF b) (hrcg : rcg ∈ b.rcgs)
    (hdoneR : ∀ r ∈ doneR, r ∈ b.rcgs)
    (hnotdoneR : rcg.name ∉ doneR.map (fun r => r.name))
    (h : RCGPhaseInv b doneR ⟨blk, secs⟩) :
    RCGPhaseInv b (doneR ++ [rcg]) (writeRCG ⟨blk, secs⟩ rcg) := by
  obtain ⟨hname, hmp, hsec, hroot, htagf, hsrcf, hdasrc, hAll, hNd, hno, hsegs, hdones⟩ := h
  have hinj := hWF.2.2.1
  have hsanns := hWF.2.2.2.2.2.2
  have hrcgann : dictKeysNodup rcg.anns := hWF.2.2.2.2.2.1 rcg hrcg
  have hsgmem : ∀ sg ∈ rcg.analogsignals, sg ∈ allSignals b :=
    fun sg hsg => rcg_sig_mem_allSignals hrcg hsg
  have hsignd : ∀ sg ∈ rcg.analogsignals, ((extractSigFull sg).map Prod.fst).Nodup :=
    fun sg hsg => extractSigFull_keys_nodup sg (hsanns sg (hsgmem sg hsg))
  have hsneg : ∀ s ∈ blk.sources, (s.name == rcg.name) = false := by
    intro s hs
    rw [beq_eq_false_iff_ne]
    exact fun hc => hnotdoneR (hc ▸ (hsrcf s hs).2)
  have hnosrc : blk.sources.any (fun s => s.name == rcg.name) = false := by
    rw [Bool.eq_false_iff]
    intro hc
    obtain ⟨s, hs, hbeq⟩ := List.any_eq_true.mp hc
    rw [hsneg s hs] at hbeq
    exact Bool.false_ne_true hbeq
  have hsrcs0 : rcgSrcs0 ⟨blk, secs⟩ rcg =
      blk.sources ++ [⟨rcg.name, "recordingchannelgroup", []⟩] := by
    unfold rcgSrcs0
    show (if blk.sources.any (fun s => s.name == rcg.name) then blk.sources
      else blk.sources ++ [⟨rcg.name, "recordingchannelgroup", []⟩]) = _
    rw [hnosrc]
    rfl
  have hrcgmp : rcgMp ⟨blk, secs⟩ rcg = [b.name, "recordingchannelgroups", rcg.name] := by
    unfold rcgMp
    show blk.metaPath ++ ["recordingchannelgroups", rcg.name] = _
    rw [hmp]
    rfl
  have hsrcs1 : rcgSrcs1 ⟨blk, secs⟩ rcg = blk.sources ++ [rcgFreshSrc b.name rcg] := by
    unfold rcgSrcs1
    rw [hsrcs0, List.map_append]
    congr 1
    · have hpt : ∀ s ∈ blk.sources,
          (if s.name = rcg.name then
            { s with metaPath := rcgMp ⟨blk, secs⟩ rcg } else s) = s := by
        intro s hs
        rw [if_neg (beq_eq_false_iff_ne.mp (hsneg s hs))]
      rw [List.map_congr_left hpt, List.map_id']
    · show [if (⟨rcg.name, "recordingchannelgroup", []⟩ : NSrc).name = rcg.name then { (⟨rcg.name, "recordingchannelgroup", []⟩ : NSrc) with metaPath := rcgMp ⟨blk, secs⟩ rcg } else (⟨rcg.name, "recordingchannelgroup", []⟩ : NSrc)] = _
      rw [if_pos rfl, hrcgmp]
      rfl
  have hexisting : rcgExisting ⟨blk, secs⟩ rcg = [] := by
    unfold rcgExisting
    have hf : blk.dataArrays.filter
        (fun da => da.dtype == "analogsignal" && da.sources.contains rcg.name) = [] := by
      rw [List.filter_eq_nil_iff]
      intro da hda
      intro hc
      rw [Bool.and_eq_true] at hc
      exact hnotdoneR (hdasrc da hda rcg.name (List.elem_iff.mp hc.2))
    rw [hf]
    rfl
  have hdiff : rcgDiff ⟨blk, secs⟩ rcg =
      ([], (rcg.analogsignals.map hashName).dedup) := by
    unfold rcgDiff
    rw [hexisting]
    unfold compare
    have hf2 : (rcg.analogsignals.map hashName).filter
        (fun n => !([] : List String).contains n) = rcg.analogsignals.map hashName :=
      List.filter_eq_self.mpr (fun n _ => rfl)
    rw [hf2]
    rfl
  have hsecs2eq : rcgSecs2 ⟨blk, secs⟩ rcg =
      writeProps (getOrCreateSection secs [b.name] "recordingchannelgroup" rcg.name)
        [b.name, "recordingchannelgroups", rcg.name] (extractRCGMeta rcg) := by
    unfold rcgSecs2
    show writeProps (getOrCreateSection secs blk.metaPath "recordingchannelgroup" rcg.name)
      (rcgMp ⟨blk, secs⟩ rcg) (extractRCGMeta rcg) = _
    rw [hmp, hrcgmp]
  have hsecHasA : secHas (rcgSecs2 ⟨blk, secs⟩ rcg) b.name = secHas secs b.name := by
    rw [hsecs2eq, secHas_writeProps_deep, secHas_getOrCreateSection]
  have hrootA : AgreeRoot (rcgSecs2 ⟨blk, secs⟩ rcg) b.name (extractBlockMeta b) := by
    rw [hsecs2eq]
    exact AgreeRoot_preserve_wp_deep _ _ _ _ _ _
      (AgreeRoot_preserve_section _ _ _ _ _ hroot)
  have hGTA : HasGT (rcgSecs2 ⟨blk, secs⟩ rcg) b.name "recordingchannelgroups" rcg.name := by
    rw [hsecs2eq]
    apply HasGT_preserve_wp_deep
    have := HasGT_establish secs b.name "recordingchannelgroup" rcg.name
    rwa [rcgroups_append] at this
  have hADA : AgreeDeep (rcgSecs2 ⟨blk, secs⟩ rcg) b.name "recordingchannelgroups"
      rcg.name (extractRCGMeta rcg) := by
    rw [hsecs2eq]
    exact AgreeDeep_establish _ _ _ _ _ (extractRCGMeta_keys_nodup rcg hrcgann)
  have hGTsegs : ∀ s ∈ b.segments,
      HasGT (rcgSecs2 ⟨blk, secs⟩ rcg) b.name "segments" s.name := by
    intro s hs
    rw [hsecs2eq]
    exact HasGT_preserve_wp_deep _ _ _ _ _ _ _
      (HasGT_preserve_section _ _ _ _ _ _ ((hsegs s hs).2.2.1))
  have hADsegs : ∀ s ∈ b.segments,
      AgreeDeep (rcgSecs2 ⟨blk, secs⟩ rcg) b.name "segments" s.name
        (extractSegMeta s) := by
    intro s hs
    rw [hsecs2eq]
    apply AgreeDeep_preserve_wp_deep_other _ _ _ _ _ _ _ _ (Or.inl (by decide))
    apply AgreeDeep_preserve_section_other _ _ _ _ _ _ _ (Or.inl (by decide))
    exact (hsegs s hs).2.2.2.1
  have hGTdoneR : ∀ r ∈ doneR,
      HasGT (rcgSecs2 ⟨blk, secs⟩ rcg) b.name "recordingchannelgroups" r.name := by
    intro r hr
    rw [hsecs2eq]
    exact HasGT_preserve_wp_deep _ _ _ _ _ _ _
      (HasGT_preserve_section _ _ _ _ _ _ ((hdones r hr).2.2.1))
  have hADdoneR : ∀ r ∈ doneR,
      AgreeDeep (rcgSecs2 ⟨blk, secs⟩ rcg) b.name "recordingchannelgroups" r.name
        (extractRCGMeta r) := by
    intro r hr
    have hner : rcg.name ≠ r.name :=
      fun hc => hnotdoneR (hc ▸ List.mem_map.mpr ⟨r, hr, rfl⟩)
    rw [hsecs2eq]
    apply AgreeDeep_preserve_wp_deep_other _ _ _ _ _ _ _ _ (Or.inr hner)
    apply AgreeDeep_preserve_section_other _ _ _ _ _ _ _ (Or.inr hner)
    exact (hdones r hr).2.2.2.1
  have hSSpres : ∀ sg', SecsSync b.name secs sg' →
      SecsSync b.name (rcgSecs2 ⟨blk, secs⟩ rcg) sg' := by
    intro sg' hss
    rw [hsecs2eq]
    constructor
    · exact HasGT_preserve_wp_deep _ _ _ _ _ _ _
        (HasGT_preserve_section _ _ _ _ _ _ hss.1)
    · apply AgreeDeep_preserve_wp_deep_other _ _ _ _ _ _ _ _ (Or.inl (by decide))
      apply AgreeDeep_preserve_section_other _ _ _ _ _ _ _ (Or.inl (by decide))
      exact hss.2
  have hdsEq : rcgDs ⟨blk, secs⟩ rcg =
      (rcg.analogsignals.foldl (wdsD [b.name]) blk.dataArrays,
       rcg.analogsignals.foldl (wdsS [b.name]) (rcgSecs2 ⟨blk, secs⟩ rcg)) := by
    unfold rcgDs
    show foldWriteDS blk.metaPath (blk.dataArrays, rcgSecs2 ⟨blk, secs⟩ rcg)
      rcg.analogsignals = _
    rw [hmp, foldWriteDS_pair]
  have hsyncB : ∀ sg ∈ rcg.analogsignals,
      SigSynced b.name (rcg.analogsignals.foldl (wdsD [b.name]) blk.dataArrays)
        (rcg.analogsignals.foldl (wdsS [b.name]) (rcgSecs2 ⟨blk, secs⟩ rcg)) sg := by
    intro sg hsg
    exact foldWds_sync b.name rcg.analogsignals blk.dataArrays
      (rcgSecs2 ⟨blk, secs⟩ rcg) sg hsignd hAll
      (fun s hs he => hinj sg (hsgmem sg hsg) s (hsgmem s hs) he) (Or.inr hsg)
  have hAllB : ∀ da ∈ rcg.analogsignals.foldl (wdsD [b.name]) blk.dataArrays,
      da.dtype = "analogsignal" := foldD_all_analog _ _ hAll
  have hNdB : ((rcg.analogsignals.foldl (wdsD [b.name]) blk.dataArrays).map
      (fun da => da.name)).Nodup := foldD_names_nodup _ _ hNd
  have hsrcsubB : ∀ da ∈ rcg.analogsignals.foldl (wdsD [b.name]) blk.dataArrays,
      ∀ n ∈ da.sources, n ∈ doneR.map (fun r => r.name) := by
    have := @foldD_skel_pointwise [b.name]
      (fun p => ∀ n ∈ p.2.2, n ∈ doneR.map (fun r : NeoRCG => r.name))
      rcg.analogsignals blk.dataArrays (fun da hda => hdasrc da hda)
      (fun sg _ => Or.inr (fun n hn => absurd hn (List.not_mem_nil n)))
    exact this
  have hiffD : ∀ r ∈ doneR,
      ∀ d ∈ rcg.analogsignals.foldl (wdsD [b.name]) blk.dataArrays,
      (r.name ∈ d.sources ↔ d.name ∈ r.analogsignals.map hashName) := by
    intro r hr
    have hbase : ∀ da ∈ blk.dataArrays,
        (r.name ∈ da.sources ↔ da.name ∈ r.analogsignals.map hashName) :=
      (hdones r hr).2.2.2.2.2
    have hfr : ∀ sg ∈ rcg.analogsignals,
        (∃ da ∈ blk.dataArrays, da.name = hashName sg) ∨
        (r.name ∈ ([] : List String) ↔ hashName sg ∈ r.analogsignals.map hashName) := by
      intro sg _
      by_cases hmm : hashName sg ∈ r.analogsignals.map hashName
      · left
        obtain ⟨sgr, hsgr, heq⟩ := List.mem_map.mp hmm
        obtain ⟨⟨da, hda, hdan⟩, _⟩ := ((hdones r hr).2.2.2.2.1 sgr hsgr).1
        exact ⟨da, hda, hdan.trans heq⟩
      · right
        exact ⟨fun hc => absurd hc (List.not_mem_nil _), fun hc => absurd hc hmm⟩
    exact @foldD_skel_pointwise [b.name]
      (fun p => r.name ∈ p.2.2 ↔ p.1 ∈ r.analogsignals.map hashName)
      rcg.analogsignals blk.dataArrays hbase hfr
  have hdas2eq : rcgDas2 ⟨blk, secs⟩ rcg =
      (rcg.analogsignals.foldl (wdsD [b.name]) blk.dataArrays).map (rcgLink rcg) := by
    unfold rcgDas2
    rw [hdsEq, hdiff]
    show ((rcg.analogsignals.foldl (wdsD [b.name]) blk.dataArrays).map (fun da => if (([], (rcg.analogsignals.map hashName).dedup) : List String × List String).1.contains da.name then { da with sources := da.sources.filter (fun s => !(s == rcg.name)) } else da)).map (fun da => if (([], (rcg.analogsignals.map hashName).dedup) : List String × List String).2.contains da.name then { da with sources := da.sources ++ [rcg.name] } else da) = _
    have h1 : ∀ da ∈ rcg.analogsignals.foldl (wdsD [b.name]) blk.dataArrays,
        (if (([], (rcg.analogsignals.map hashName).dedup) : List String × List String).1.contains da.name then { da with sources := da.sources.filter (fun s => !(s == rcg.name)) } else da) = da :=
      fun da _ => rfl
    rw [List.map_congr_left h1, List.map_id']
    exact List.map_congr_left (fun da _ => rfl)
  have hfinal : writeRCG ⟨blk, secs⟩ rcg =
      ⟨clean { blk with sources := blk.sources ++ [rcgFreshSrc b.name rcg], dataArrays := (rcg.analogsignals.foldl (wdsD [b.name]) blk.dataArrays).map (rcgLink rcg) }, rcg.analogsignals.foldl (wdsS [b.name]) (rcgSecs2 ⟨blk, secs⟩ rcg)⟩ := by
    show (⟨clean { blk with sources := rcgSrcs1 ⟨blk, secs⟩ rcg, dataArrays := rcgDas2 ⟨blk, secs⟩ rcg }, (rcgDs ⟨blk, secs⟩ rcg).2⟩ : WState) = _
    rw [hsrcs1, hdas2eq, hdsEq]
  rw [hfinal]
  have hpassSegs : ∀ s ∈ b.segments, ∀ sg ∈ s.analogsignals,
      ∀ da ∈ (rcg.analogsignals.foldl (wdsD [b.name]) blk.dataArrays).map (rcgLink rcg),
      da.name = hashName sg →
      (daHasTagRef blk.tags da.name || !da.sources.isEmpty) = true := by
    intro s hs sg hsg da _ hdan
    obtain ⟨t', ht', hbeq⟩ := List.any_eq_true.mp (hsegs s hs).1
    have ht'n := beq_iff_eq.mp hbeq
    have hrefst' := ((hsegs s hs).2.1 t' ht' ht'n).2.2
    have hmemref : hashName sg ∈ t'.references := by
      rw [hrefst']
      exact List.mem_dedup.mpr (List.mem_map.mpr ⟨sg, hsg, rfl⟩)
    have h1 : daHasTagRef blk.tags (hashName sg) = true := daHasTagRef_of_mem ht' hmemref
    rw [hdan, h1]
    rfl
  have hpassRcg : ∀ sg ∈ rcg.analogsignals,
      ∀ da ∈ (rcg.analogsignals.foldl (wdsD [b.name]) blk.dataArrays).map (rcgLink rcg),
      da.name = hashName sg →
      (daHasTagRef blk.tags da.name || !da.sources.isEmpty) = true := by
    intro sg hsg da hda hdan
    obtain ⟨d, hd, rfl⟩ := List.mem_map.mp hda
    have hdn : d.name = hashName sg := by
      rw [← (rcgLink_fields rcg d).1]
      exact hdan
    have hmem : rcg.name ∈ (rcgLink rcg d).sources :=
      rcgLink_self (by rw [hdn]; exact List.mem_map.mpr ⟨sg, hsg, rfl⟩)
    have hnenil : (rcgLink rcg d).sources ≠ [] := List.ne_nil_of_mem hmem
    have hemp : (rcgLink rcg d).sources.isEmpty = false := by
      cases hl : (rcgLink rcg d).sources with
      | nil => exact absurd hl hnenil
      | cons a as => rfl
    rw [hemp, Bool.not_false, Bool.or_true]
  have hpassDoneR : ∀ r ∈ doneR, ∀ sg ∈ r.analogsignals,
      ∀ da ∈ (rcg.analogsignals.foldl (wdsD [b.name]) blk.dataArrays).map (rcgLink rcg),
      da.name = hashName sg →
      (daHasTagRef blk.tags da.name || !da.sources.isEmpty) = true := by
    intro r hr sg hsg da hda hdan
    obtain ⟨d, hd, rfl⟩ := List.mem_map.mp hda
    have hdn : d.name = hashName sg := by
      rw [← (rcgLink_fields rcg d).1]
      exact hdan
    have hrn : r.name ∈ d.sources := by
      apply (hiffD r hr d hd).mpr
      rw [hdn]
      exact List.mem_map.mpr ⟨sg, hsg, rfl⟩
    have hmem : r.name ∈ (rcgLink rcg d).sources := rcgLink_sources_mono hrn
    have hnenil : (rcgLink rcg d).sources ≠ [] := List.ne_nil_of_mem hmem
    have hemp : (rcgLink rcg d).sources.isEmpty = false := by
      cases hl : (rcgLink rcg d).sources with
      | nil => exact absurd hl hnenil
      | cons a as => rfl
    rw [hemp, Bool.not_false, Bool.or_true]
  refine ⟨hname, hmp, ?_, ?_, htagf, ?_, ?_, ?_, ?_, ?_, ?_, ?_⟩
  · rw [foldS_secHas, hsecHasA]
    exact hsec
  · exact foldS_AgreeRoot _ _ _ _ hrootA
  · intro s hs
    rcases List.mem_append.mp hs with hsl | hsr
    · refine ⟨(hsrcf s hsl).1, ?_⟩
      rw [List.map_append]
      exact List.mem_append_left _ (hsrcf s hsl).2
    · rw [List.mem_singleton] at hsr
      subst hsr
      refine ⟨rfl, ?_⟩
      rw [List.map_append]
      exact List.mem_append_right _ (List.mem_singleton_self _)
  · intro da hda n hn
    obtain ⟨d, hd, rfl⟩ := List.mem_map.mp (List.mem_filter.mp hda).1
    rcases rcgLink_sub hn with hl | hr
    · rw [List.map_append]
      exact List.mem_append_left _ (hsrcsubB d hd n hl)
    · rw [List.map_append, hr]
      exact List.mem_append_right _ (List.mem_singleton_self _)
  · intro da hda
    obtain ⟨d, hd, rfl⟩ := List.mem_map.mp (List.mem_filter.mp hda).1
    rw [(rcgLink_fields rcg d).2.1]
    exact hAllB d hd
  · have hmapnames : (((rcg.analogsignals.foldl (wdsD [b.name]) blk.dataArrays).map
        (rcgLink rcg)).map (fun da => da.name)) =
        (rcg.analogsignals.foldl (wdsD [b.name]) blk.dataArrays).map
          (fun da => da.name) := by
      rw [List.map_map]
      exact List.map_congr_left (fun da _ => (rcgLink_fields rcg da).1)
    have hnd2 : (((rcg.analogsignals.foldl (wdsD [b.name]) blk.dataArrays).map
        (rcgLink rcg)).map (fun da => da.name)).Nodup := by
      rw [hmapnames]
      exact hNdB
    exact List.Nodup.sublist ((List.filter_sublist _).map _) hnd2
  · exact NoOrphans_clean _
  · intro s hs
    refine ⟨(hsegs s hs).1, (hsegs s hs).2.1, ?_, ?_, ?_⟩
    · exact foldS_HasGT _ _ _ _ _ (hGTsegs s hs)
    · exact foldS_AgreeDeep_left _ _ _ _ (by decide) _ _ (hADsegs s hs)
    · intro sg hsg
      have h0 := (hsegs s hs).2.2.2.2 sg hsg
      have hbase : SigSynced b.name blk.dataArrays (rcgSecs2 ⟨blk, secs⟩ rcg) sg :=
        ⟨h0.1, hSSpres sg h0.2⟩
      have h1 := foldWds_sync b.name rcg.analogsignals blk.dataArrays
        (rcgSecs2 ⟨blk, secs⟩ rcg) sg hsignd hAll
        (fun s' hs' he => hinj sg (seg_sig_mem_allSignals hs hsg) s' (hsgmem s' hs') he)
        (Or.inl hbase)
      have h2 : SigSynced b.name ((rcg.analogsignals.foldl (wdsD [b.name])
          blk.dataArrays).map (rcgLink rcg))
          (rcg.analogsignals.foldl (wdsS [b.name]) (rcgSecs2 ⟨blk, secs⟩ rcg)) sg :=
        ⟨DasSync_map (rcgLink rcg) (rcgLink_fields rcg) h1.1, h1.2⟩
      exact SigSynced_filter _ h2 (hpassSegs s hs sg hsg)
  · intro r hr
    rcases List.mem_append.mp hr with hrl | hrr
    · refine ⟨?_, ?_, ?_, ?_, ?_, ?_⟩
      · show ((blk.sources ++ [rcgFreshSrc b.name rcg]).any
          (fun s => s.name == r.name)) = true
        rw [List.any_append, (hdones r hrl).1]
        rfl
      · intro s hsm hsn
        rcases List.mem_append.mp hsm with hsml | hsmr
        · exact (hdones r hrl).2.1 s hsml hsn
        · rw [List.mem_singleton] at hsmr
          subst hsmr
          exfalso
          have hner : rcg.name ≠ r.name :=
            fun hc => hnotdoneR (hc ▸ List.mem_map.mpr ⟨r, hrl, rfl⟩)
          exact hner hsn
      · exact foldS_HasGT _ _ _ _ _ (hGTdoneR r hrl)
      · exact foldS_AgreeDeep_left _ _ _ _ (by decide) _ _ (hADdoneR r hrl)
      · intro sg hsg
        have h0 := (hdones r hrl).2.2.2.2.1 sg hsg
        have hbase : SigSynced b.name blk.dataArrays (rcgSecs2 ⟨blk, secs⟩ rcg) sg :=
          ⟨h0.1, hSSpres sg h0.2⟩
        have h1 := foldWds_sync b.name rcg.analogsignals blk.dataArrays
          (rcgSecs2 ⟨blk, secs⟩ rcg) sg hsignd hAll
          (fun s' hs' he => hinj sg (rcg_sig_mem_allSignals (hdoneR r hrl) hsg)
            s' (hsgmem s' hs') he)
          (Or.inl hbase)
        have h2 : SigSynced b.name ((rcg.analogsignals.foldl (wdsD [b.name])
            blk.dataArrays).map (rcgLink rcg))
            (rcg.analogsignals.foldl (wdsS [b.name]) (rcgSecs2 ⟨blk, secs⟩ rcg)) sg :=
          ⟨DasSync_map (rcgLink rcg) (rcgLink_fields rcg) h1.1, h1.2⟩
        exact SigSynced_filter _ h2 (hpassDoneR r hrl sg hsg)
      · intro da hda
        obtain ⟨d, hd, rfl⟩ := List.mem_map.mp (List.mem_filter.mp hda).1
        rw [(rcgLink_fields rcg d).1]
        have hner : r.name ≠ rcg.name :=
          fun hc => hnotdoneR (hc ▸ List.mem_map.mpr ⟨r, hrl, rfl⟩)
        rw [rcgLink_sources_mem hner]
        exact hiffD r hrl d hd
    · rw [List.mem_singleton] at hrr
      subst hrr
      refine ⟨?_, ?_, ?_, ?_, ?_, ?_⟩
      · show ((blk.sources ++ [rcgFreshSrc b.name r]).any
          (fun s => s.name == r.name)) = true
        exact List.any_eq_true.mpr ⟨rcgFreshSrc b.name r,
          List.mem_append_right _ (List.mem_singleton_self _), by rw [beq_iff_eq]; rfl⟩
      · intro s hsm hsn
        rcases List.mem_append.mp hsm with hsml | hsmr
        · exact absurd hsn (beq_eq_false_iff_ne.mp (hsneg s hsml))
        · rw [List.mem_singleton] at hsmr
          subst hsmr
          exact ⟨rfl, rfl⟩
      · exact foldS_HasGT _ _ _ _ _ hGTA
      · exact foldS_AgreeDeep_left _ _ _ _ (by decide) _ _ hADA
      · intro sg hsg
        have h1 := hsyncB sg hsg
        have h2 : SigSynced b.name ((r.analogsignals.foldl (wdsD [b.name])
            blk.dataArrays).map (rcgLink r))
            (r.analogsignals.foldl (wdsS [b.name]) (rcgSecs2 ⟨blk, secs⟩ r)) sg :=
          ⟨DasSync_map (rcgLink r) (rcgLink_fields r) h1.1, h1.2⟩
        exact SigSynced_filter _ h2 (hpassRcg sg hsg)
      · intro da hda
        obtain ⟨d, hd, rfl⟩ := List.mem_map.mp (List.mem_filter.mp hda).1
        by_cases hmm : d.name ∈ r.analogsignals.map hashName
        · apply iff_of_true
          · exact rcgLink_self hmm
          · rw [(rcgLink_fields r d).1]
            exact hmm
        · rw [rcgLink_not hmm]
          apply iff_of_false
          · intro hc
            exact hnotdoneR (hsrcsubB d hd r.name hc)
          · exact hmm

theorem foldRCG_establish (b : NeoBlock) (hWF : WF b) :
    ∀ (todo doneR : List NeoRCG) (ws : WState),
    doneR ++ todo = b.rcgs →
    RCGPhaseInv b doneR ws →
    RCGPhaseInv b b.rcgs (todo.foldl writeRCG ws) := by
  intro todo
  induction todo with
  | nil =>
      intro doneR ws hsplit h
      rw [List.append_nil] at hsplit
      rw [← hsplit]
      exact h
  | cons rcg rest ih =>
      intro doneR ws hsplit h
      obtain ⟨blk, secs⟩ := ws
      have hrcg : rcg ∈ b.rcgs := by
        rw [← hsplit]
        exact List.mem_append_right _ (List.mem_cons_self _ _)
      have hdoneR : ∀ r ∈ doneR, r ∈ b.rcgs := by
        intro r hr
        rw [← hsplit]
        exact List.mem_append_left _ hr
      have hnd : ((doneR ++ rcg :: rest).map (fun r => r.name)).Nodup := by
        rw [hsplit]
        exact hWF.2.1
      rw [List.map_append] at hnd
      have hdisj := (List.nodup_append.mp hnd).2.2
      have hnotdoneR : rcg.name ∉ doneR.map (fun r => r.name) := by
        intro hc
        exact hdisj hc (List.mem_cons_self _ _)
      have hstep := writeRCG_establish b doneR blk secs rcg hWF hrcg hdoneR hnotdoneR h
      exact ih (doneR ++ [rcg]) (writeRCG ⟨blk, secs⟩ rcg)
        (by rw [List.append_assoc]; exact hsplit) hstep

theorem writeBlockAux_establish (b : NeoBlock) (hWF : WF b) :
    BlockSynced b (writeBlockAux ⟨⟨b.name, "block", [], [], [], []⟩, []⟩ b).blk
      (writeBlockAux ⟨⟨b.name, "block", [], [], [], []⟩, []⟩ b).secs := by
  have hstart : SegPhaseInv b []
      ⟨blk1W ⟨⟨b.name, "block", [], [], [], []⟩, []⟩ b,
       blkSecs2 ⟨⟨b.name, "block", [], [], [], []⟩, []⟩ b⟩ := by
    refine ⟨rfl, rfl, ?_, ?_, ?_, rfl, ?_, ?_, ?_, ?_, ?_⟩
    · show secHas (writeProps (getOrCreateFileSec [] b.name) [b.name]
        (extractBlockMeta b)) b.name = true
      rw [secHas_writeProps_root]
      exact secHas_getOrCreateFileSec_self [] b.name
    · show AgreeRoot (writeProps (getOrCreateFileSec [] b.name) [b.name]
        (extractBlockMeta b)) b.name (extractBlockMeta b)
      exact AgreeRoot_establish _ _ _ (extractBlockMeta_keys_nodup b hWF.2.2.2.1)
    · intro t ht
      exact absurd ht (List.not_mem_nil t)
    · intro da hda
      exact absurd hda (List.not_mem_nil da)
    · intro da hda
      exact absurd hda (List.not_mem_nil da)
    · show (([] : List NDA).map (fun da => da.name)).Nodup
      exact List.nodup_nil
    · intro da hda
      exact absurd hda (List.not_mem_nil da)
    · intro s hs
      exact absurd hs (List.not_mem_nil s)
  have hinv1 : SegPhaseInv b b.segments
      (blkWs1 ⟨⟨b.name, "block", [], [], [], []⟩, []⟩ b) :=
    foldSeg_establish b hWF b.segments []
      ⟨blk1W ⟨⟨b.name, "block", [], [], [], []⟩, []⟩ b,
       blkSecs2 ⟨⟨b.name, "block", [], [], [], []⟩, []⟩ b⟩ rfl hstart
  obtain ⟨h1name, h1mp, h1sec, h1root, h1tagf, h1src, h1dasrc, h1all, h1nd, h1no,
    h1dones⟩ := hinv1
  have hrmT : blkRmT (blk1W ⟨⟨b.name, "block", [], [], [], []⟩, []⟩ b) b = [] := by
    unfold blkRmT
    apply compare_fst_nil
    intro n hn
    exact absurd hn (List.not_mem_nil n)
  have hblk2 : blk2W ⟨⟨b.name, "block", [], [], [], []⟩, []⟩ b =
      (blkWs1 ⟨⟨b.name, "block", [], [], [], []⟩, []⟩ b).blk := by
    unfold blk2W
    rw [hrmT]
    have hf : (blkWs1 ⟨⟨b.name, "block", [], [], [], []⟩, []⟩ b).blk.tags.filter
        (fun t => !([] : List String).contains t.name) =
        (blkWs1 ⟨⟨b.name, "block", [], [], [], []⟩, []⟩ b).blk.tags :=
      List.filter_eq_self.mpr (fun t _ => rfl)
    rw [hf]
  have hinv2start' : RCGPhaseInv b []
      ⟨(blkWs1 ⟨⟨b.name, "block", [], [], [], []⟩, []⟩ b).blk,
       (blkWs1 ⟨⟨b.name, "block", [], [], [], []⟩, []⟩ b).secs⟩ := by
    refine ⟨h1name, h1mp, h1sec, h1root, h1tagf, ?_, ?_, h1all, h1nd, h1no,
      h1dones, ?_⟩
    · intro s hs
      rw [h1src] at hs
      exact absurd hs (List.not_mem_nil s)
    · intro da hda n hn
      rw [h1dasrc da hda] at hn
      exact absurd hn (List.not_mem_nil n)
    · intro r hr
      exact absurd hr (List.not_mem_nil r)
  have hinv2start : RCGPhaseInv b []
      ⟨blk2W ⟨⟨b.name, "block", [], [], [], []⟩, []⟩ b,
       (blkWs1 ⟨⟨b.name, "block", [], [], [], []⟩, []⟩ b).secs⟩ := by
    rw [hblk2]
    exact hinv2start'
  have hinv2 : RCGPhaseInv b b.rcgs
      (blkWs2 ⟨⟨b.name, "block", [], [], [], []⟩, []⟩ b) :=
    foldRCG_establish b hWF b.rcgs []
      ⟨blk2W ⟨⟨b.name, "block", [], [], [], []⟩, []⟩ b,
       (blkWs1 ⟨⟨b.name, "block", [], [], [], []⟩, []⟩ b).secs⟩ rfl hinv2start
  obtain ⟨h2name, h2mp, h2sec, h2root, h2tagf, h2srcf, h2dasrc, h2all, h2nd, h2no,
    h2segs, h2rcgs⟩ := hinv2
  have hrmS : blkRmS (blk2W ⟨⟨b.name, "block", [], [], [], []⟩, []⟩ b) b = [] := by
    rw [hblk2]
    unfold blkRmS
    apply compare_fst_nil
    intro n hn
    obtain ⟨s, hs, rfl⟩ := List.mem_map.mp hn
    have hmem := (List.mem_filter.mp hs).1
    rw [h1src] at hmem
    exact absurd hmem (List.not_mem_nil s)
  have hfin : writeBlockAux ⟨⟨b.name, "block", [], [], [], []⟩, []⟩ b =
      ⟨(blkWs2 ⟨⟨b.name, "block", [], [], [], []⟩, []⟩ b).blk,
       (blkWs2 ⟨⟨b.name, "block", [], [], [], []⟩, []⟩ b).secs⟩ := by
    show (⟨{ (blkWs2 ⟨⟨b.name, "block", [], [], [], []⟩, []⟩ b).blk with sources := (blkWs2 ⟨⟨b.name, "block", [], [], [], []⟩, []⟩ b).blk.sources.filter (fun s => !(blkRmS (blk2W ⟨⟨b.name, "block", [], [], [], []⟩, []⟩ b) b).contains s.name) }, (blkWs2 ⟨⟨b.name, "block", [], [], [], []⟩, []⟩ b).secs⟩ : WState) = _
    rw [hrmS]
    have hf : (blkWs2 ⟨⟨b.name, "block", [], [], [], []⟩, []⟩ b).blk.sources.filter
        (fun s => !([] : List String).contains s.name) =
        (blkWs2 ⟨⟨b.name, "block", [], [], [], []⟩, []⟩ b).blk.sources :=
      List.filter_eq_self.mpr (fun s _ => rfl)
    rw [hf]
  rw [hfin]
  exact ⟨h2name, h2mp, h2sec, h2root, h2tagf, h2srcf, h2no, h2segs, h2rcgs⟩

theorem writeBlock_found (f : NFile) (b : NeoBlock) (blk0 : NBlock)
    (hfind : f.blocks.find? (fun blk => blk.name == b.name) = some blk0) :
    writeBlock f b =
      ⟨f.blocks.map (fun blk => if blk.name = b.name then
          (writeBlockAux ⟨blk0, f.secs⟩ b).blk else blk),
       (writeBlockAux ⟨blk0, f.secs⟩ b).secs⟩ := by
  unfold writeBlock
  rw [hfind]

/-- C2: for the diff-based `neo2nix` `Writer`, writing the same well-formed
unmodified block twice from a fresh store leaves the store exactly as after
the first write — the second `write_block` resolves every object to its
existing key and creates no duplicate arrays, tags, sources or sections. -/
theorem C2_neo2nix_write_block_idempotent (b : NeoBlock) (hWF : WF b) :
    writeBlock (writeBlock emptyFile b) b = writeBlock emptyFile b := by
  have hsync := writeBlockAux_establish b hWF
  generalize hW : writeBlockAux ⟨⟨b.name, "block", [], [], [], []⟩, []⟩ b = W at hsync
  have h1 : writeBlock emptyFile b = ⟨[W.blk], W.secs⟩ := by
    rw [← hW]
    rfl
  rw [h1]
  have hfind : (⟨[W.blk], W.secs⟩ : NFile).blocks.find?
      (fun blk => blk.name == b.name) = some W.blk :=
    find?_singleton_pos _ _ (by rw [beq_iff_eq]; exact hsync.1)
  rw [writeBlock_found ⟨[W.blk], W.secs⟩ b W.blk hfind]
  show (⟨[W.blk].map (fun blk => if blk.name = b.name then (writeBlockAux ⟨W.blk, W.secs⟩ b).blk else blk), (writeBlockAux ⟨W.blk, W.secs⟩ b).secs⟩ : NFile) = ⟨[W.blk], W.secs⟩
  rw [writeBlockAux_noop b W.blk W.secs hsync]
  show (⟨[if W.blk.name = b.name then (⟨W.blk, W.secs⟩ : WState).blk else W.blk], (⟨W.blk, W.secs⟩ : WState).secs⟩ : NFile) = ⟨[W.blk], W.secs⟩
  rw [if_pos hsync.1]

/-- C2 counterexample for the `neonix` `NixIO.write_block`, the other
implementation the claim cites: it resolves a fresh name against the
existing blocks and unconditionally calls `create_block`, so the second
write of the same block adds a second block object `"B-1"` instead of
leaving the store unchanged. -/
theorem C2_cex_neonix_second_write_duplicates :
    NeoNix.neonixWriteBlockNames [] "B" = ["B"] ∧
    NeoNix.neonixWriteBlockNames (NeoNix.neonixWriteBlockNames [] "B") "B" =
      ["B", "B-1"] ∧
    (NeoNix.neonixWriteBlockNames (NeoNix.neonixWriteBlockNames [] "B") "B").length ≠
      (NeoNix.neonixWriteBlockNames [] "B").length := by
  refine ⟨by decide, by decide, by decide⟩

theorem C2_witness :
    WF (⟨"B", none, none, none, none, none,
        [⟨"S", none, none, none, none, none,
          [⟨[1, 2], "mV", 0, "s", 1, "Hz", none, none, none, []⟩], []⟩],
        [⟨"G", none, none, none, none,
          [⟨[1, 2], "mV", 0, "s", 1, "Hz", none, none, none, []⟩], []⟩],
        []⟩ : NeoBlock) ∧
    writeBlock (writeBlock emptyFile
        (⟨"B", none, none, none, none, none,
          [⟨"S", none, none, none, none, none,
            [⟨[1, 2], "mV", 0, "s", 1, "Hz", none, none, none, []⟩], []⟩],
          [⟨"G", none, none, none, none,
            [⟨[1, 2], "mV", 0, "s", 1, "Hz", none, none, none, []⟩], []⟩],
          []⟩ : NeoBlock))
        (⟨"B", none, none, none, none, none,
          [⟨"S", none, none, none, none, none,
            [⟨[1, 2], "mV", 0, "s", 1, "Hz", none, none, none, []⟩], []⟩],
          [⟨"G", none, none, none, none,
            [⟨[1, 2], "mV", 0, "s", 1, "Hz", none, none, none, []⟩], []⟩],
          []⟩ : NeoBlock) =
      writeBlock emptyFile
        (⟨"B", none, none, none, none, none,
          [⟨"S", none, none, none, none, none,
            [⟨[1, 2], "mV", 0, "s", 1, "Hz", none, none, none, []⟩], []⟩],
          [⟨"G", none, none, none, none,
            [⟨[1, 2], "mV", 0, "s", 1, "Hz", none, none, none, []⟩], []⟩],
          []⟩ : NeoBlock) :=
  ⟨by decide, C2_neo2nix_write_block_idempotent _ (by decide)⟩

end NeoToNix
